import Mathlib

/-!
# r.colors statistics (`raster/r.colors/stats.c`)

A shallow embedding of `get_stats` and `get_fp_stats`, and the properties of
their natural-language specification that the code decides.

## Modelling conventions

* `double` (`DCELL`) values are modelled by `DCELL α`: a finite value of an
  ordered field `α`, or one of the IEEE-754 special values `+inf`, `-inf`,
  `NaN`.  Every arithmetic operator of the C source is applied to the exact
  operands and the exact result is passed through `FArith.rnd`, the rounding
  of the floating-point format, which yields a finite value or an infinity.
  `FArith.exact` rounds nothing (arithmetic over the reals); `binary64` rounds
  with `dbl`: round-to-nearest-even to a 53 bit significand with the exponent
  range of the binary64 format, so that a result of magnitude `2 ^ 1024` or
  more overflows to an infinity and results below `2 ^ (-1022)` are rounded to
  multiples of `2 ^ (-1074)` (gradual underflow, down to zero).
* the two zeros of the format are one value `fin 0`: they compare equal, the
  logarithm of either is `-inf`, and the sign of a zero only selects which
  infinity a division by it yields, neither of which `(int)` converts.
* `log` of the C library is `DCELL.log`: `FArith.ln` on positive finite
  arguments, `-inf` at zero, `NaN` below zero.
* `int` row and column counts are naturals below `2 ^ 31`; `unsigned long`
  counters are naturals incremented modulo `2 ^ 64`.
* the conversion `(int) floor(..)` is undefined on a non-finite value or one
  outside the `int` range, and `statf->stats[i]++` is undefined outside the
  allocated block; both end a run in `Outcome.undefined`.
* `G_fatal_error` does not return: a run that calls it ends in
  `Outcome.fatal`, carrying the state reached at the call.
* progress and verbose messages (`G_percent`, `G_verbose_message`) have no
  effect on the statistics and are left out.
-/

namespace RColors

/-! ## Floating-point values -/

/-- A `double`: a finite value or an IEEE-754 special value. -/
inductive DCELL (α : Type) where
  | fin (x : α)
  | pinf
  | ninf
  | nan
  deriving DecidableEq

/-- The arithmetic a run is evaluated in: `rnd` rounds the exact result of
`+`, `-`, `*`, `/` to the floating-point format (to a finite value, or to an
infinity on overflow), and `ln` is the library logarithm on positive finite
arguments. -/
structure FArith (α : Type) where
  rnd : α → DCELL α
  ln : α → α

/-- Exact arithmetic: no operation rounds. -/
def FArith.exact {α : Type} (ln : α → α) : FArith α := ⟨DCELL.fin, ln⟩

namespace DCELL

variable {α : Type} [LinearOrderedField α]

/-- Unary minus. -/
def neg : DCELL α → DCELL α
  | fin x => fin (-x)
  | pinf => ninf
  | ninf => pinf
  | nan => nan

/-- The C library function `fabs`. -/
def fabs : DCELL α → DCELL α
  | fin x => fin |x|
  | pinf => pinf
  | ninf => pinf
  | nan => nan

/-- The operator `+`. -/
def add (A : FArith α) : DCELL α → DCELL α → DCELL α
  | fin x, fin y => A.rnd (x + y)
  | nan, _ => nan
  | _, nan => nan
  | pinf, ninf => nan
  | ninf, pinf => nan
  | pinf, _ => pinf
  | _, pinf => pinf
  | ninf, _ => ninf
  | _, ninf => ninf

/-- The operator `-` (binary): `a - b` is `a + (-b)`. -/
def sub (A : FArith α) (a b : DCELL α) : DCELL α := add A a (neg b)

/-- An infinity of the sign of `x`, `NaN` when `x` is zero. -/
def signedInf (x : α) : DCELL α :=
  if 0 < x then pinf else if x < 0 then ninf else nan

/-- The operator `*`. -/
def mul (A : FArith α) : DCELL α → DCELL α → DCELL α
  | fin x, fin y => A.rnd (x * y)
  | nan, _ => nan
  | _, nan => nan
  | fin x, pinf => signedInf x
  | fin x, ninf => signedInf (-x)
  | pinf, fin y => signedInf y
  | ninf, fin y => signedInf (-y)
  | pinf, pinf => pinf
  | ninf, ninf => pinf
  | pinf, ninf => ninf
  | ninf, pinf => ninf

/-- The operator `/`.  A zero divisor is taken as the positive zero, which the
difference of two equal finite values is; the quotient is then an infinity of
the sign of the dividend, or `NaN`. -/
def div (A : FArith α) : DCELL α → DCELL α → DCELL α
  | fin x, fin y => if y = 0 then signedInf x else A.rnd (x / y)
  | nan, _ => nan
  | _, nan => nan
  | fin _, pinf => fin 0
  | fin _, ninf => fin 0
  | pinf, fin y => if 0 ≤ y then pinf else ninf
  | ninf, fin y => if 0 ≤ y then ninf else pinf
  | pinf, pinf => nan
  | pinf, ninf => nan
  | ninf, pinf => nan
  | ninf, ninf => nan

/-- The comparison `a < b`: false as soon as an operand is `NaN`. -/
def lt : DCELL α → DCELL α → Bool
  | fin x, fin y => decide (x < y)
  | nan, _ => false
  | _, nan => false
  | ninf, ninf => false
  | ninf, _ => true
  | pinf, _ => false
  | fin _, pinf => true
  | fin _, ninf => false

/-- The comparison `a <= b`: false as soon as an operand is `NaN`. -/
def le : DCELL α → DCELL α → Bool
  | fin x, fin y => decide (x ≤ y)
  | nan, _ => false
  | _, nan => false
  | ninf, _ => true
  | _, pinf => true
  | pinf, _ => false
  | fin _, ninf => false

/-- The C library function `log`. -/
def log (A : FArith α) : DCELL α → DCELL α
  | fin x => if 0 < x then fin (A.ln x) else if x = 0 then ninf else nan
  | pinf => pinf
  | ninf => nan
  | nan => nan

/-- The C library function `floor`. -/
def floor [FloorRing α] : DCELL α → DCELL α
  | fin x => fin ((⌊x⌋ : ℤ) : α)
  | pinf => pinf
  | ninf => ninf
  | nan => nan

/-- The conversion `(int) d`: truncation toward zero, defined only when the
truncated value is an `int`. -/
def toInt [FloorRing α] : DCELL α → Option Int
  | fin x =>
    let t : Int := if 0 ≤ x then ⌊x⌋ else ⌈x⌉
    if -2 ^ 31 ≤ t ∧ t < 2 ^ 31 then some t else none
  | _ => none

end DCELL

/-- The rational `2 ^ e` for an integer exponent. -/
def pow2 (e : Int) : ℚ :=
  if 0 ≤ e then ((2 ^ e.toNat : ℕ) : ℚ) else 1 / ((2 ^ (-e).toNat : ℕ) : ℚ)

/-- The position of the leading binary digit of `n`, found in at most `fuel`
halvings. -/
def ilog2 : (fuel n : Nat) → Nat
  | 0, _ => 0
  | fuel + 1, n => if n < 2 then 0 else ilog2 fuel (n / 2) + 1

/-- The exponent `e` with `2 ^ e ≤ |q| < 2 ^ (e + 1)`, for `q ≠ 0`. -/
def binade (q : ℚ) : Int :=
  let n := q.num.natAbs
  let e0 : Int := (ilog2 n n : Int) - (ilog2 q.den q.den : Int)
  if pow2 e0 ≤ |q| then e0 else e0 - 1

/-- The integer nearest to `m`, the even one of the two when `m` is half-way
between two integers. -/
def rne (m : ℚ) : Int :=
  let r : Int := ⌊m⌋
  let f := m - r
  if f < 1 / 2 then r
  else if 1 / 2 < f then r + 1
  else if r % 2 = 0 then r else r + 1

/-- The spacing of the binary64 values around `q`: `2 ^ (e - 52)` in the binade
`e` of `q`, and `2 ^ (-1074)` for every `q` below `2 ^ (-1022)` in magnitude
(the subnormal range). -/
def quantum (q : ℚ) : ℚ := pow2 (max (binade q) (-1022) - 52)

/-- Round to nearest, ties to even, to a significand of 53 bits with the least
exponent of the binary64 format: the multiple of `quantum q` nearest to `q`. -/
def round53 (q : ℚ) : ℚ :=
  if q = 0 then 0 else rne (q / quantum q) * quantum q

/-- The binary64 result of an operation whose exact result is `q`: `q` rounded
to nearest, ties to even, and an infinity when the rounded magnitude reaches
`2 ^ 1024`. -/
def dbl (q : ℚ) : DCELL ℚ :=
  if pow2 1024 ≤ |round53 q| then DCELL.signedInf (round53 q) else DCELL.fin (round53 q)

/-- The rational `q` is a finite value of the binary64 format. -/
@[reducible] def representable (q : ℚ) : Prop := dbl q = DCELL.fin q

/-- A stand-in for the logarithm on the rationals, which have none.  It is
used on runs with `geometric = 0` and `geom_abs = 0`, which never call `log`,
and as an instance of a monotone logarithm; where a property of a binary64
run depends on the logarithm, it is stated for every logarithm `ln` with
`binary64_log ln`. -/
def no_log : ℚ → ℚ := fun _ => 0

/-- The arithmetic of the binary64 format: every operation rounds with `dbl`. -/
def binary64 : FArith ℚ := ⟨dbl, no_log⟩

/-- The arithmetic of the binary64 format with `ln` for the library logarithm
on positive finite arguments. -/
def binary64_log (ln : ℚ → ℚ) : FArith ℚ := ⟨dbl, ln⟩

/-! ## The raster and the statistics records -/

/-- Modelled from the spec: the raster map opened by `Rast_open_old` as seen
through the current region (the GRASS raster library is not part of the
sources).  `nrows` and `ncols` are the `int` results of `G_window_rows` and
`G_window_cols`; `cell row col` is entry `col` of the buffer that
`Rast_get_c_row` / `Rast_get_d_row` fills for `row`, with `none` for a cell
that `Rast_is_d_null_value` reports as null. -/
structure Raster (β : Type) where
  nrows : Nat
  ncols : Nat
  nrows_int : nrows < 2 ^ 31
  ncols_int : ncols < 2 ^ 31
  cell : Nat → Nat → Option β

/-- The raster whose rows are the given lists (cells beyond a list are null). -/
def Raster.ofRows {β : Type} (nrows ncols : Nat) (hr : nrows < 2 ^ 31)
    (hc : ncols < 2 ^ 31) (rows : List (List (Option β))) : Raster β :=
  ⟨nrows, ncols, hr, hc, fun r c => ((rows.getD r []).getD c none)⟩

/-- Modelled from the spec: `struct FP_stats` of `local_proto.h` (not part of
the sources), with the fields `get_fp_stats` assigns.  `stats` is the block of
`unsigned long` that the pointer `statf->stats` addresses. -/
structure FP_stats (α : Type) where
  geometric : Int
  geom_abs : Int
  flip : Int
  count : Int
  min : DCELL α
  max : DCELL α
  stats : List Nat
  total : Nat
  deriving DecidableEq

/-- The state of a run: the statistics record and the rows fetched from the
raster so far, oldest first. -/
structure Run (σ : Type) where
  statf : σ
  rows_read : List Nat
  deriving DecidableEq

/-- How a run ends.  `returned`: the function returned.  `fatal`:
`G_fatal_error` was called in the given state and the process ended.
`undefined`: the run reached a conversion or an array access whose behaviour
C leaves undefined. -/
inductive Outcome (σ : Type) where
  | returned (s : σ)
  | fatal (msg : String) (s : σ)
  | undefined
  deriving DecidableEq

deriving instance DecidableEq for Except

/-- The number of values an `unsigned long` holds (LP64). -/
def ULONG_RANGE : Nat := 2 ^ 64

/-- The loop `for (i = 0; i < n; i++) body`, where the body may be undefined. -/
def forLoop {σ : Type} (body : σ → Nat → Option σ) : Nat → σ → Option σ
  | 0, s => some s
  | n + 1, s => (forLoop body n s).bind (fun s => body s n)

/-- The loop `for (i = 0; i < n; i++) body` for a body that is always defined. -/
def forEach {σ : Type} (body : σ → Nat → σ) : Nat → σ → σ
  | 0, s => s
  | n + 1, s => body (forEach body n s) n

/-! ## `get_fp_stats` -/

section fp

variable {α : Type} [LinearOrderedField α] [FloorRing α]

/-- The message of the fatal error of `get_fp_stats`. -/
def RANGE_MSG : String := "Unable to use logarithmic scaling if range includes zero"

/-- Lines 76-83: under `geometric`, a negative `min` sets `flip` and negates
both bounds; then both bounds are replaced by their logarithms.  The result
is `(flip, min, max)`. -/
def setup_geometric (A : FArith α) (min max : DCELL α) : Int × DCELL α × DCELL α :=
  if DCELL.lt min (DCELL.fin 0) then
    (1, DCELL.log A (DCELL.neg min), DCELL.log A (DCELL.neg max))
  else
    (0, DCELL.log A min, DCELL.log A max)

/-- Lines 87-93: the bounds under `geom_abs`.  The result is `(min, max)`. -/
def setup_geom_abs (A : FArith α) (min max : DCELL α) : DCELL α × DCELL α :=
  let a := DCELL.log A (DCELL.add A (DCELL.fabs min) (DCELL.fin 1))
  let b := DCELL.log A (DCELL.add A (DCELL.fabs max) (DCELL.fin 1))
  let has_zero := DCELL.lt (DCELL.mul A min max) (DCELL.fin 0)
  let min := if DCELL.lt a b then a else b
  let max := if DCELL.lt b a then a else b
  let min := if has_zero then DCELL.fin 0 else min
  (min, max)

/-- Lines 68-100 of `get_fp_stats`: everything before the scan.  `Except.error`
carries the record as it is when `G_fatal_error` is called. -/
def fp_setup (A : FArith α) (statf : FP_stats α) (min max : DCELL α)
    (geometric geom_abs : Int) : Except (FP_stats α) (FP_stats α) :=
  let statf := { statf with geometric := geometric, geom_abs := geom_abs, flip := 0 }
  if statf.geometric ≠ 0 ∧ DCELL.lt (DCELL.mul A min max) (DCELL.fin 0) = true then
    Except.error statf
  else
    let g : Int × DCELL α × DCELL α :=
      if statf.geometric ≠ 0 then setup_geometric A min max else (statf.flip, min, max)
    let b : DCELL α × DCELL α :=
      if statf.geom_abs ≠ 0 then setup_geom_abs A g.2.1 g.2.2 else (g.2.1, g.2.2)
    Except.ok { statf with
      flip := g.1
      count := 1000
      min := b.1
      max := b.2
      stats := List.replicate (1000 + 1) 0
      total := 0 }

/-- Lines 116-122: the value of a cell after the sign flip, the logarithm and
the logarithm of the absolute value plus one, each applied when its flag is
set. -/
def transform (A : FArith α) (statf : FP_stats α) (x : DCELL α) : DCELL α :=
  let x := if statf.flip ≠ 0 then DCELL.neg x else x
  let x := if statf.geometric ≠ 0 then DCELL.log A x else x
  let x := if statf.geom_abs ≠ 0 then
    DCELL.log A (DCELL.add A (DCELL.fabs x) (DCELL.fin 1)) else x
  x

/-- The double `statf->count * (x - statf->min) / (statf->max - statf->min)`
of line 124. -/
def bucket_pos (A : FArith α) (statf : FP_stats α) (x : DCELL α) : DCELL α :=
  DCELL.div A (DCELL.mul A (DCELL.fin (statf.count : α)) (DCELL.sub A x statf.min))
    (DCELL.sub A statf.max statf.min)

/-- Line 124: the index `i = (int) floor(..)`, when the conversion is defined. -/
def bucket (A : FArith α) (statf : FP_stats α) (x : DCELL α) : Option Int :=
  DCELL.toInt (DCELL.floor (bucket_pos A statf x))

/-- Line 125: `statf->stats[i]++`, defined inside the allocated block. -/
def stats_incr (stats : List Nat) (i : Int) : Option (List Nat) :=
  if 0 ≤ i ∧ i.toNat < stats.length then
    some (stats.set i.toNat ((stats.getD i.toNat 0 + 1) % ULONG_RANGE))
  else none

/-- Lines 113-126: the body of the column loop for one cell. -/
def cell_body (A : FArith α) (statf : FP_stats α) (c : Option α) : Option (FP_stats α) :=
  match c with
  | none => some statf
  | some v =>
    match bucket A statf (transform A statf (DCELL.fin v)) with
    | none => none
    | some i =>
      match stats_incr statf.stats i with
      | none => none
      | some stats =>
        some { statf with stats := stats, total := (statf.total + 1) % ULONG_RANGE }

/-- Lines 105-127: the body of the row loop: fetch the row, then run the
column loop over it. -/
def row_body (A : FArith α) (map : Raster α) (w : Run (FP_stats α)) (row : Nat) :
    Option (Run (FP_stats α)) :=
  let dcell := map.cell row
  (forLoop (fun st col => cell_body A st (dcell col)) map.ncols w.statf).map
    (fun st => ⟨st, w.rows_read ++ [row]⟩)

/-- The function `get_fp_stats`. -/
def get_fp_stats (A : FArith α) (map : Raster α) (statf : FP_stats α) (min max : DCELL α)
    (geometric geom_abs : Int) : Outcome (Run (FP_stats α)) :=
  match fp_setup A statf min max geometric geom_abs with
  | Except.error st => Outcome.fatal RANGE_MSG ⟨st, []⟩
  | Except.ok st =>
    match forLoop (row_body A map) map.nrows ⟨st, []⟩ with
    | none => Outcome.undefined
    | some w => Outcome.returned w

end fp

/-! ## `get_stats` -/

/-- Modelled from the spec: `struct Cell_stats` of the raster library (not
part of the sources), the mapping from a discrete cell value to its number
of occurrences, kept as an association list in order of first occurrence. -/
abbrev Cell_stats := List (Int × Nat)

/-- Modelled from the spec: `Rast_init_cell_stats` (raster library, not part
of the sources): the mapping is initialised empty. -/
def Rast_init_cell_stats (_statf : Cell_stats) : Cell_stats := []

/-- Modelled from the spec: one more occurrence of `v`: increment the count of
that exact value, creating the entry with count 1 if not yet present. -/
def tally (v : Int) : Cell_stats → Cell_stats
  | [] => [(v, 1)]
  | (k, c) :: rest => if k = v then (k, c + 1) :: rest else (k, c) :: tally v rest

/-- Modelled from the spec: `Rast_update_cell_stats(cell, n, statf)` (raster
library, not part of the sources): the first `n` cells of the buffer are
taken in order; a null cell is skipped, any other is tallied. -/
def Rast_update_cell_stats (cell : Nat → Option Int) (n : Nat) (statf : Cell_stats) :
    Cell_stats :=
  forEach (fun st col => match cell col with
    | none => st
    | some v => tally v st) n statf

/-- The function `get_stats`: the returned `int` and the final state. -/
def get_stats (map : Raster Int) (statf : Cell_stats) : Int × Run Cell_stats :=
  let w : Run Cell_stats := ⟨Rast_init_cell_stats statf, []⟩
  let w := forEach (fun (w : Run Cell_stats) row =>
    ⟨Rast_update_cell_stats (map.cell row) map.ncols w.statf, w.rows_read ++ [row]⟩)
    map.nrows w
  (1, w)

/-! ## Counting cells -/

/-- The number of non-null cells among the first `ncols` cells of a row. -/
def row_count {β : Type} (row : Nat → Option β) (ncols : Nat) : Nat :=
  ((List.range ncols).filter (fun c => (row c).isSome)).length

/-- The number of non-null cells of a raster. -/
def cell_count {β : Type} (map : Raster β) : Nat :=
  ((List.range map.nrows).map (fun r => row_count (map.cell r) map.ncols)).sum

/-! ## Auxiliary predicates -/

/-- The scan changes only the buckets and the total: everything `fp_setup`
stored besides them, and the size of the bucket block, is the same in `s'` as
in `s`. -/
def same_config {α : Type} (s s' : FP_stats α) : Prop :=
  s'.geometric = s.geometric ∧ s'.geom_abs = s.geom_abs ∧ s'.flip = s.flip ∧
    s'.count = s.count ∧ s'.min = s.min ∧ s'.max = s.max ∧
    s'.stats.length = s.stats.length

/-- A `double` that is a finite non-negative value or `+inf`. -/
def DCELL.nonneg {α : Type} [LinearOrderedField α] : DCELL α → Prop
  | DCELL.fin x => 0 ≤ x
  | DCELL.pinf => True
  | _ => False

/-- A `double` that is not `NaN`. -/
def DCELL.ordered {α : Type} : DCELL α → Prop
  | DCELL.nan => False
  | _ => True

/-- A `double` that is finite. -/
def DCELL.finite {α : Type} : DCELL α → Prop
  | DCELL.fin _ => True
  | _ => False

/-! ## Sample inputs -/

/-- A record that has not been set up: what the caller passes in. -/
def FP_stats.blank {α : Type} : FP_stats α := ⟨0, 0, 0, 0, DCELL.nan, DCELL.nan, [], 0⟩

/-- The 1x4 continuous raster `[1.0, 2.0, 3.0, 4.0]`. -/
def raster_1x4 : Raster ℚ :=
  Raster.ofRows 1 4 (by decide) (by decide) [[some 1, some 2, some 3, some 4]]

/-- The state `get_fp_stats` returns on `raster_1x4` with `min = 1`, `max = 4`
and no transform: one sample in each of the buckets 0, 333, 666 and 1000. -/
def run_1x4 : Run (FP_stats ℚ) :=
  ⟨⟨0, 0, 0, 1000, DCELL.fin 1, DCELL.fin 4,
    ((((List.replicate 1001 0).set 0 1).set 333 1).set 666 1).set 1000 1, 4⟩, [0]⟩

/-- The 2x2 continuous raster with rows `[1.0, null]`, `[null, 4.0]`. -/
def raster_2x2 : Raster ℚ :=
  Raster.ofRows 2 2 (by decide) (by decide) [[some 1, none], [none, some 4]]

/-- The state `get_fp_stats` returns on `raster_2x2` with `min = 1`, `max = 4`
and no transform: one sample in each of the buckets 0 and 1000. -/
def run_2x2 : Run (FP_stats ℚ) :=
  ⟨⟨0, 0, 0, 1000, DCELL.fin 1, DCELL.fin 4,
    ((List.replicate 1001 0).set 0 1).set 1000 1, 2⟩, [0, 1]⟩

/-- The 1x1 continuous raster whose only cell holds `v`. -/
def raster_1x1 {β : Type} (v : β) : Raster β :=
  Raster.ofRows 1 1 (by decide) (by decide) [[some v]]

/-- The `double` written `1.1`: the binary64 value nearest to 11/10. -/
def dbl_1_1 : ℚ := round53 (11 / 10)

/-- The record `fp_setup` returns for `min = 0.0`, `max = 1.1` and no
transform. -/
def setup_0_1_1 : FP_stats ℚ :=
  ⟨0, 0, 0, 1000, DCELL.fin 0, DCELL.fin dbl_1_1, List.replicate 1001 0, 0⟩

/-- The 2x2 discrete raster with rows `[1, 1]`, `[2, null]`. -/
def raster_cats : Raster Int :=
  Raster.ofRows 2 2 (by decide) (by decide) [[some 1, some 1], [some 2, none]]

/-- The `double` written `2.2`: the binary64 value nearest to 22/10. -/
def dbl_2_2 : ℚ := round53 (22 / 10)

/-- The record `fp_setup` returns for `min = 0.0`, `max = 2.2` and no
transform. -/
def setup_0_2_2 : FP_stats ℚ :=
  ⟨0, 0, 0, 1000, DCELL.fin 0, DCELL.fin dbl_2_2, List.replicate 1001 0, 0⟩

/-- The rounding of the arithmetic is monotone and leaves zero as it is. -/
def FArith.rounds_monotone {α : Type} [LinearOrderedField α] (A : FArith α) : Prop :=
  A.rnd 0 = DCELL.fin 0 ∧ ∀ x y : α, x ≤ y → DCELL.le (A.rnd x) (A.rnd y) = true

/-- The logarithm of the arithmetic is monotone on the positive values. -/
def FArith.log_monotone {α : Type} [LinearOrderedField α] (A : FArith α) : Prop :=
  ∀ x y : α, 0 < x → x ≤ y → A.ln x ≤ A.ln y

/-- The `double` `2 ^ (-600)`. -/
def dbl_tiny : ℚ := pow2 (-600)

/-- The record `fp_setup` returns for `min = 1.0`, `max = 4.0` and no
transform. -/
def setup_1_4 : FP_stats ℚ :=
  ⟨0, 0, 0, 1000, DCELL.fin 1, DCELL.fin 4, List.replicate 1001 0, 0⟩

/-- The arithmetic behaves as the binary64 arithmetic does with a well-behaved
library logarithm: the rounding is monotone and leaves 0 and 1 as they are,
and the logarithm is monotone on the positive values and not negative at 1. -/
def FArith.well_behaved {α : Type} [LinearOrderedField α] (A : FArith α) : Prop :=
  A.rounds_monotone ∧ A.rnd 1 = DCELL.fin 1 ∧ A.log_monotone ∧ 0 ≤ A.ln 1

/-- The 1x3 continuous raster `[a, null, b]`. -/
def raster_1x3 {β : Type} (a b : β) : Raster β :=
  Raster.ofRows 1 3 (by decide) (by decide) [[some a, none, some b]]

/-- The record `fp_setup` returns for `min = 1.0`, `max = 1.0` and no
transform. -/
def setup_1_1 : FP_stats ℚ :=
  ⟨0, 0, 0, 1000, DCELL.fin 1, DCELL.fin 1, List.replicate 1001 0, 0⟩

/-- The record `fp_setup` returns for `min = 0.0`, `max = 1.0` and no
transform. -/
def setup_0_1 : FP_stats ℚ :=
  ⟨0, 0, 0, 1000, DCELL.fin 0, DCELL.fin 1, List.replicate 1001 0, 0⟩

/-- The `double` written `0.3`: the binary64 value nearest to 3/10. -/
def dbl_0_3 : ℚ := round53 (3 / 10)

/-- The `double` `2 ^ 1020`. -/
def dbl_huge : ℚ := pow2 1020

/-- The record `fp_setup` returns for `min = 0.0`, `max = 2 ^ 1020` and no
transform. -/
def setup_0_huge : FP_stats ℚ :=
  ⟨0, 0, 0, 1000, DCELL.fin 0, DCELL.fin dbl_huge, List.replicate 1001 0, 0⟩

/-! ## The binary64 rounding -/

/-- The function `pow2` is the power of two. -/
theorem pow2_eq_zpow (e : Int) : pow2 e = (2 : ℚ) ^ e := by
  unfold pow2
  split
  · rename_i h
    have h1 : e = (e.toNat : ℤ) := (Int.toNat_of_nonneg h).symm
    conv_rhs => rw [h1]
    rw [zpow_natCast]
    push_cast
    rfl
  · rename_i h
    have h0 : 0 ≤ -e := by omega
    have h1 : e = -((-e).toNat : ℤ) := by rw [Int.toNat_of_nonneg h0]; ring
    conv_rhs => rw [h1]
    rw [zpow_neg, zpow_natCast]
    push_cast
    rw [one_div]

theorem pow2_pos (e : Int) : 0 < pow2 e := by
  rw [pow2_eq_zpow]
  positivity

theorem pow2_le_pow2 {a b : Int} (h : a ≤ b) : pow2 a ≤ pow2 b := by
  rw [pow2_eq_zpow, pow2_eq_zpow]
  exact zpow_le_zpow_right₀ (by norm_num) h

theorem pow2_lt_pow2 {a b : Int} (h : a < b) : pow2 a < pow2 b := by
  rw [pow2_eq_zpow, pow2_eq_zpow]
  exact zpow_lt_zpow_right₀ (by norm_num) h

theorem pow2_add_one (a : Int) : pow2 (a + 1) = 2 * pow2 a := by
  rw [pow2_eq_zpow, pow2_eq_zpow, zpow_add_one₀ (by norm_num)]
  ring

theorem pow2_add (a b : Int) : pow2 (a + b) = pow2 a * pow2 b := by
  rw [pow2_eq_zpow, pow2_eq_zpow, pow2_eq_zpow, zpow_add₀ (by norm_num)]

/-- With enough fuel `ilog2 n` is the position of the leading binary digit of
`n`. -/
theorem ilog2_spec : ∀ (fuel n : Nat), 1 ≤ n → n ≤ fuel →
    2 ^ ilog2 fuel n ≤ n ∧ n < 2 ^ (ilog2 fuel n + 1)
  | 0, n, h1, h2 => by omega
  | fuel + 1, n, h1, h2 => by
    unfold ilog2
    split
    · rename_i h
      simp
      omega
    · rename_i h
      obtain ⟨a, b⟩ := ilog2_spec fuel (n / 2) (by omega) (by omega)
      constructor
      · rw [pow_succ]
        omega
      · rw [pow_succ]
        omega

/-- The binade of a non-zero `q` is the exponent `e` with
`2 ^ e ≤ |q| < 2 ^ (e + 1)`. -/
theorem binade_spec (q : ℚ) (hq : q ≠ 0) :
    pow2 (binade q) ≤ |q| ∧ |q| < pow2 (binade q + 1) := by
  have hn : 1 ≤ q.num.natAbs := Nat.one_le_iff_ne_zero.2 (by simpa using hq)
  have hd : 1 ≤ q.den := q.den_pos
  obtain ⟨a1, a2⟩ := ilog2_spec q.num.natAbs q.num.natAbs hn le_rfl
  obtain ⟨b1, b2⟩ := ilog2_spec q.den q.den hd le_rfl
  have habs : |q| = (q.num.natAbs : ℚ) / (q.den : ℚ) := by
    rw [Rat.abs_def, Rat.divInt_eq_div]
    push_cast
    rw [Nat.cast_natAbs, Int.cast_abs]
  unfold binade
  simp only
  generalize ilog2 q.num.natAbs q.num.natAbs = a at a1 a2
  generalize ilog2 q.den q.den = b at b1 b2
  have A1 : (2 : ℚ) ^ a ≤ (q.num.natAbs : ℚ) := by exact_mod_cast a1
  have A2 : (q.num.natAbs : ℚ) < 2 * (2 : ℚ) ^ a := by
    have : (q.num.natAbs : ℚ) < (2 : ℚ) ^ (a + 1) := by exact_mod_cast a2
    rwa [pow_succ, mul_comm] at this
  have B1 : (2 : ℚ) ^ b ≤ (q.den : ℚ) := by exact_mod_cast b1
  have B2 : (q.den : ℚ) < 2 * (2 : ℚ) ^ b := by
    have : (q.den : ℚ) < (2 : ℚ) ^ (b + 1) := by exact_mod_cast b2
    rwa [pow_succ, mul_comm] at this
  have hA : (0 : ℚ) < 2 ^ a := by positivity
  have hB : (0 : ℚ) < 2 ^ b := by positivity
  have hD : (0 : ℚ) < (q.den : ℚ) := by exact_mod_cast q.den_pos
  have hN : (0 : ℚ) < (q.num.natAbs : ℚ) := by exact_mod_cast hn
  have he0 : pow2 ((a : ℤ) - (b : ℤ)) = (2 : ℚ) ^ a / (2 : ℚ) ^ b := by
    rw [pow2_eq_zpow, zpow_sub₀ (by norm_num), zpow_natCast, zpow_natCast]
  have hup : |q| < pow2 ((a : ℤ) - (b : ℤ) + 1) := by
    rw [pow2_add_one, he0, habs, div_lt_iff₀ hD]
    have : 2 * ((2 : ℚ) ^ a / 2 ^ b) * (q.den : ℚ) = 2 * 2 ^ a * ((q.den : ℚ) / 2 ^ b) := by
      field_simp
    rw [this]
    have h1 : (1 : ℚ) ≤ (q.den : ℚ) / 2 ^ b := by rwa [le_div_iff₀ hB, one_mul]
    nlinarith
  have hlow : pow2 ((a : ℤ) - (b : ℤ) - 1) ≤ |q| := by
    have h2 : pow2 ((a : ℤ) - (b : ℤ)) = 2 * pow2 ((a : ℤ) - (b : ℤ) - 1) := by
      rw [← pow2_add_one]
      congr 1
      ring
    have h3 : pow2 ((a : ℤ) - (b : ℤ) - 1) = (2 : ℚ) ^ a / (2 * 2 ^ b) := by
      have : pow2 ((a : ℤ) - (b : ℤ) - 1) = pow2 ((a : ℤ) - (b : ℤ)) / 2 := by
        rw [h2]; ring
      rw [this, he0]
      field_simp
      ring
    rw [h3, habs, div_le_div_iff₀ (by positivity) hD]
    nlinarith
  split
  · rename_i h
    exact ⟨h, hup⟩
  · rename_i h
    refine ⟨hlow, ?_⟩
    have : (a : ℤ) - (b : ℤ) - 1 + 1 = (a : ℤ) - (b : ℤ) := by ring
    rw [this]
    exact not_le.1 h

/-- Rounding to an integer yields the floor or the next integer. -/
theorem rne_bounds (m : ℚ) : ⌊m⌋ ≤ rne m ∧ rne m ≤ ⌊m⌋ + 1 := by
  unfold rne
  simp only
  split_ifs <;> omega

/-- An integer is its own rounding. -/
theorem rne_intCast (k : ℤ) : rne (k : ℚ) = k := by
  unfold rne
  simp [Int.floor_intCast]

/-- Rounding to an integer is monotone. -/
theorem rne_mono {x y : ℚ} (h : x ≤ y) : rne x ≤ rne y := by
  rcases (Int.floor_mono h).lt_or_eq with hlt | heq
  · have h1 := (rne_bounds x).2
    have h2 := (rne_bounds y).1
    omega
  · unfold rne
    simp only
    rw [heq]
    have hf : x - (⌊y⌋ : ℚ) ≤ y - (⌊y⌋ : ℚ) := by linarith
    split_ifs <;> first | omega | (exfalso; linarith)

/-- The rounding of `m` is negative exactly below `-1/2` (the tie `-1/2` goes to
the even integer 0). -/
theorem rne_neg_iff (m : ℚ) : rne m < 0 ↔ m < -(1 / 2) := by
  have h1 := Int.floor_le m
  have h2 := Int.lt_floor_add_one m
  have key : ∀ z : ℤ, (z : ℚ) ≤ -1 ↔ z < 0 := by
    intro z
    constructor
    · intro h
      have : (z : ℚ) < 0 := by linarith
      exact_mod_cast this
    · intro h
      have : z ≤ -1 := by omega
      exact_mod_cast this
  unfold rne
  simp only
  generalize ⌊m⌋ = r at h1 h2 ⊢
  split_ifs with c1 c2 c3
  · rw [← key]
    constructor
    · intro h; linarith
    · intro h
      rw [key]
      by_contra hc
      have : (0 : ℚ) ≤ r := by exact_mod_cast (not_lt.1 hc)
      linarith
  · rw [← key]
    push_cast
    constructor
    · intro h; linarith
    · intro h
      have h3 : (r : ℚ) < -1 := by linarith
      have h4 : r < -1 := by exact_mod_cast h3
      have h5 : r + 1 ≤ -1 := by omega
      exact_mod_cast h5
  · have hm : m = r + 1 / 2 := by linarith
    constructor
    · intro h
      have h3 : r ≤ -2 := by omega
      have h4 : (r : ℚ) ≤ -2 := by exact_mod_cast h3
      linarith
    · intro h
      have h3 : (r : ℚ) < -1 := by linarith
      have h4 : r < -1 := by exact_mod_cast h3
      omega
  · have hm : m = r + 1 / 2 := by linarith
    constructor
    · intro h
      have h3 : r ≤ -2 := by omega
      have h4 : (r : ℚ) ≤ -2 := by exact_mod_cast h3
      linarith
    · intro h
      have h3 : (r : ℚ) < -1 := by linarith
      have h4 : r < -1 := by exact_mod_cast h3
      omega

/-- The rounding of `m` is positive exactly above `1/2`. -/
theorem rne_pos_iff (m : ℚ) : 0 < rne m ↔ 1 / 2 < m := by
  have h1 := Int.floor_le m
  have h2 := Int.lt_floor_add_one m
  unfold rne
  simp only
  generalize ⌊m⌋ = r at h1 h2 ⊢
  split_ifs with c1 c2 c3
  · constructor
    · intro h
      have h3 : (1 : ℚ) ≤ r := by exact_mod_cast (show 1 ≤ r by omega)
      linarith
    · intro h
      have h3 : (0 : ℚ) < r := by linarith
      exact_mod_cast h3
  · constructor
    · intro h
      have h3 : (0 : ℚ) ≤ r := by exact_mod_cast (show 0 ≤ r by omega)
      linarith
    · intro h
      have h3 : (-1 : ℚ) < r := by linarith
      have h4 : -1 < r := by exact_mod_cast h3
      omega
  · have hm : m = r + 1 / 2 := by linarith
    constructor
    · intro h
      have h3 : (1 : ℚ) ≤ r := by exact_mod_cast (show 1 ≤ r by omega)
      linarith
    · intro h
      have h3 : (0 : ℚ) < r := by linarith
      exact_mod_cast h3
  · have hm : m = r + 1 / 2 := by linarith
    constructor
    · intro h
      have h3 : (1 : ℚ) ≤ r := by exact_mod_cast (show 1 ≤ r by omega)
      linarith
    · intro h
      have h3 : (0 : ℚ) < r := by linarith
      have h4 : 0 < r := by exact_mod_cast h3
      omega

/-- The rounding of a non-zero `q` is the multiple of its quantum nearest to
`q`. -/
theorem round53_eq (q : ℚ) (hq : q ≠ 0) : round53 q = rne (q / quantum q) * quantum q := by
  simp [round53, quantum, hq]

theorem quantum_pos (q : ℚ) : 0 < quantum q := pow2_pos _

theorem quantum_ge (q : ℚ) : pow2 (-1074) ≤ quantum q := by
  unfold quantum
  exact pow2_le_pow2 (by omega)

theorem pow2_1075 : pow2 (-1074) = 2 * pow2 (-1075) := by
  rw [← pow2_add_one]
  rfl

/-- The rounding of `q` is negative exactly when `q < -2 ^ (-1075)`, half the
least subnormal: anything smaller in magnitude rounds to zero. -/
theorem round53_neg_iff (q : ℚ) : round53 q < 0 ↔ q < -pow2 (-1075) := by
  have hp := pow2_pos (-1075)
  by_cases hq : q = 0
  · subst hq
    simp only [round53, if_true, lt_irrefl, false_iff, not_lt]
    linarith
  · have hu := quantum_pos q
    have hge := quantum_ge q
    rw [pow2_1075] at hge
    rw [round53_eq q hq]
    have h1 : (rne (q / quantum q) : ℚ) * quantum q < 0 ↔ rne (q / quantum q) < 0 := by
      rw [mul_neg_iff]
      constructor
      · rintro (⟨_, h⟩ | ⟨h, _⟩)
        · exact absurd h (not_lt.2 hu.le)
        · exact_mod_cast h
      · intro h
        exact Or.inr ⟨by exact_mod_cast h, hu⟩
    rw [h1, rne_neg_iff, div_lt_iff₀ hu]
    constructor
    · intro h
      nlinarith
    · intro h
      have hneg : q < 0 := by linarith
      by_cases hb : binade q ≤ -1022
      · have : quantum q = pow2 (-1074) := by
          unfold quantum
          rw [max_eq_right hb]
          rfl
        rw [this, pow2_1075]
        linarith
      · have hb' : -1022 ≤ binade q := by omega
        have hqu : quantum q = pow2 (binade q - 52) := by
          unfold quantum
          rw [max_eq_left hb']
        have h2 : pow2 (binade q - 52) ≤ pow2 (binade q) := pow2_le_pow2 (by omega)
        have h3 := (binade_spec q hq).1
        rw [abs_of_neg hneg] at h3
        rw [hqu]
        have h4 := pow2_pos (binade q - 52)
        nlinarith

/-- The rounding of `q` is positive exactly when `2 ^ (-1075) < q`. -/
theorem round53_pos_iff (q : ℚ) : 0 < round53 q ↔ pow2 (-1075) < q := by
  have hp := pow2_pos (-1075)
  by_cases hq : q = 0
  · subst hq
    simp only [round53, if_true, lt_irrefl, false_iff, not_lt]
    linarith
  · have hu := quantum_pos q
    have hge := quantum_ge q
    rw [pow2_1075] at hge
    rw [round53_eq q hq]
    have h1 : 0 < (rne (q / quantum q) : ℚ) * quantum q ↔ 0 < rne (q / quantum q) := by
      rw [mul_pos_iff]
      constructor
      · rintro (⟨h, _⟩ | ⟨_, h⟩)
        · exact_mod_cast h
        · exact absurd h (not_lt.2 hu.le)
      · intro h
        exact Or.inl ⟨by exact_mod_cast h, hu⟩
    rw [h1, rne_pos_iff, lt_div_iff₀ hu]
    constructor
    · intro h
      nlinarith
    · intro h
      have hpos : 0 < q := by linarith
      by_cases hb : binade q ≤ -1022
      · have : quantum q = pow2 (-1074) := by
          unfold quantum
          rw [max_eq_right hb]
          rfl
        rw [this, pow2_1075]
        linarith
      · have hb' : -1022 ≤ binade q := by omega
        have hqu : quantum q = pow2 (binade q - 52) := by
          unfold quantum
          rw [max_eq_left hb']
        have h2 : pow2 (binade q - 52) ≤ pow2 (binade q) := pow2_le_pow2 (by omega)
        have h3 := (binade_spec q hq).1
        rw [abs_of_pos hpos] at h3
        rw [hqu]
        have h4 := pow2_pos (binade q - 52)
        nlinarith

/-- A power of two is an integer multiple of every smaller power of two. -/
theorem pow2_grid (a b : Int) (h : a ≤ b) : ∃ k : ℤ, pow2 b = (k : ℚ) * pow2 a := by
  refine ⟨(2 ^ (b - a).toNat : ℕ), ?_⟩
  have h1 : b = (b - a) + a := by ring
  have h2 : pow2 (b - a) = ((2 ^ (b - a).toNat : ℕ) : ℚ) := by
    unfold pow2
    rw [if_pos (by omega)]
  conv_lhs => rw [h1, pow2_add, h2]
  push_cast
  rfl

/-- The binade grows with the magnitude. -/
theorem binade_mono {x y : ℚ} (hx : x ≠ 0) (hy : y ≠ 0) (h : |x| ≤ |y|) :
    binade x ≤ binade y := by
  by_contra hc
  have h1 : binade y + 1 ≤ binade x := by omega
  have h2 := (binade_spec y hy).2
  have h3 := (binade_spec x hx).1
  have h4 := pow2_le_pow2 h1
  linarith

/-- The rounding of `x` does not pass a multiple of its quantum above `x`. -/
theorem round53_le_grid (x : ℚ) (k : ℤ) (hx : x ≠ 0) (h : x ≤ k * quantum x) :
    round53 x ≤ k * quantum x := by
  have hu := quantum_pos x
  rw [round53_eq x hx]
  have h1 : x / quantum x ≤ (k : ℚ) := by rwa [div_le_iff₀ hu]
  have h2 := rne_mono h1
  rw [rne_intCast] at h2
  have h3 : (rne (x / quantum x) : ℚ) ≤ k := by exact_mod_cast h2
  exact mul_le_mul_of_nonneg_right h3 hu.le

/-- The rounding of `x` does not pass a multiple of its quantum below `x`. -/
theorem grid_le_round53 (x : ℚ) (k : ℤ) (hx : x ≠ 0) (h : k * quantum x ≤ x) :
    k * quantum x ≤ round53 x := by
  have hu := quantum_pos x
  rw [round53_eq x hx]
  have h1 : (k : ℚ) ≤ x / quantum x := by rwa [le_div_iff₀ hu]
  have h2 := rne_mono h1
  rw [rne_intCast] at h2
  have h3 : (k : ℚ) ≤ rne (x / quantum x) := by exact_mod_cast h2
  exact mul_le_mul_of_nonneg_right h3 hu.le

/-- Rounding is monotone. -/
theorem round53_mono {x y : ℚ} (h : x ≤ y) : round53 x ≤ round53 y := by
  have hp := pow2_pos (-1075)
  by_cases hxn : x ≤ 0
  · have hrx : round53 x ≤ 0 := by
      by_contra hc
      have := (round53_pos_iff x).1 (not_le.1 hc)
      linarith
    by_cases hyn : 0 ≤ y
    · have hry : 0 ≤ round53 y := by
        by_contra hc
        have := (round53_neg_iff y).1 (not_le.1 hc)
        linarith
      linarith
    · -- both negative
      have hy : y < 0 := not_le.1 hyn
      have hx : x < 0 := lt_of_le_of_lt h hy
      have hb := binade_mono hy.ne hx.ne (by rw [abs_of_neg hy, abs_of_neg hx]; linarith)
      by_cases he : max (binade x) (-1022) = max (binade y) (-1022)
      · have hq : quantum x = quantum y := by unfold quantum; rw [he]
        have hu := quantum_pos y
        rw [round53_eq x hx.ne, round53_eq y hy.ne, hq]
        have h1 : x / quantum y ≤ y / quantum y := div_le_div_of_nonneg_right h hu.le
        have h2 : (rne (x / quantum y) : ℚ) ≤ rne (y / quantum y) := by
          exact_mod_cast rne_mono h1
        exact mul_le_mul_of_nonneg_right h2 hu.le
      · have hlt : max (binade y) (-1022) < max (binade x) (-1022) :=
          lt_of_le_of_ne (max_le_max hb le_rfl) (Ne.symm he)
        have hEx : max (binade x) (-1022) = binade x := by
          rcases le_total (binade x) (-1022) with hc | hc
          · rw [max_eq_right hc] at hlt
            exact absurd hlt (not_lt.2 (le_max_right _ _))
          · exact max_eq_left hc
        rw [hEx] at hlt
        have hx1 := (binade_spec x hx.ne).1
        rw [abs_of_neg hx] at hx1
        have hy1 := (binade_spec y hy.ne).2
        rw [abs_of_neg hy] at hy1
        have hy2 : pow2 (binade y + 1) ≤ pow2 (binade x) :=
          pow2_le_pow2 (by have := le_max_left (binade y) (-1022); omega)
        obtain ⟨kx, hkx⟩ := pow2_grid (max (binade x) (-1022) - 52) (binade x) (by omega)
        obtain ⟨ky, hky⟩ := pow2_grid (max (binade y) (-1022) - 52) (binade x) (by omega)
        have e1 : -pow2 (binade x) = ((-kx : ℤ) : ℚ) * quantum x := by
          unfold quantum
          rw [hkx]
          push_cast
          ring
        have e2 : -pow2 (binade x) = ((-ky : ℤ) : ℚ) * quantum y := by
          unfold quantum
          rw [hky]
          push_cast
          ring
        have r1 := round53_le_grid x (-kx) hx.ne (by rw [← e1]; linarith)
        have r2 := grid_le_round53 y (-ky) hy.ne (by rw [← e2]; linarith)
        rw [← e1] at r1
        rw [← e2] at r2
        linarith
  · -- both positive
    have hx : 0 < x := not_le.1 hxn
    have hy : 0 < y := lt_of_lt_of_le hx h
    have hb := binade_mono hx.ne' hy.ne' (by rw [abs_of_pos hx, abs_of_pos hy]; exact h)
    by_cases he : max (binade x) (-1022) = max (binade y) (-1022)
    · have hq : quantum x = quantum y := by unfold quantum; rw [he]
      have hu := quantum_pos y
      rw [round53_eq x hx.ne', round53_eq y hy.ne', hq]
      have h1 : x / quantum y ≤ y / quantum y := div_le_div_of_nonneg_right h hu.le
      have h2 : (rne (x / quantum y) : ℚ) ≤ rne (y / quantum y) := by
        exact_mod_cast rne_mono h1
      exact mul_le_mul_of_nonneg_right h2 hu.le
    · have hlt : max (binade x) (-1022) < max (binade y) (-1022) :=
        lt_of_le_of_ne (max_le_max hb le_rfl) he
      have hEy : max (binade y) (-1022) = binade y := by
        rcases le_total (binade y) (-1022) with hc | hc
        · rw [max_eq_right hc] at hlt
          exact absurd hlt (not_lt.2 (le_max_right _ _))
        · exact max_eq_left hc
      rw [hEy] at hlt
      have hy1 := (binade_spec y hy.ne').1
      rw [abs_of_pos hy] at hy1
      have hx1 := (binade_spec x hx.ne').2
      rw [abs_of_pos hx] at hx1
      have hx2 : pow2 (binade x + 1) ≤ pow2 (binade y) :=
        pow2_le_pow2 (by have := le_max_left (binade x) (-1022); omega)
      obtain ⟨kx, hkx⟩ := pow2_grid (max (binade x) (-1022) - 52) (binade y) (by omega)
      obtain ⟨ky, hky⟩ := pow2_grid (max (binade y) (-1022) - 52) (binade y) (by omega)
      have e1 : pow2 (binade y) = (kx : ℚ) * quantum x := hkx
      have e2 : pow2 (binade y) = (ky : ℚ) * quantum y := hky
      have r1 := round53_le_grid x kx hx.ne' (by rw [← e1]; linarith)
      have r2 := grid_le_round53 y ky hy.ne' (by rw [← e2]; linarith)
      rw [← e1] at r1
      rw [← e2] at r2
      linarith

/-- Every rounded value is a multiple of the least subnormal `2 ^ (-1074)`. -/
theorem round53_grid (q : ℚ) : ∃ k : ℤ, round53 q = (k : ℚ) * pow2 (-1074) := by
  by_cases hq : q = 0
  · exact ⟨0, by simp [round53, hq]⟩
  · obtain ⟨k, hk⟩ := pow2_grid (-1074) (max (binade q) (-1022) - 52)
      (by have := le_max_right (binade q) (-1022); omega)
    refine ⟨rne (q / quantum q) * k, ?_⟩
    rw [round53_eq q hq]
    unfold quantum
    rw [hk]
    push_cast
    ring


theorem dbl_zero : dbl 0 = DCELL.fin 0 := by decide!

/-- A binary64 result is never `NaN`. -/
theorem dbl_ordered (q : ℚ) : (dbl q).ordered := by
  have hp := pow2_pos 1024
  unfold dbl
  split
  · rename_i h
    unfold DCELL.signedInf
    split
    · trivial
    · split
      · trivial
      · rename_i h1 h2
        have : round53 q = 0 := le_antisymm (not_lt.1 h1) (not_lt.1 h2)
        rw [this, abs_zero] at h
        linarith
  · trivial

/-- Rounding to binary64 is monotone. -/
theorem dbl_mono {x y : ℚ} (h : x ≤ y) : DCELL.le (dbl x) (dbl y) = true := by
  have hp := pow2_pos 1024
  have hr := round53_mono h
  unfold dbl DCELL.signedInf
  by_cases hx : pow2 1024 ≤ |round53 x|
  · rw [if_pos hx]
    by_cases hx0 : 0 < round53 x
    · rw [abs_of_pos hx0] at hx
      have hy0 : 0 < round53 y := lt_of_lt_of_le hx0 hr
      have hy : pow2 1024 ≤ |round53 y| := by rw [abs_of_pos hy0]; linarith
      simp [hx0, hy, hy0, DCELL.le]
    · have hx1 : round53 x < 0 := by
        rcases lt_trichotomy (round53 x) 0 with c | c | c
        · exact c
        · rw [c, abs_zero] at hx; linarith
        · exact absurd c hx0
      rw [if_neg hx0, if_pos hx1]
      by_cases hy : pow2 1024 ≤ |round53 y|
      · rw [if_pos hy]
        by_cases hy0 : 0 < round53 y
        · simp [hy0, DCELL.le]
        · have hy1 : round53 y < 0 := by
            rcases lt_trichotomy (round53 y) 0 with c | c | c
            · exact c
            · rw [c, abs_zero] at hy; linarith
            · exact absurd c hy0
          simp [hy0, hy1, DCELL.le]
      · simp [hy, DCELL.le]
  · rw [if_neg hx]
    by_cases hy : pow2 1024 ≤ |round53 y|
    · rw [if_pos hy]
      by_cases hy0 : 0 < round53 y
      · simp [hy0, DCELL.le]
      · have hy1 : round53 y < 0 := by
          rcases lt_trichotomy (round53 y) 0 with c | c | c
          · exact c
          · rw [c, abs_zero] at hy; linarith
          · exact absurd c hy0
        exfalso
        rw [abs_of_neg hy1] at hy
        have hx1 : round53 x < 0 := lt_of_le_of_lt hr hy1
        rw [abs_of_neg hx1] at hx
        linarith
    · simp [hy, DCELL.le, hr]

/-- The binary64 result of an operation is below zero exactly when the exact
result is below `-2 ^ (-1075)`: a result of smaller magnitude underflows to
zero. -/
theorem dbl_lt_zero_iff (q : ℚ) :
    DCELL.lt (dbl q) (DCELL.fin 0) = true ↔ q < -pow2 (-1075) := by
  have hp := pow2_pos 1024
  rw [← round53_neg_iff]
  unfold dbl DCELL.signedInf
  by_cases hx : pow2 1024 ≤ |round53 q|
  · rw [if_pos hx]
    by_cases h0 : 0 < round53 q
    · simp [h0, DCELL.lt, not_lt.2 h0.le]
    · have h1 : round53 q < 0 := by
        rcases lt_trichotomy (round53 q) 0 with c | c | c
        · exact c
        · rw [c, abs_zero] at hx; linarith
        · exact absurd c h0
      simp [h0, h1, DCELL.lt]
  · simp [hx, DCELL.lt]

/-- The binary64 result of an operation is above zero exactly when the exact
result is above `2 ^ (-1075)`. -/
theorem dbl_pos_iff (q : ℚ) :
    DCELL.lt (DCELL.fin 0) (dbl q) = true ↔ pow2 (-1075) < q := by
  have hp := pow2_pos 1024
  rw [← round53_pos_iff]
  unfold dbl DCELL.signedInf
  by_cases hx : pow2 1024 ≤ |round53 q|
  · rw [if_pos hx]
    by_cases h0 : 0 < round53 q
    · simp [h0, DCELL.lt]
    · have h1 : round53 q < 0 := by
        rcases lt_trichotomy (round53 q) 0 with c | c | c
        · exact c
        · rw [c, abs_zero] at hx; linarith
        · exact absurd c h0
      simp [h0, h1, DCELL.lt]
  · simp [hx, DCELL.lt]

/-- A finite binary64 value is its own rounding. -/
theorem round53_of_representable (q : ℚ) (h : representable q) : round53 q = q := by
  unfold representable dbl at h
  split at h
  · unfold DCELL.signedInf at h
    split at h
    · cases h
    · split at h <;> cases h
  · exact DCELL.fin.inj h

/-- The difference of two distinct finite binary64 values does not underflow
to zero. -/
theorem dbl_sub_pos (x y : ℚ) (hx : representable x) (hy : representable y) (h : x < y) :
    DCELL.lt (DCELL.fin 0) (dbl (y - x)) = true := by
  rw [dbl_pos_iff]
  obtain ⟨kx, hkx⟩ := round53_grid x
  obtain ⟨ky, hky⟩ := round53_grid y
  rw [round53_of_representable x hx] at hkx
  rw [round53_of_representable y hy] at hky
  have hg := pow2_pos (-1074)
  have h75 := pow2_pos (-1075)
  have hk : kx < ky := by
    by_contra hc
    have : (ky : ℚ) ≤ kx := by exact_mod_cast (not_lt.1 hc)
    have := mul_le_mul_of_nonneg_right this hg.le
    linarith
  have hk1 : (kx : ℚ) + 1 ≤ ky := by exact_mod_cast hk
  have := mul_le_mul_of_nonneg_right hk1 hg.le
  rw [pow2_1075] at this hkx hky
  nlinarith

/-! ## Loops -/

/-- An invariant of a `forLoop` that is kept by every defined step of the body
holds of the final state. -/
theorem forLoop_invariant {σ : Type} (body : σ → Nat → Option σ) (P : Nat → σ → Prop)
    (n : Nat) (s s' : σ) (h0 : P 0 s)
    (hstep : ∀ k t t', k < n → P k t → body t k = some t' → P (k + 1) t')
    (h : forLoop body n s = some s') : P n s' := by
  induction n generalizing s' with
  | zero =>
    simp only [forLoop, Option.some.injEq] at h
    exact h ▸ h0
  | succ n ih =>
    simp only [forLoop, Option.bind_eq_some] at h
    obtain ⟨t, ht, hb⟩ := h
    exact hstep n t s' (Nat.lt_succ_self n)
      (ih t (fun k u u' hk => hstep k u u' (Nat.lt_succ_of_lt hk)) ht) hb

/-- A `forLoop` whose body is defined at every step from any state satisfying
the invariant is itself defined. -/
theorem forLoop_defined {σ : Type} (body : σ → Nat → Option σ) (P : Nat → σ → Prop)
    (n : Nat) (s : σ) (h0 : P 0 s)
    (hstep : ∀ k t, k < n → P k t → ∃ t', body t k = some t' ∧ P (k + 1) t') :
    ∃ s', forLoop body n s = some s' ∧ P n s' := by
  induction n with
  | zero => exact ⟨s, rfl, h0⟩
  | succ n ih =>
    obtain ⟨t, ht, hP⟩ := ih (fun k u hk => hstep k u (Nat.lt_succ_of_lt hk))
    obtain ⟨t', hb, hP'⟩ := hstep n t (Nat.lt_succ_self n) hP
    exact ⟨t', by simp [forLoop, ht, hb], hP'⟩

/-- An invariant of a `forEach` that is kept by every step of the body holds of
the final state. -/
theorem forEach_invariant {σ : Type} (body : σ → Nat → σ) (P : Nat → σ → Prop)
    (n : Nat) (s : σ) (h0 : P 0 s)
    (hstep : ∀ k t, k < n → P k t → P (k + 1) (body t k)) : P n (forEach body n s) := by
  induction n with
  | zero => exact h0
  | succ n ih =>
    exact hstep n _ (Nat.lt_succ_self n) (ih (fun k u hk => hstep k u (Nat.lt_succ_of_lt hk)))

/-! ## Counting -/

theorem row_count_zero {β : Type} (row : Nat → Option β) : row_count row 0 = 0 := by
  simp [row_count]

theorem row_count_succ {β : Type} (row : Nat → Option β) (n : Nat) :
    row_count row (n + 1) = row_count row n + (if (row n).isSome then 1 else 0) := by
  simp only [row_count, List.range_succ, List.filter_append, List.length_append]
  by_cases h : (row n).isSome <;> simp [h]

theorem row_count_le {β : Type} (row : Nat → Option β) (n : Nat) : row_count row n ≤ n := by
  induction n with
  | zero => simp [row_count_zero]
  | succ n ih =>
    rw [row_count_succ]
    split <;> omega

/-- The non-null cells of the first `r + 1` rows are those of the first `r` rows
and those of row `r`. -/
theorem rows_count_succ {β : Type} (map : Raster β) (r : Nat) :
    ((List.range (r + 1)).map (fun r => row_count (map.cell r) map.ncols)).sum
      = ((List.range r).map (fun r => row_count (map.cell r) map.ncols)).sum
        + row_count (map.cell r) map.ncols := by
  simp [List.range_succ]

/-- The first `r` rows hold at most `r * ncols` non-null cells. -/
theorem rows_count_le {β : Type} (map : Raster β) (r : Nat) :
    ((List.range r).map (fun r => row_count (map.cell r) map.ncols)).sum ≤ r * map.ncols := by
  induction r with
  | zero => simp
  | succ r ih =>
    rw [rows_count_succ, Nat.succ_mul]
    have := row_count_le (map.cell r) map.ncols
    omega

/-- A raster has fewer than `2 ^ 62` cells, so an `unsigned long` counts them
without wrapping. -/
theorem cells_lt_ULONG_RANGE {β : Type} (map : Raster β) (r : Nat) (hr : r ≤ map.nrows) :
    r * map.ncols < ULONG_RANGE := by
  have h1 := map.nrows_int
  have h2 := map.ncols_int
  have h3 : r * map.ncols ≤ 2 ^ 31 * 2 ^ 31 :=
    Nat.mul_le_mul (by omega) (by omega)
  have h4 : (2 : Nat) ^ 31 * 2 ^ 31 < 2 ^ 64 := by norm_num
  unfold ULONG_RANGE
  omega

theorem cell_count_lt_ULONG_RANGE {β : Type} (map : Raster β) :
    cell_count map < ULONG_RANGE :=
  lt_of_le_of_lt (rows_count_le map map.nrows) (cells_lt_ULONG_RANGE map map.nrows le_rfl)

/-! ## The bucket array -/

theorem sum_set_add_getD (l : List Nat) (i v : Nat) (h : i < l.length) :
    (l.set i v).sum + l.getD i 0 = l.sum + v := by
  induction l generalizing i with
  | nil => simp at h
  | cons a l ih =>
    cases i with
    | zero => simp; omega
    | succ i =>
      have := ih i (by simpa using h)
      simp only [List.set_cons_succ, List.sum_cons, List.getD_cons_succ]
      omega

theorem getD_le_sum (l : List Nat) (i : Nat) : l.getD i 0 ≤ l.sum := by
  induction l generalizing i with
  | nil => simp
  | cons a l ih =>
    cases i with
    | zero => simp
    | succ i =>
      have := ih i
      simp only [List.getD_cons_succ, List.sum_cons]
      omega

/-- Incrementing a bucket adds one to the sum of the buckets, as long as the
sum stays in the range of an `unsigned long`. -/
theorem stats_incr_sum (stats stats' : List Nat) (i : Int)
    (h : stats_incr stats i = some stats') (hlt : stats.sum + 1 < ULONG_RANGE) :
    stats'.sum = stats.sum + 1 ∧ stats'.length = stats.length := by
  unfold stats_incr at h
  split at h
  · rename_i hi
    simp only [Option.some.injEq] at h
    subst h
    have hle := getD_le_sum stats i.toNat
    have hmod : (stats.getD i.toNat 0 + 1) % ULONG_RANGE = stats.getD i.toNat 0 + 1 :=
      Nat.mod_eq_of_lt (by omega)
    have := sum_set_add_getD stats i.toNat (stats.getD i.toNat 0 + 1) hi.2
    rw [hmod]
    refine ⟨by omega, by simp⟩
  · simp at h

/-- Every step of a `forLoop` that is defined was taken from a state
satisfying the invariant, and was itself defined. -/
theorem forLoop_step_defined {σ : Type} (body : σ → Nat → Option σ) (P : Nat → σ → Prop)
    (n : Nat) (s s' : σ) (h0 : P 0 s)
    (hstep : ∀ k t t', k < n → P k t → body t k = some t' → P (k + 1) t')
    (h : forLoop body n s = some s') :
    ∀ k, k < n → ∃ t t', P k t ∧ body t k = some t' := by
  induction n generalizing s' with
  | zero => intro k hk; omega
  | succ n ih =>
    simp only [forLoop, Option.bind_eq_some] at h
    obtain ⟨t, ht, hb⟩ := h
    have hstep' : ∀ k u u', k < n → P k u → body u k = some u' → P (k + 1) u' :=
      fun k u u' hk => hstep k u u' (Nat.lt_succ_of_lt hk)
    intro k hk
    rcases Nat.lt_succ_iff_lt_or_eq.1 hk with hlt | heq
    · exact ih t hstep' ht k hlt
    · subst heq
      exact ⟨t, s', forLoop_invariant body P k s t h0 hstep' ht, hb⟩

/-! ## The scan of `get_fp_stats` -/

theorem same_config_refl {α : Type} (s : FP_stats α) : same_config s s :=
  ⟨rfl, rfl, rfl, rfl, rfl, rfl, rfl⟩

theorem same_config_trans {α : Type} {s t u : FP_stats α} (h1 : same_config s t)
    (h2 : same_config t u) :
    same_config s u := by
  obtain ⟨a1, a2, a3, a4, a5, a6, a7⟩ := h1
  obtain ⟨b1, b2, b3, b4, b5, b6, b7⟩ := h2
  exact ⟨b1.trans a1, b2.trans a2, b3.trans a3, b4.trans a4, b5.trans a5, b6.trans a6,
    b7.trans a7⟩

/-- A null cell leaves the record as it is. -/
theorem cell_body_null {α : Type} [LinearOrderedField α] [FloorRing α]
    (A : FArith α) (s : FP_stats α) : cell_body A s none = some s := rfl

/-- What a defined step of the column loop does to a non-null cell: one
bucket, the one `bucket` computes, and the total are incremented. -/
theorem cell_body_some {α : Type} [LinearOrderedField α] [FloorRing α]
    (A : FArith α) (s s' : FP_stats α) (v : α)
    (h : cell_body A s (some v) = some s') :
    ∃ i stats, bucket A s (transform A s (DCELL.fin v)) = some i ∧
      stats_incr s.stats i = some stats ∧
      s' = { s with stats := stats, total := (s.total + 1) % ULONG_RANGE } := by
  unfold cell_body at h
  simp only at h
  split at h
  · simp at h
  · rename_i i hi
    split at h
    · simp at h
    · rename_i stats hst
      simp only [Option.some.injEq] at h
      exact ⟨i, stats, hi, hst, h.symm⟩

/-- One step of the column loop keeps `total` equal to the sum of the buckets
and counts the cell when it is not null. -/
theorem cell_body_spec {α : Type} [LinearOrderedField α] [FloorRing α]
    (A : FArith α) (s s' : FP_stats α) (c : Option α)
    (h : cell_body A s c = some s') (hsum : s.stats.sum = s.total)
    (hlt : s.total + 1 < ULONG_RANGE) :
    s'.stats.sum = s'.total ∧ s'.total = s.total + (if c.isSome then 1 else 0) ∧
      same_config s s' := by
  cases c with
  | none =>
    simp only [cell_body_null, Option.some.injEq] at h
    subst h
    exact ⟨hsum, by simp, same_config_refl s⟩
  | some v =>
    obtain ⟨i, stats, _, hst, rfl⟩ := cell_body_some A s s' v h
    obtain ⟨h1, h2⟩ := stats_incr_sum s.stats stats i hst (by omega)
    have hmod : (s.total + 1) % ULONG_RANGE = s.total + 1 := Nat.mod_eq_of_lt hlt
    refine ⟨?_, ?_, ⟨rfl, rfl, rfl, rfl, rfl, rfl, h2⟩⟩
    · simp only [hmod, h1, hsum]
    · simp [hmod]

/-- The column loop over the first `n` cells of a row. -/
theorem col_loop_spec {α : Type} [LinearOrderedField α] [FloorRing α]
    (A : FArith α) (row : Nat → Option α) (n : Nat) (s s' : FP_stats α)
    (h : forLoop (fun st col => cell_body A st (row col)) n s = some s')
    (hsum : s.stats.sum = s.total) (hlt : s.total + n < ULONG_RANGE) :
    s'.stats.sum = s'.total ∧ s'.total = s.total + row_count row n ∧ same_config s s' := by
  refine forLoop_invariant _
    (fun k t => t.stats.sum = t.total ∧ t.total = s.total + row_count row k ∧ same_config s t)
    n s s' ⟨hsum, by simp [row_count_zero], same_config_refl s⟩ ?_ h
  intro k t t' hk ⟨ht1, ht2, ht3⟩ hb
  have hle := row_count_le row k
  obtain ⟨h1, h2, h3⟩ := cell_body_spec A t t' (row k) hb ht1 (by omega)
  refine ⟨h1, ?_, same_config_trans ht3 h3⟩
  rw [h2, ht2, row_count_succ]
  omega

/-- The row loop over the first `r` rows, started on a record whose total is
the sum of its buckets and counts no cell yet. -/
theorem row_loop_spec {α : Type} [LinearOrderedField α] [FloorRing α]
    (A : FArith α) (map : Raster α) (r : Nat) (w w' : Run (FP_stats α))
    (h : forLoop (row_body A map) r w = some w') (hr : r ≤ map.nrows)
    (hsum : w.statf.stats.sum = w.statf.total) (h0 : w.statf.total = 0) :
    w'.statf.stats.sum = w'.statf.total ∧
      w'.statf.total = ((List.range r).map (fun r => row_count (map.cell r) map.ncols)).sum ∧
      w'.rows_read = w.rows_read ++ List.range r ∧ same_config w.statf w'.statf := by
  refine forLoop_invariant _
    (fun k t => t.statf.stats.sum = t.statf.total ∧
      t.statf.total = ((List.range k).map (fun r => row_count (map.cell r) map.ncols)).sum ∧
      t.rows_read = w.rows_read ++ List.range k ∧ same_config w.statf t.statf)
    r w w' ⟨hsum, by simp [h0], by simp, same_config_refl _⟩ ?_ h
  intro k t t' hk ⟨ht1, ht2, ht3, ht4⟩ hb
  unfold row_body at hb
  simp only [Option.map_eq_some'] at hb
  obtain ⟨st, hst, rfl⟩ := hb
  have hle := rows_count_le map k
  have hbound := cells_lt_ULONG_RANGE map (k + 1) (by omega)
  rw [Nat.succ_mul] at hbound
  obtain ⟨h1, h2, h3⟩ := col_loop_spec A (map.cell k) map.ncols t.statf st hst ht1 (by omega)
  refine ⟨h1, ?_, ?_, same_config_trans ht4 h3⟩
  · rw [rows_count_succ, h2, ht2]
  · simp [ht3, List.range_succ]

/-- What `fp_setup` stores besides the bounds and `flip`. -/
theorem fp_setup_ok {α : Type} [LinearOrderedField α] (A : FArith α)
    (statf st : FP_stats α) (min max : DCELL α) (geometric geom_abs : Int)
    (h : fp_setup A statf min max geometric geom_abs = Except.ok st) :
    st.geometric = geometric ∧ st.geom_abs = geom_abs ∧ st.count = 1000 ∧
      st.stats = List.replicate 1001 0 ∧ st.total = 0 := by
  unfold fp_setup at h
  simp only at h
  split at h
  · simp at h
  · simp only [Except.ok.injEq] at h
    subst h
    exact ⟨rfl, rfl, rfl, rfl, rfl⟩

/-- A run of `get_fp_stats` that returns went through a successful setup and
the complete scan: every row was fetched once, in order, `total` is the number
of non-null cells and the sum of the buckets, and the scan changed nothing
else. -/
theorem get_fp_stats_returned {α : Type} [LinearOrderedField α] [FloorRing α]
    (A : FArith α) (map : Raster α) (statf : FP_stats α)
    (min max : DCELL α) (geometric geom_abs : Int) (w : Run (FP_stats α))
    (h : get_fp_stats A map statf min max geometric geom_abs = Outcome.returned w) :
    ∃ st, fp_setup A statf min max geometric geom_abs = Except.ok st ∧
      same_config st w.statf ∧ w.statf.total = cell_count map ∧
      w.statf.stats.sum = w.statf.total ∧ w.rows_read = List.range map.nrows := by
  unfold get_fp_stats at h
  split at h
  · simp at h
  · rename_i st hst
    split at h
    · simp at h
    · rename_i w' hw
      simp only [Outcome.returned.injEq] at h
      subst h
      obtain ⟨_, _, _, hstats, htotal⟩ := fp_setup_ok A statf st min max geometric geom_abs hst
      obtain ⟨h1, h2, h3, h4⟩ := row_loop_spec A map map.nrows ⟨st, []⟩ w' hw le_rfl
        (by rw [hstats, htotal, List.sum_replicate, smul_zero]) htotal
      exact ⟨st, hst, h4, h2, h1, by simpa using h3⟩

/-- The run on a raster of one cell: the setup, then the body of the column
loop on that cell. -/
theorem get_fp_stats_1x1 {α : Type} [LinearOrderedField α] [FloorRing α] (A : FArith α)
    (v : α) (statf st : FP_stats α) (min max : DCELL α) (geometric geom_abs : Int)
    (hst : fp_setup A statf min max geometric geom_abs = Except.ok st) :
    get_fp_stats A (raster_1x1 v) statf min max geometric geom_abs =
      match cell_body A st (some v) with
      | none => Outcome.undefined
      | some st' => Outcome.returned ⟨st', [0]⟩ := by
  unfold get_fp_stats
  rw [hst]
  simp only [raster_1x1, Raster.ofRows, forLoop, Option.some_bind, row_body, List.getD_cons_zero,
    List.nil_append]
  cases cell_body A st (some v) <;> rfl

/-- A defined step of the column loop keeps the configuration. -/
theorem cell_body_same_config {α : Type} [LinearOrderedField α] [FloorRing α] (A : FArith α)
    (st u u' : FP_stats α) (c : Option α) (hu : same_config st u)
    (hb : cell_body A u c = some u') : same_config st u' := by
  cases c with
  | none =>
    rw [cell_body_null] at hb
    cases hb
    exact hu
  | some v =>
    obtain ⟨i, stats, _, hs, rfl⟩ := cell_body_some A u u' v hb
    obtain ⟨a1, a2, a3, a4, a5, a6, a7⟩ := hu
    refine ⟨a1, a2, a3, a4, a5, a6, ?_⟩
    unfold stats_incr at hs
    split at hs
    · cases hs
      simpa using a7
    · cases hs

/-- The transform and the bucket index depend on the configuration only. -/
theorem bucket_transform_congr {α : Type} [LinearOrderedField α] [FloorRing α] (A : FArith α)
    (st t : FP_stats α) (h : same_config st t) (x : DCELL α) :
    transform A t x = transform A st x ∧ bucket A t x = bucket A st x := by
  obtain ⟨c1, c2, c3, c4, c5, c6, _⟩ := h
  simp only [transform, bucket, bucket_pos, c1, c2, c3, c4, c5, c6, and_self]

/-- The body of the column loop is defined on a cell whose bucket index
exists and lies inside the block of buckets. -/
theorem cell_body_defined {α : Type} [LinearOrderedField α] [FloorRing α] (A : FArith α)
    (st t : FP_stats α) (c : Option α) (h : same_config st t)
    (hidx : ∀ v, c = some v → ∃ i, bucket A st (transform A st (DCELL.fin v)) = some i ∧
      0 ≤ i ∧ i.toNat < st.stats.length) :
    ∃ t', cell_body A t c = some t' ∧ same_config st t' := by
  cases c with
  | none => exact ⟨t, rfl, h⟩
  | some v =>
    obtain ⟨i, hi, h0, h1⟩ := hidx v rfl
    obtain ⟨htr, _⟩ := bucket_transform_congr A st t h (DCELL.fin v)
    obtain ⟨_, hb⟩ := bucket_transform_congr A st t h (transform A st (DCELL.fin v))
    have hlen : i.toNat < t.stats.length := by rw [h.2.2.2.2.2.2]; exact h1
    have hcell : cell_body A t (some v) = some { t with
        stats := t.stats.set i.toNat ((t.stats.getD i.toNat 0 + 1) % ULONG_RANGE)
        total := (t.total + 1) % ULONG_RANGE } := by
      unfold cell_body
      simp only [htr, hb, hi, stats_incr, h0, hlen, and_self, if_true]
    exact ⟨_, hcell, cell_body_same_config A st t _ (some v) h hcell⟩

/-- A run whose setup succeeds and in which every non-null cell has a bucket
index inside `0..1000` returns. -/
theorem get_fp_stats_returns {α : Type} [LinearOrderedField α] [FloorRing α] (A : FArith α)
    (map : Raster α) (statf st : FP_stats α) (min max : DCELL α) (geometric geom_abs : Int)
    (hst : fp_setup A statf min max geometric geom_abs = Except.ok st)
    (hidx : ∀ r c v, r < map.nrows → c < map.ncols → map.cell r c = some v →
      ∃ i, bucket A st (transform A st (DCELL.fin v)) = some i ∧ 0 ≤ i ∧ i ≤ 1000) :
    ∃ w, get_fp_stats A map statf min max geometric geom_abs = Outcome.returned w := by
  obtain ⟨_, _, _, hstats, _⟩ := fp_setup_ok A statf st min max geometric geom_abs hst
  have hlen : st.stats.length = 1001 := by rw [hstats, List.length_replicate]
  obtain ⟨w, hw, _⟩ := forLoop_defined (row_body A map)
    (fun _ (t : Run (FP_stats α)) => same_config st t.statf) map.nrows ⟨st, []⟩
    (same_config_refl st)
    (fun r t hr ht => by
      obtain ⟨u, hu, hP⟩ := forLoop_defined
        (fun u col => cell_body A u (map.cell r col)) (fun _ u => same_config st u)
        map.ncols t.statf ht
        (fun c u hc hu => cell_body_defined A st u (map.cell r c) hu (fun v hv => by
          obtain ⟨i, hi, h0, h1⟩ := hidx r c v hr hc hv
          exact ⟨i, hi, h0, by rw [hlen]; omega⟩))
      refine ⟨⟨u, t.rows_read ++ [r]⟩, ?_, hP⟩
      unfold row_body
      simp only [hu, Option.map_some'])
  refine ⟨w, ?_⟩
  unfold get_fp_stats
  rw [hst]
  simp only [hw]

/-! ## The range error (C1) -/

/-- In any arithmetic, `fp_setup` fails exactly when `geometric` is set and the
test `min * max < 0` of line 73 succeeds, and it then leaves the record with
only the three flags written. -/
theorem fp_setup_error_iff {α : Type} [LinearOrderedField α] (A : FArith α)
    (statf : FP_stats α) (min max : DCELL α) (geometric geom_abs : Int) :
    ((∃ st, fp_setup A statf min max geometric geom_abs = Except.error st) ↔
      (geometric ≠ 0 ∧ DCELL.lt (DCELL.mul A min max) (DCELL.fin 0) = true)) ∧
    (∀ st, fp_setup A statf min max geometric geom_abs = Except.error st →
      st = { statf with geometric := geometric, geom_abs := geom_abs, flip := 0 }) := by
  unfold fp_setup
  simp only
  split
  · rename_i h
    exact ⟨⟨fun _ => h, fun _ => ⟨_, rfl⟩⟩, fun st hst => (Except.error.inj hst).symm⟩
  · rename_i h
    exact ⟨⟨fun ⟨st, hst⟩ => (by cases hst), fun h' => absurd h' h⟩,
      fun st hst => (by cases hst)⟩

/-- In any arithmetic, `get_fp_stats` ends in the fatal error exactly when
`fp_setup` fails, and then in the state `fp_setup` failed in, with no row
fetched. -/
theorem get_fp_stats_fatal_iff {α : Type} [LinearOrderedField α] [FloorRing α] (A : FArith α)
    (map : Raster α) (statf : FP_stats α) (min max : DCELL α) (geometric geom_abs : Int)
    (msg : String) (w : Run (FP_stats α)) :
    get_fp_stats A map statf min max geometric geom_abs = Outcome.fatal msg w ↔
      (msg = RANGE_MSG ∧ w.rows_read = [] ∧
        fp_setup A statf min max geometric geom_abs = Except.error w.statf) := by
  unfold get_fp_stats
  split
  · rename_i st hst
    constructor
    · intro h
      simp only [Outcome.fatal.injEq] at h
      obtain ⟨h1, h2⟩ := h
      subst h2
      exact ⟨h1.symm, rfl, hst⟩
    · rintro ⟨h1, h2, h3⟩
      obtain ⟨st', rows⟩ := w
      simp only at h2 h3
      rw [hst] at h3
      cases h3
      subst h1 h2
      rfl
  · rename_i st hst
    constructor
    · intro h
      split at h <;> cases h
    · rintro ⟨_, _, h3⟩
      rw [hst] at h3
      cases h3

/-- The record a successful `fp_setup` returns, field by field. -/
theorem fp_setup_ok_fields {α : Type} [LinearOrderedField α] (A : FArith α)
    (statf st : FP_stats α) (min max : DCELL α) (geometric geom_abs : Int)
    (h : fp_setup A statf min max geometric geom_abs = Except.ok st) :
    ¬ (geometric ≠ 0 ∧ DCELL.lt (DCELL.mul A min max) (DCELL.fin 0) = true) ∧
    st.flip = (if geometric ≠ 0 then setup_geometric A min max else (0, min, max)).1 ∧
    (st.min, st.max) =
      (if geom_abs ≠ 0 then
        setup_geom_abs A
          (if geometric ≠ 0 then setup_geometric A min max else (0, min, max)).2.1
          (if geometric ≠ 0 then setup_geometric A min max else (0, min, max)).2.2
      else
        ((if geometric ≠ 0 then setup_geometric A min max else (0, min, max)).2.1,
         (if geometric ≠ 0 then setup_geometric A min max else (0, min, max)).2.2)) := by
  unfold fp_setup at h
  simp only at h
  split at h
  · cases h
  · rename_i hne
    simp only [Except.ok.injEq] at h
    subst h
    refine ⟨hne, rfl, ?_⟩
    by_cases hga : geom_abs = 0 <;> simp [hga]

/-- A successful `fp_setup` exists exactly when the range test does not fire. -/
theorem fp_setup_ok_of_not_error {α : Type} [LinearOrderedField α] (A : FArith α)
    (statf : FP_stats α) (min max : DCELL α) (geometric geom_abs : Int)
    (h : ¬ (geometric ≠ 0 ∧ DCELL.lt (DCELL.mul A min max) (DCELL.fin 0) = true)) :
    ∃ st, fp_setup A statf min max geometric geom_abs = Except.ok st := by
  cases hres : fp_setup A statf min max geometric geom_abs with
  | error st =>
    exact absurd ((fp_setup_error_iff A statf min max geometric geom_abs).1.1 ⟨st, hres⟩) h
  | ok st => exact ⟨st, rfl⟩

/-- In binary64 arithmetic, whatever the library logarithm, with `geometric`
set, `min = -2 ^ (-600)` and `max = 2 ^ (-600)`: the product underflows to
zero, so the range test does not fire; `min < 0` sets `flip`, and the
logarithms of the negated bounds are `ln(2 ^ (-600))` and `NaN`. -/
theorem fp_setup_underflow (ln : ℚ → ℚ) (geom_abs : Int) :
    DCELL.mul (binary64_log ln) (DCELL.fin (-dbl_tiny)) (DCELL.fin dbl_tiny) = DCELL.fin 0 ∧
    ∃ st : FP_stats ℚ,
      fp_setup (binary64_log ln) FP_stats.blank (DCELL.fin (-dbl_tiny)) (DCELL.fin dbl_tiny)
        1 geom_abs = Except.ok st ∧
      st.flip = 1 ∧
      (st.min, st.max) =
        (if geom_abs ≠ 0 then
          setup_geom_abs (binary64_log ln) (DCELL.fin (ln dbl_tiny)) DCELL.nan
        else (DCELL.fin (ln dbl_tiny), DCELL.nan)) := by
  have hmul : dbl (-dbl_tiny * dbl_tiny) = DCELL.fin 0 := by decide!
  have hpos : (0 : ℚ) < dbl_tiny := by decide!
  have hneg : -dbl_tiny < 0 := by linarith
  have hnn : ¬ (0 : ℚ) < -dbl_tiny := by linarith
  have hne : ¬ -dbl_tiny = 0 := by linarith
  have hmul' : DCELL.mul (binary64_log ln) (DCELL.fin (-dbl_tiny)) (DCELL.fin dbl_tiny)
      = DCELL.fin 0 := hmul
  refine ⟨hmul', ?_⟩
  obtain ⟨st, hst⟩ := fp_setup_ok_of_not_error (binary64_log ln) FP_stats.blank
    (DCELL.fin (-dbl_tiny)) (DCELL.fin dbl_tiny) 1 geom_abs
    (by rw [hmul']; simp [DCELL.lt])
  obtain ⟨_, hflip, hb⟩ := fp_setup_ok_fields _ _ _ _ _ _ _ hst
  have hgeo : setup_geometric (binary64_log ln) (DCELL.fin (-dbl_tiny)) (DCELL.fin dbl_tiny)
      = (1, DCELL.fin (ln dbl_tiny), DCELL.nan) := by
    simp [setup_geometric, DCELL.lt, DCELL.neg, DCELL.log, binary64_log, hneg, hpos, hnn, hne]
  simp only [ne_eq, one_ne_zero, not_false_eq_true, if_true, hgeo] at hflip hb
  exact ⟨st, hst, hflip, hb⟩

/-- A run whose setup succeeds and in which every non-null cell has a bucket
index inside `0..1000` returns, with every row fetched once and in order,
`total` the number of non-null cells and the sum of the 1001 buckets, and
nothing else of the record changed. -/
theorem get_fp_stats_scan {α : Type} [LinearOrderedField α] [FloorRing α] (A : FArith α)
    (map : Raster α) (statf st : FP_stats α) (min max : DCELL α) (geometric geom_abs : Int)
    (hst : fp_setup A statf min max geometric geom_abs = Except.ok st)
    (hidx : ∀ r c v, r < map.nrows → c < map.ncols → map.cell r c = some v →
      ∃ i, bucket A st (transform A st (DCELL.fin v)) = some i ∧ 0 ≤ i ∧ i ≤ 1000) :
    ∃ w, get_fp_stats A map statf min max geometric geom_abs = Outcome.returned w ∧
      same_config st w.statf ∧ w.statf.total = cell_count map ∧
      w.statf.stats.sum = w.statf.total ∧ w.statf.stats.length = 1001 ∧
      w.rows_read = List.range map.nrows := by
  obtain ⟨w, hw⟩ := get_fp_stats_returns A map statf st min max geometric geom_abs hst hidx
  obtain ⟨st', hst', hcfg, htotal, hsum, hrows⟩ :=
    get_fp_stats_returned A map statf min max geometric geom_abs w hw
  rw [hst] at hst'
  cases hst'
  obtain ⟨_, _, _, hstats, _⟩ := fp_setup_ok A statf st min max geometric geom_abs hst
  exact ⟨w, hw, hcfg, htotal, hsum, by rw [hcfg.2.2.2.2.2.2, hstats, List.length_replicate],
    hrows⟩

/-- Claim C2, as the code has it. In any arithmetic, on any raster and any
configuration: when the setup succeeds and every non-null cell has a bucket
index in `0..1000`, `get_fp_stats` returns and `statf->total` equals the sum
of the 1001 entries of `statf->stats` (and the number of non-null cells); and
no run that returns ends otherwise. -/
theorem get_fp_stats_total_eq_sum {α : Type} [LinearOrderedField α] [FloorRing α]
    (A : FArith α) (map : Raster α) (statf st : FP_stats α) (min max : DCELL α)
    (geometric geom_abs : Int)
    (hst : fp_setup A statf min max geometric geom_abs = Except.ok st)
    (hidx : ∀ r c v, r < map.nrows → c < map.ncols → map.cell r c = some v →
      ∃ i, bucket A st (transform A st (DCELL.fin v)) = some i ∧ 0 ≤ i ∧ i ≤ 1000) :
    (∃ w, get_fp_stats A map statf min max geometric geom_abs = Outcome.returned w ∧
      w.statf.total = w.statf.stats.sum ∧ w.statf.stats.length = 1001 ∧
      w.statf.total = cell_count map) ∧
    (∀ w, get_fp_stats A map statf min max geometric geom_abs = Outcome.returned w →
      w.statf.total = w.statf.stats.sum ∧ w.statf.stats.length = 1001) := by
  obtain ⟨w, hw, _, htotal, hsum, hlen, _⟩ :=
    get_fp_stats_scan A map statf st min max geometric geom_abs hst hidx
  refine ⟨⟨w, hw, hsum.symm, hlen, htotal⟩, fun w' hw' => ?_⟩
  rw [hw] at hw'
  cases hw'
  exact ⟨hsum.symm, hlen⟩

/-- C2 on the raster `[1.0, 2.0, 3.0, 4.0]` with `min = 1`, `max = 4`, in
binary64 arithmetic: the four cells have the indices 0, 333, 666 and 1000,
the run returns and its total, 4, is the sum of its 1001 buckets. -/
theorem get_fp_stats_total_eq_sum_witness :
    ∃ w, get_fp_stats binary64 raster_1x4 FP_stats.blank (DCELL.fin 1) (DCELL.fin 4) 0 0
        = Outcome.returned w ∧
      w.statf.total = w.statf.stats.sum ∧ w.statf.stats.length = 1001 ∧
      w.statf.total = cell_count raster_1x4 ∧ cell_count raster_1x4 = 4 := by
  obtain ⟨w, hw, h1, h2, h3⟩ := (get_fp_stats_total_eq_sum binary64 raster_1x4 FP_stats.blank
    setup_1_4 (DCELL.fin 1) (DCELL.fin 4) 0 0 (by decide!) (by
      intro r c v hr hc hv
      have hr' : r < 1 := hr
      have hc' : c < 4 := hc
      interval_cases r
      interval_cases c
      · cases (Option.some.inj hv)
        exact ⟨0, by decide!, by decide, by decide⟩
      · cases (Option.some.inj hv)
        exact ⟨333, by decide!, by decide, by decide⟩
      · cases (Option.some.inj hv)
        exact ⟨666, by decide!, by decide, by decide⟩
      · cases (Option.some.inj hv)
        exact ⟨1000, by decide!, by decide, by decide⟩)).1
  exact ⟨w, hw, h1, h2, h3, by decide⟩

/-- Claim C2, counterexample. With `min = 1`, `max = 4` and no transform the
setup succeeds, and the cell 5 has the bucket index 1333, in binary64 and in
exact arithmetic alike: line 125 then increments `statf->stats[1333]`, outside
the 1001 entries of the block.  That access is undefined, so the run on the
raster of the single cell 5 does not return with `total` equal to the sum of
the 1001 entries. -/
theorem total_sum_out_of_block :
    fp_setup binary64 FP_stats.blank (DCELL.fin 1) (DCELL.fin 4) 0 0 = Except.ok setup_1_4 ∧
    bucket binary64 setup_1_4 (transform binary64 setup_1_4 (DCELL.fin 5)) = some 1333 ∧
    bucket (FArith.exact no_log) setup_1_4
      (transform (FArith.exact no_log) setup_1_4 (DCELL.fin 5)) = some 1333 ∧
    setup_1_4.stats.length = 1001 ∧
    stats_incr setup_1_4.stats 1333 = none ∧
    cell_body binary64 setup_1_4 (some 5) = none ∧
    get_fp_stats binary64 (raster_1x1 5) FP_stats.blank (DCELL.fin 1) (DCELL.fin 4) 0 0
      = Outcome.undefined ∧
    get_fp_stats (FArith.exact no_log) (raster_1x1 5) FP_stats.blank (DCELL.fin 1)
      (DCELL.fin 4) 0 0 = Outcome.undefined :=
  ⟨by decide!, by decide!, by decide!, by decide!, by decide!, by decide!, by decide!,
    by decide!⟩

/-! ## The stored bounds -/

/-- In exact real arithmetic `log(fabs(m) + 1)` is non-negative or `+inf`
whenever `m` is not `NaN`. -/
theorem log_fabs_add_one_nonneg (m : DCELL ℝ) (hm : m.ordered) :
    (DCELL.log (FArith.exact Real.log) (DCELL.add (FArith.exact Real.log) (DCELL.fabs m)
      (DCELL.fin 1))).nonneg := by
  cases m with
  | fin x =>
    have h1 : 0 < |x| + 1 := by positivity
    have h2 : 0 ≤ Real.log (|x| + 1) := Real.log_nonneg (by linarith [abs_nonneg x])
    simp [DCELL.fabs, DCELL.add, DCELL.log, FArith.exact, h1, DCELL.nonneg, h2]
  | pinf => simp [DCELL.fabs, DCELL.add, DCELL.log, DCELL.nonneg]
  | ninf => simp [DCELL.fabs, DCELL.add, DCELL.log, DCELL.nonneg]
  | nan => exact absurd hm (by simp [DCELL.ordered])

/-- Zero is at most any non-negative value. -/
theorem le_zero_of_nonneg {α : Type} [LinearOrderedField α] (d : DCELL α) (hd : d.nonneg) :
    DCELL.le (DCELL.fin 0) d = true := by
  cases d with
  | fin x => simpa [DCELL.le, DCELL.nonneg] using hd
  | pinf => rfl
  | ninf => exact absurd hd (by simp [DCELL.nonneg])
  | nan => exact absurd hd (by simp [DCELL.nonneg])

/-- The selection `min = a < b ? a : b`, `max = a > b ? a : b` of lines 90-91
orders two non-negative values, and both selected values are non-negative. -/
theorem select_min_max_le {α : Type} [LinearOrderedField α] (a b : DCELL α)
    (ha : a.nonneg) (hb : b.nonneg) :
    DCELL.le (if DCELL.lt a b then a else b) (if DCELL.lt b a then a else b) = true ∧
    (if DCELL.lt b a then a else b).nonneg ∧
    (if DCELL.lt a b then a else b).nonneg := by
  cases a with
  | fin x =>
    cases b with
    | fin y =>
      simp only [DCELL.nonneg] at ha hb
      by_cases hxy : x < y
      · have hyx : ¬ y < x := not_lt.2 hxy.le
        simp [DCELL.lt, hxy, hyx, DCELL.le, DCELL.nonneg, hxy.le, ha, hb]
      · have hyx : y ≤ x := not_lt.1 hxy
        by_cases hyx' : y < x
        · simp [DCELL.lt, hxy, hyx', DCELL.le, DCELL.nonneg, hyx, ha, hb]
        · simp [DCELL.lt, hxy, hyx', DCELL.le, DCELL.nonneg, hb]
    | pinf => simpa [DCELL.lt, DCELL.le, DCELL.nonneg] using ha
    | ninf => exact absurd hb (by simp [DCELL.nonneg])
    | nan => exact absurd hb (by simp [DCELL.nonneg])
  | pinf =>
    cases b with
    | fin y => simpa [DCELL.lt, DCELL.le, DCELL.nonneg] using hb
    | pinf => simp [DCELL.lt, DCELL.le, DCELL.nonneg]
    | ninf => exact absurd hb (by simp [DCELL.nonneg])
    | nan => exact absurd hb (by simp [DCELL.nonneg])
  | ninf => exact absurd ha (by simp [DCELL.nonneg])
  | nan => exact absurd ha (by simp [DCELL.nonneg])

/-- In exact real arithmetic the bounds `setup_geom_abs` computes from values
that are not `NaN` are ordered and non-negative. -/
theorem setup_geom_abs_ordered (m M : DCELL ℝ) (hm : m.ordered) (hM : M.ordered) :
    DCELL.le (setup_geom_abs (FArith.exact Real.log) m M).1
      (setup_geom_abs (FArith.exact Real.log) m M).2 = true ∧
    DCELL.le (DCELL.fin 0) (setup_geom_abs (FArith.exact Real.log) m M).1 = true := by
  have ha := log_fabs_add_one_nonneg m hm
  have hb := log_fabs_add_one_nonneg M hM
  unfold setup_geom_abs
  simp only
  generalize DCELL.log (FArith.exact Real.log)
    (DCELL.add (FArith.exact Real.log) (DCELL.fabs m) (DCELL.fin 1)) = a at ha ⊢
  generalize DCELL.log (FArith.exact Real.log)
    (DCELL.add (FArith.exact Real.log) (DCELL.fabs M) (DCELL.fin 1)) = b at hb ⊢
  obtain ⟨h1, h2, h3⟩ := select_min_max_le a b ha hb
  split
  · exact ⟨le_zero_of_nonneg _ h2, by simp [DCELL.le]⟩
  · exact ⟨h1, le_zero_of_nonneg _ h3⟩

/-- In exact real arithmetic, on a range `min ≤ max` that passes the range
test, `setup_geometric` yields bounds that are not `NaN`; they are in
increasing order when `min ≥ 0` (no flip) and in decreasing order when
`min < 0` (flip). -/
theorem setup_geometric_order (min max : ℝ) (hmm : min ≤ max) (hz : ¬ min * max < 0) :
    (setup_geometric (FArith.exact Real.log) (DCELL.fin min) (DCELL.fin max)).2.1.ordered ∧
    (setup_geometric (FArith.exact Real.log) (DCELL.fin min) (DCELL.fin max)).2.2.ordered ∧
    (min < 0 →
      (setup_geometric (FArith.exact Real.log) (DCELL.fin min) (DCELL.fin max)).1 = 1 ∧
      DCELL.le (setup_geometric (FArith.exact Real.log) (DCELL.fin min) (DCELL.fin max)).2.2
        (setup_geometric (FArith.exact Real.log) (DCELL.fin min) (DCELL.fin max)).2.1 = true) ∧
    (0 ≤ min →
      (setup_geometric (FArith.exact Real.log) (DCELL.fin min) (DCELL.fin max)).1 = 0 ∧
      DCELL.le (setup_geometric (FArith.exact Real.log) (DCELL.fin min) (DCELL.fin max)).2.1
        (setup_geometric (FArith.exact Real.log) (DCELL.fin min) (DCELL.fin max)).2.2 = true) := by
  rcases lt_trichotomy min 0 with hneg | hzero | hpos
  · have hmax : max ≤ 0 := by
      by_contra hc
      exact hz (mul_neg_of_neg_of_pos hneg (not_le.1 hc))
    have h1 : 0 < -min := by linarith
    rcases hmax.lt_or_eq with hmaxneg | hmaxzero
    · have h2 : 0 < -max := by linarith
      have h3 : Real.log (-max) ≤ Real.log (-min) :=
        (Real.log_le_log_iff h2 h1).2 (by linarith)
      have h4 : Real.log max ≤ Real.log min := by simpa using h3
      simp [setup_geometric, DCELL.lt, DCELL.neg, DCELL.log, FArith.exact, hneg, h1, h2,
        DCELL.ordered, DCELL.le, h4, not_le.2 hneg]
    · subst hmaxzero
      simp [setup_geometric, DCELL.lt, DCELL.neg, DCELL.log, FArith.exact, hneg, h1,
        DCELL.ordered, DCELL.le, not_le.2 hneg]
  · subst hzero
    rcases hmm.lt_or_eq with hmaxpos | hmaxzero
    · simp [setup_geometric, DCELL.lt, DCELL.log, FArith.exact, hmaxpos,
        DCELL.ordered, DCELL.le]
    · subst hmaxzero
      simp [setup_geometric, DCELL.lt, DCELL.log, FArith.exact, DCELL.ordered, DCELL.le]
  · have hmaxpos : 0 < max := lt_of_lt_of_le hpos hmm
    have h3 : Real.log min ≤ Real.log max := (Real.log_le_log_iff hpos hmaxpos).2 hmm
    simp [setup_geometric, DCELL.lt, DCELL.log, FArith.exact, hpos, hmaxpos, not_lt.2 hpos.le,
      DCELL.ordered, DCELL.le, h3, hpos.le]

/-! ## The stored bounds in a rounding arithmetic -/

/-- The binary64 arithmetic rounds monotonically, whatever its logarithm. -/
theorem binary64_rounds_monotone (ln : ℚ → ℚ) : (binary64_log ln).rounds_monotone := by
  unfold FArith.rounds_monotone binary64_log
  refine ⟨?_, fun x y h => ?_⟩
  · dsimp only
    exact dbl_zero
  · dsimp only
    exact dbl_mono h

/-- The binary64 arithmetic is well behaved as soon as its logarithm is
monotone on the positive values and not negative at 1. -/
theorem binary64_well_behaved (ln : ℚ → ℚ) (hln : (binary64_log ln).log_monotone)
    (hl1 : 0 ≤ ln 1) : (binary64_log ln).well_behaved := by
  refine ⟨binary64_rounds_monotone ln, ?_, hln, hl1⟩
  dsimp only [binary64_log]
  decide!

/-- In a well-behaved arithmetic `log(fabs(m) + 1)` is non-negative or `+inf`
whenever `m` is not `NaN`. -/
theorem log_fabs_add_one_nonneg_gen {α : Type} [LinearOrderedField α] (A : FArith α)
    (hA : A.well_behaved) (m : DCELL α) (hm : m.ordered) :
    (DCELL.log A (DCELL.add A (DCELL.fabs m) (DCELL.fin 1))).nonneg := by
  obtain ⟨⟨_, hmono⟩, hone, hln, hl1⟩ := hA
  cases m with
  | fin x =>
    have hle := hmono 1 (|x| + 1) (by linarith [abs_nonneg x])
    rw [hone] at hle
    simp only [DCELL.fabs, DCELL.add]
    cases hy : A.rnd (|x| + 1) with
    | fin y =>
      rw [hy] at hle
      have h1y : 1 ≤ y := by simpa [DCELL.le] using hle
      have hy0 : 0 < y := lt_of_lt_of_le one_pos h1y
      have := hln 1 y one_pos h1y
      simp only [DCELL.log, hy0, if_true, DCELL.nonneg]
      linarith
    | pinf => simp [DCELL.log, DCELL.nonneg]
    | ninf =>
      rw [hy] at hle
      simp [DCELL.le] at hle
    | nan =>
      rw [hy] at hle
      simp [DCELL.le] at hle
  | pinf => simp [DCELL.fabs, DCELL.add, DCELL.log, DCELL.nonneg]
  | ninf => simp [DCELL.fabs, DCELL.add, DCELL.log, DCELL.nonneg]
  | nan => exact absurd hm (by simp [DCELL.ordered])

/-- In a well-behaved arithmetic the bounds `setup_geom_abs` computes from
values that are not `NaN` are ordered and non-negative. -/
theorem setup_geom_abs_ordered_gen {α : Type} [LinearOrderedField α] (A : FArith α)
    (hA : A.well_behaved) (m M : DCELL α) (hm : m.ordered) (hM : M.ordered) :
    DCELL.le (setup_geom_abs A m M).1 (setup_geom_abs A m M).2 = true ∧
    DCELL.le (DCELL.fin 0) (setup_geom_abs A m M).1 = true := by
  have ha := log_fabs_add_one_nonneg_gen A hA m hm
  have hb := log_fabs_add_one_nonneg_gen A hA M hM
  unfold setup_geom_abs
  simp only
  generalize DCELL.log A (DCELL.add A (DCELL.fabs m) (DCELL.fin 1)) = a at ha ⊢
  generalize DCELL.log A (DCELL.add A (DCELL.fabs M) (DCELL.fin 1)) = b at hb ⊢
  obtain ⟨h1, h2, h3⟩ := select_min_max_le a b ha hb
  split
  · exact ⟨le_zero_of_nonneg _ h2, by simp [DCELL.le]⟩
  · exact ⟨h1, le_zero_of_nonneg _ h3⟩

/-- In any arithmetic the sign flip and the logarithm leave bounds that are not
`NaN`, unless the second bound is negative where its logarithm is taken:
`min >= 0` with `max < 0`, or `min < 0` (flip) with `max > 0`. -/
theorem setup_geometric_ordered_gen {α : Type} [LinearOrderedField α] (A : FArith α)
    (min max : α) (hnan : ¬ ((0 ≤ min ∧ max < 0) ∨ (min < 0 ∧ 0 < max))) :
    (setup_geometric A (DCELL.fin min) (DCELL.fin max)).2.1.ordered ∧
    (setup_geometric A (DCELL.fin min) (DCELL.fin max)).2.2.ordered := by
  have hlog : ∀ x : α, 0 ≤ x → (DCELL.log A (DCELL.fin x)).ordered := by
    intro x hx
    rcases hx.lt_or_eq with h | h
    · simp [DCELL.log, h, DCELL.ordered]
    · subst h
      simp [DCELL.log, DCELL.ordered]
  by_cases hneg : min < 0
  · have hmax : max ≤ 0 := by
      by_contra hc
      exact hnan (Or.inr ⟨hneg, not_le.1 hc⟩)
    simp only [setup_geometric, DCELL.lt, hneg, decide_True, if_true, DCELL.neg]
    exact ⟨hlog (-min) (by linarith), hlog (-max) (by linarith)⟩
  · have hmin : 0 ≤ min := not_lt.1 hneg
    have hmax : 0 ≤ max := by
      by_contra hc
      exact hnan (Or.inl ⟨hmin, not_le.1 hc⟩)
    simp only [setup_geometric, DCELL.lt, hneg, decide_False, Bool.false_eq_true, if_false]
    exact ⟨hlog min hmin, hlog max hmax⟩

/-- In an arithmetic with a monotone logarithm, on a range `min ≤ max` that is
not across zero, `setup_geometric` yields bounds in increasing order when
`min ≥ 0` (no flip) and in decreasing order when `min < 0` (flip). -/
theorem setup_geometric_order_gen {α : Type} [LinearOrderedField α] (A : FArith α)
    (hln : A.log_monotone) (min max : α) (hmm : min ≤ max) (hz : ¬ (min < 0 ∧ 0 < max)) :
    (min < 0 →
      (setup_geometric A (DCELL.fin min) (DCELL.fin max)).1 = 1 ∧
      DCELL.le (setup_geometric A (DCELL.fin min) (DCELL.fin max)).2.2
        (setup_geometric A (DCELL.fin min) (DCELL.fin max)).2.1 = true) ∧
    (0 ≤ min →
      (setup_geometric A (DCELL.fin min) (DCELL.fin max)).1 = 0 ∧
      DCELL.le (setup_geometric A (DCELL.fin min) (DCELL.fin max)).2.1
        (setup_geometric A (DCELL.fin min) (DCELL.fin max)).2.2 = true) := by
  rcases lt_trichotomy min 0 with hneg | hzero | hpos
  · have hmax : max ≤ 0 := by
      by_contra hc
      exact hz ⟨hneg, not_le.1 hc⟩
    have h1 : 0 < -min := by linarith
    refine ⟨fun _ => ?_, fun h => absurd hneg (not_lt.2 h)⟩
    rcases hmax.lt_or_eq with hmaxneg | hmaxzero
    · have h2 : 0 < -max := by linarith
      have h3 := hln (-max) (-min) h2 (by linarith)
      simp [setup_geometric, DCELL.lt, DCELL.neg, DCELL.log, hneg, h1, h2, DCELL.le, h3]
    · subst hmaxzero
      simp [setup_geometric, DCELL.lt, DCELL.neg, DCELL.log, hneg, h1, DCELL.le]
  · subst hzero
    refine ⟨fun h => absurd h (lt_irrefl _), fun _ => ?_⟩
    rcases hmm.lt_or_eq with hmaxpos | hmaxzero
    · simp [setup_geometric, DCELL.lt, DCELL.log, hmaxpos, DCELL.le]
    · subst hmaxzero
      simp [setup_geometric, DCELL.lt, DCELL.log, DCELL.le]
  · have hmaxpos : 0 < max := lt_of_lt_of_le hpos hmm
    have h3 := hln min max hpos hmm
    refine ⟨fun h => absurd h (not_lt.2 hpos.le), fun _ => ?_⟩
    simp [setup_geometric, DCELL.lt, DCELL.log, hpos, hmaxpos, not_lt.2 hpos.le, DCELL.le, h3]

/-- In a well-behaved arithmetic, for a caller's range `min ≤ max` on which the
setup succeeds and which is not across zero under `geometric`, the stored
bounds satisfy `statf->min <= statf->max`, except in the sign-flip case
(`geometric` set, `geom_abs` not set, `min < 0`), where
`statf->max <= statf->min`. -/
theorem fp_setup_bounds_order_gen {α : Type} [LinearOrderedField α] (A : FArith α)
    (hA : A.well_behaved) (statf st : FP_stats α) (min max : α) (geometric geom_abs : Int)
    (hmm : min ≤ max) (hz : ¬ (geometric ≠ 0 ∧ min < 0 ∧ 0 < max))
    (h : fp_setup A statf (DCELL.fin min) (DCELL.fin max) geometric geom_abs = Except.ok st) :
    (¬ (geometric ≠ 0 ∧ geom_abs = 0 ∧ min < 0) → DCELL.le st.min st.max = true) ∧
    ((geometric ≠ 0 ∧ geom_abs = 0 ∧ min < 0) → DCELL.le st.max st.min = true) := by
  obtain ⟨_, _, hb⟩ := fp_setup_ok_fields _ statf st _ _ geometric geom_abs h
  have hmin : st.min = (st.min, st.max).1 := rfl
  have hmax : st.max = (st.min, st.max).2 := rfl
  rw [hmin, hmax, hb]
  by_cases hg : geometric = 0
  · by_cases hga : geom_abs = 0
    · simp [hg, hga, DCELL.le, hmm]
    · have := setup_geom_abs_ordered_gen A hA (DCELL.fin min) (DCELL.fin max) trivial trivial
      simp [hg, hga, this.1]
  · have hz' : ¬ (min < 0 ∧ 0 < max) := fun hc => hz ⟨hg, hc⟩
    obtain ⟨hflip, hnoflip⟩ := setup_geometric_order_gen A hA.2.2.1 min max hmm hz'
    by_cases hga : geom_abs = 0
    · by_cases hneg : min < 0
      · simp [hg, hga, hneg, (hflip hneg).2]
      · simp [hg, hga, hneg, (hnoflip (not_lt.1 hneg)).2]
    · obtain ⟨o1, o2⟩ := setup_geometric_ordered_gen A min max (by
        rintro (⟨h1, h2⟩ | h1)
        · linarith
        · exact hz' h1)
      have := setup_geom_abs_ordered_gen A hA _ _ o1 o2
      simp [hg, hga, this.1]

/-- In a well-behaved arithmetic, whenever `geom_abs` is set and the setup
succeeds, the stored bounds satisfy `0 <= statf->min <= statf->max`, unless
under `geometric` the second bound is negative where its logarithm is taken;
and the transformed value of a cell is `>= 0` unless, under `geometric`, the
cell is negative where the logarithm is taken. -/
theorem geom_abs_bounds_nonneg_gen {α : Type} [LinearOrderedField α] (A : FArith α)
    (hA : A.well_behaved) (statf st : FP_stats α) (min max : α) (geometric geom_abs : Int)
    (hga : geom_abs ≠ 0)
    (hnan : ¬ (geometric ≠ 0 ∧ ((0 ≤ min ∧ max < 0) ∨ (min < 0 ∧ 0 < max))))
    (h : fp_setup A statf (DCELL.fin min) (DCELL.fin max) geometric geom_abs = Except.ok st) :
    DCELL.le (DCELL.fin 0) st.min = true ∧ DCELL.le st.min st.max = true ∧
    ∀ v : α, (geometric = 0 ∨ 0 ≤ (if st.flip ≠ 0 then -v else v)) →
      DCELL.le (DCELL.fin 0) (transform A st (DCELL.fin v)) = true := by
  obtain ⟨_, hflip, hb⟩ := fp_setup_ok_fields _ statf st _ _ geometric geom_abs h
  obtain ⟨hg, hgabs, _, _, _⟩ := fp_setup_ok _ _ _ _ _ _ _ h
  have hmin : st.min = (st.min, st.max).1 := rfl
  have hmax : st.max = (st.min, st.max).2 := rfl
  have hord : (if geometric ≠ 0 then setup_geometric A (DCELL.fin min) (DCELL.fin max)
        else (0, DCELL.fin min, DCELL.fin max)).2.1.ordered ∧
      (if geometric ≠ 0 then setup_geometric A (DCELL.fin min) (DCELL.fin max)
        else (0, DCELL.fin min, DCELL.fin max)).2.2.ordered := by
    by_cases hg0 : geometric = 0
    · simp [hg0, DCELL.ordered]
    · simpa [hg0] using setup_geometric_ordered_gen A min max (fun hc => hnan ⟨hg0, hc⟩)
  have hbounds := setup_geom_abs_ordered_gen A hA _ _ hord.1 hord.2
  refine ⟨?_, ?_, ?_⟩
  · rw [hmin, hb]
    simpa [hga] using hbounds.2
  · rw [hmin, hmax, hb]
    simpa [hga] using hbounds.1
  · intro v hv
    have hin : (if st.geometric ≠ 0 then
        DCELL.log A (if st.flip ≠ 0 then DCELL.neg (DCELL.fin v) else DCELL.fin v)
        else (if st.flip ≠ 0 then DCELL.neg (DCELL.fin v) else DCELL.fin v)).ordered := by
      have hval : (if st.flip ≠ 0 then DCELL.neg (DCELL.fin v) else DCELL.fin v)
          = DCELL.fin (if st.flip ≠ 0 then -v else v) := by
        by_cases hf : st.flip = 0 <;> simp [hf, DCELL.neg]
      rw [hval, hg]
      by_cases hg0 : geometric = 0
      · simp [hg0, DCELL.ordered]
      · have hnn : 0 ≤ (if st.flip ≠ 0 then -v else v) := by
          rcases hv with h0 | h0
          · exact absurd h0 hg0
          · exact h0
        simp only [ne_eq, hg0, not_false_eq_true, if_true]
        generalize (if ¬ st.flip = 0 then -v else v) = x at hnn
        rcases hnn.lt_or_eq with hpos | hzero
        · simp [DCELL.log, hpos, DCELL.ordered]
        · rw [← hzero]
          simp [DCELL.log, DCELL.ordered]
    have htr : transform A st (DCELL.fin v) =
        DCELL.log A (DCELL.add A
          (DCELL.fabs (if st.geometric ≠ 0 then
            DCELL.log A (if st.flip ≠ 0 then DCELL.neg (DCELL.fin v) else DCELL.fin v)
            else (if st.flip ≠ 0 then DCELL.neg (DCELL.fin v) else DCELL.fin v)))
          (DCELL.fin 1)) := by
      simp only [transform, hgabs, ne_eq, hga, not_false_eq_true, if_true]
    rw [htr]
    exact le_zero_of_nonneg _ (log_fabs_add_one_nonneg_gen A hA _ hin)

/-! ## Order of the stored bounds (C3) -/

/-- Claim C3, as the code has it. For a caller's range `min ≤ max` on which
the setup succeeds, the stored bounds satisfy `statf->min <= statf->max`,
except in the sign-flip case (`geometric` set, `geom_abs` not set, `min < 0`),
where both bounds are negated without being swapped and
`statf->max <= statf->min`.  This holds in exact real arithmetic; and it holds
in binary64 arithmetic, with a library logarithm that is monotone and not
negative at 1, whenever `min * max >= 0` under `geometric` (a product
`min * max < 0` on which binary64 raises no error has underflowed to zero). -/
theorem fp_setup_bounds_order (statf st : FP_stats ℝ) (min max : ℝ) (geometric geom_abs : Int)
    (ln : ℚ → ℚ) (statq stq : FP_stats ℚ) (minq maxq : ℚ)
    (hmm : min ≤ max)
    (h : fp_setup (FArith.exact Real.log) statf (DCELL.fin min) (DCELL.fin max)
      geometric geom_abs = Except.ok st)
    (hln : (binary64_log ln).log_monotone) (hl1 : 0 ≤ ln 1)
    (hmmq : minq ≤ maxq) (hzq : geometric ≠ 0 → 0 ≤ minq * maxq)
    (hq : fp_setup (binary64_log ln) statq (DCELL.fin minq) (DCELL.fin maxq)
      geometric geom_abs = Except.ok stq) :
    ((¬ (geometric ≠ 0 ∧ geom_abs = 0 ∧ min < 0) → DCELL.le st.min st.max = true) ∧
      ((geometric ≠ 0 ∧ geom_abs = 0 ∧ min < 0) → DCELL.le st.max st.min = true)) ∧
    ((¬ (geometric ≠ 0 ∧ geom_abs = 0 ∧ minq < 0) → DCELL.le stq.min stq.max = true) ∧
      ((geometric ≠ 0 ∧ geom_abs = 0 ∧ minq < 0) → DCELL.le stq.max stq.min = true)) := by
  constructor
  · obtain ⟨hne, _, hb⟩ := fp_setup_ok_fields _ statf st _ _ geometric geom_abs h
    have hlt : (DCELL.lt (DCELL.mul (FArith.exact Real.log) (DCELL.fin min) (DCELL.fin max))
        (DCELL.fin 0) = true) ↔ min * max < 0 := by
      simp [DCELL.lt, DCELL.mul, FArith.exact]
    rw [hlt] at hne
    have hmin : st.min = (st.min, st.max).1 := rfl
    have hmax : st.max = (st.min, st.max).2 := rfl
    rw [hmin, hmax, hb]
    by_cases hg : geometric = 0
    · -- no logarithm: the bounds entering the `geom_abs` step are the caller's
      by_cases hga : geom_abs = 0
      · simp [hg, hga, DCELL.le, hmm]
      · have := setup_geom_abs_ordered (DCELL.fin min) (DCELL.fin max) trivial trivial
        simp [hg, hga, this.1]
    · have hz : ¬ min * max < 0 := fun hc => hne ⟨hg, hc⟩
      obtain ⟨o1, o2, hflip, hnoflip⟩ := setup_geometric_order min max hmm hz
      by_cases hga : geom_abs = 0
      · by_cases hneg : min < 0
        · simp [hg, hga, hneg, (hflip hneg).2]
        · simp [hg, hga, hneg, (hnoflip (not_lt.1 hneg)).2]
      · have := setup_geom_abs_ordered _ _ o1 o2
        simp [hg, hga, this.1]
  · exact fp_setup_bounds_order_gen (binary64_log ln) (binary64_well_behaved ln hln hl1)
      statq stq minq maxq geometric geom_abs hmmq
      (fun ⟨hg, h1, h2⟩ => absurd (hzq hg) (not_le.2 (mul_neg_of_neg_of_pos h1 h2))) hq

/-- The sign-flip case on `min = -100`, `max = -1`: the setup succeeds and the
stored bounds are in decreasing order, in exact real arithmetic. -/
theorem fp_setup_bounds_order_witness :
    ∃ st : FP_stats ℝ,
      fp_setup (FArith.exact Real.log) FP_stats.blank (DCELL.fin (-100)) (DCELL.fin (-1)) 1 0
        = Except.ok st ∧ DCELL.le st.max st.min = true := by
  obtain ⟨st, hst⟩ := fp_setup_ok_of_not_error (FArith.exact Real.log) FP_stats.blank
    (DCELL.fin (-100 : ℝ)) (DCELL.fin (-1)) 1 0
    (by simp [DCELL.lt, DCELL.mul, FArith.exact])
  obtain ⟨stq, hstq⟩ := fp_setup_ok_of_not_error (binary64_log no_log) FP_stats.blank
    (DCELL.fin (-100 : ℚ)) (DCELL.fin (-1)) 1 0 (by decide!)
  exact ⟨st, hst, ((fp_setup_bounds_order FP_stats.blank st (-100) (-1) 1 0 no_log
    FP_stats.blank stq (-100) (-1) (by norm_num) hst (fun _ _ _ _ => le_rfl) le_rfl
    (by norm_num) (fun _ => by norm_num) hstq).1).2 ⟨by decide, rfl, by norm_num⟩⟩

/-- Claim C3, counterexample. The stored bounds are not always in increasing
order.  With `geometric` set, `min = -100`, `max = -1` the setup succeeds and
stores `statf->min = ln 100 > 0 = statf->max`; with no transform the caller's
bounds are stored as they come, so `min = 2`, `max = 1` stores `2 > 1`.  And
in binary64 arithmetic, with `geometric` set, `min = -2 ^ (-600)`,
`max = 2 ^ (-600)`, the product `min * max` underflows to zero, no error is
raised, and the setup stores `statf->max = NaN`, which is in no order with
`statf->min` (by `fp_setup_underflow`, whatever the library logarithm). -/
theorem fp_setup_bounds_not_ordered :
    (∃ st : FP_stats ℝ,
      fp_setup (FArith.exact Real.log) FP_stats.blank (DCELL.fin (-100)) (DCELL.fin (-1)) 1 0
        = Except.ok st ∧
      st.min = DCELL.fin (Real.log 100) ∧ st.max = DCELL.fin 0 ∧
      DCELL.le st.min st.max = false) ∧
    (∃ st : FP_stats ℝ,
      fp_setup (FArith.exact Real.log) FP_stats.blank (DCELL.fin 2) (DCELL.fin 1) 0 0
        = Except.ok st ∧
      st.min = DCELL.fin 2 ∧ st.max = DCELL.fin 1 ∧ DCELL.le st.min st.max = false) ∧
    (∃ st : FP_stats ℚ,
      fp_setup (binary64_log no_log) FP_stats.blank (DCELL.fin (-dbl_tiny))
        (DCELL.fin dbl_tiny) 1 0 = Except.ok st ∧
      -dbl_tiny ≤ dbl_tiny ∧ st.flip = 1 ∧ st.max = DCELL.nan ∧
      DCELL.le st.min st.max = false ∧ DCELL.le st.max st.min = false) := by
  have hlog : 0 < Real.log 100 := Real.log_pos (by norm_num)
  refine ⟨?_, ?_, ?_⟩
  · obtain ⟨st, hst⟩ := fp_setup_ok_of_not_error (FArith.exact Real.log) FP_stats.blank
      (DCELL.fin (-100 : ℝ)) (DCELL.fin (-1)) 1 0
      (by simp [DCELL.lt, DCELL.mul, FArith.exact])
    obtain ⟨_, _, hb⟩ := fp_setup_ok_fields _ _ _ _ _ _ _ hst
    simp [setup_geometric, DCELL.lt, DCELL.neg, DCELL.log, FArith.exact] at hb
    exact ⟨st, hst, hb.1, hb.2, by simp [hb.1, hb.2, DCELL.le, hlog]⟩
  · obtain ⟨st, hst⟩ := fp_setup_ok_of_not_error (FArith.exact Real.log) FP_stats.blank
      (DCELL.fin (2 : ℝ)) (DCELL.fin 1) 0 0 (by simp)
    obtain ⟨_, _, hb⟩ := fp_setup_ok_fields _ _ _ _ _ _ _ hst
    simp at hb
    exact ⟨st, hst, hb.1, hb.2, by simp [hb.1, hb.2, DCELL.le]⟩
  · obtain ⟨_, st, hst, hflip, hb⟩ := fp_setup_underflow no_log 0
    simp only [ne_eq, not_true_eq_false, if_false, Prod.mk.injEq] at hb
    exact ⟨st, hst, by decide!, hflip, hb.2, by rw [hb.1, hb.2]; rfl, by rw [hb.1, hb.2]; rfl⟩

/-! ## The cell at the upper bound (C4) -/

/-- In exact arithmetic, with finite stored bounds that differ, the position
`count * (x - min) / (max - min)` of a value equal to the stored `max` is
exactly `count`. -/
theorem bucket_pos_max_exact {α : Type} [LinearOrderedField α] (ln : α → α)
    (statf : FP_stats α) (lo hi : α) (hmin : statf.min = DCELL.fin lo)
    (hmax : statf.max = DCELL.fin hi) (hne : lo ≠ hi) :
    bucket_pos (FArith.exact ln) statf statf.max = DCELL.fin (statf.count : α) := by
  have hd : hi - lo ≠ 0 := sub_ne_zero.2 (Ne.symm hne)
  have hd' : hi + -lo ≠ 0 := by rwa [← sub_eq_add_neg]
  simp only [bucket_pos, hmin, hmax, DCELL.sub, DCELL.neg, DCELL.add, DCELL.mul, DCELL.div,
    FArith.exact, id, hd', if_false]
  rw [mul_div_assoc, div_self hd', mul_one]

/-- In exact arithmetic, on a record with `count = 1000`, a block of 1001
buckets and finite bounds that differ, a cell whose transformed value equals
the stored `max` gets bucket index 1000 and is counted there. -/
theorem cell_body_at_max {α : Type} [LinearOrderedField α] [FloorRing α] (ln : α → α)
    (statf : FP_stats α) (lo hi v : α) (hcount : statf.count = 1000)
    (hlen : statf.stats.length = 1001) (hmin : statf.min = DCELL.fin lo)
    (hmax : statf.max = DCELL.fin hi) (hne : lo ≠ hi)
    (hx : transform (FArith.exact ln) statf (DCELL.fin v) = statf.max) :
    bucket (FArith.exact ln) statf (transform (FArith.exact ln) statf (DCELL.fin v))
      = some 1000 ∧
    cell_body (FArith.exact ln) statf (some v) = some { statf with
      stats := statf.stats.set 1000 ((statf.stats.getD 1000 0 + 1) % ULONG_RANGE)
      total := (statf.total + 1) % ULONG_RANGE } := by
  have hpos := bucket_pos_max_exact ln statf lo hi hmin hmax hne
  rw [hcount] at hpos
  have hb : bucket (FArith.exact ln) statf (transform (FArith.exact ln) statf (DCELL.fin v))
      = some 1000 := by
    rw [hx]
    unfold bucket
    rw [hpos]
    have h0 : (0 : α) ≤ ((1000 : ℤ) : α) := by norm_num
    have hf : ⌊(((⌊((1000 : ℤ) : α)⌋ : ℤ)) : α)⌋ = 1000 := by
      rw [Int.floor_intCast, Int.floor_intCast]
    have h0' : (0 : α) ≤ ((⌊((1000 : ℤ) : α)⌋ : ℤ) : α) := by
      rw [Int.floor_intCast]
      exact h0
    simp only [DCELL.floor, DCELL.toInt, h0', if_true, hf]
    norm_num
  refine ⟨hb, ?_⟩
  have h1000 : Int.toNat 1000 = 1000 := rfl
  unfold cell_body
  simp only [hb, stats_incr, hlen, h1000]
  norm_num

/-- Claim C4, as the code has it. In exact arithmetic, after a successful setup
that stored finite bounds `statf->min != statf->max`, a non-null cell whose
transformed value equals `statf->max` gets bucket index 1000 and is counted
there, at any point of the scan. -/
theorem max_cell_bucket_exact {α : Type} [LinearOrderedField α] [FloorRing α] (ln : α → α)
    (statf0 st statf : FP_stats α) (min max : DCELL α) (geometric geom_abs : Int)
    (lo hi v : α)
    (hsetup : fp_setup (FArith.exact ln) statf0 min max geometric geom_abs = Except.ok st)
    (hscan : same_config st statf)
    (hmin : st.min = DCELL.fin lo) (hmax : st.max = DCELL.fin hi) (hne : lo ≠ hi)
    (hx : transform (FArith.exact ln) statf (DCELL.fin v) = statf.max) :
    bucket (FArith.exact ln) statf (transform (FArith.exact ln) statf (DCELL.fin v))
      = some 1000 ∧
    cell_body (FArith.exact ln) statf (some v) = some { statf with
      stats := statf.stats.set 1000 ((statf.stats.getD 1000 0 + 1) % ULONG_RANGE)
      total := (statf.total + 1) % ULONG_RANGE } := by
  obtain ⟨_, _, hcount, hstats, _⟩ := fp_setup_ok _ statf0 st min max geometric geom_abs hsetup
  obtain ⟨_, _, _, c4, c5, c6, c7⟩ := hscan
  exact cell_body_at_max ln statf lo hi v (c4.trans hcount)
    (by rw [c7, hstats, List.length_replicate]) (c5.trans hmin) (c6.trans hmax) hne hx

/-- The cell 4.0 of the raster `[1.0, 2.0, 3.0, 4.0]`, scanned with `min = 1`,
`max = 4` in exact arithmetic, is counted in bucket 1000. -/
theorem max_cell_bucket_exact_witness :
    cell_body (FArith.exact no_log)
        ⟨0, 0, 0, 1000, DCELL.fin 1, DCELL.fin 4, List.replicate 1001 0, 0⟩ (some 4)
      = some ⟨0, 0, 0, 1000, DCELL.fin 1, DCELL.fin 4,
          (List.replicate 1001 0).set 1000 1, 1⟩ :=
  ((max_cell_bucket_exact no_log FP_stats.blank
    ⟨0, 0, 0, 1000, DCELL.fin 1, DCELL.fin 4, List.replicate 1001 0, 0⟩
    ⟨0, 0, 0, 1000, DCELL.fin 1, DCELL.fin 4, List.replicate 1001 0, 0⟩
    (DCELL.fin 1) (DCELL.fin 4) 0 0 1 4 4 (by decide!) (same_config_refl _) rfl rfl
    (by decide) (by decide!)).2).trans (by decide!)

/-- Claim C4, counterexample. Two runs in which the setup succeeds with
`statf->min != statf->max` and a cell whose transformed value equals
`statf->max` is not counted in bucket 1000.

In binary64 arithmetic, with `min = 0.0`, `max = 1.1` and no transform, the
cell 1.1 has `1000 * (1.1 - 0.0)` rounded to 1100 and `1100 / 1.1` rounded to
`1000 - 2 ^ (-43)`: its index is 999, and the run counts it in bucket 999.

In exact real arithmetic, with `geometric` and `geom_abs` set, `min = 0`,
`max = 5`, the stored bounds are 0 and `+inf`; the cell 0 is transformed to
`+inf`, and `inf / inf` has no index. -/
theorem max_cell_not_in_bucket_1000 :
    (fp_setup binary64 FP_stats.blank (DCELL.fin 0) (DCELL.fin dbl_1_1) 0 0
        = Except.ok setup_0_1_1 ∧
      setup_0_1_1.min ≠ setup_0_1_1.max ∧
      transform binary64 setup_0_1_1 (DCELL.fin dbl_1_1) = setup_0_1_1.max ∧
      bucket binary64 setup_0_1_1 (transform binary64 setup_0_1_1 (DCELL.fin dbl_1_1))
        = some 999 ∧
      get_fp_stats binary64 (raster_1x1 dbl_1_1) FP_stats.blank (DCELL.fin 0)
          (DCELL.fin dbl_1_1) 0 0
        = Outcome.returned ⟨{ setup_0_1_1 with
            stats := (List.replicate 1001 0).set 999 1, total := 1 }, [0]⟩) ∧
    (∃ st : FP_stats ℝ,
      fp_setup (FArith.exact Real.log) FP_stats.blank (DCELL.fin 0) (DCELL.fin 5) 1 1
        = Except.ok st ∧
      st.min = DCELL.fin 0 ∧ st.max = DCELL.pinf ∧
      transform (FArith.exact Real.log) st (DCELL.fin 0) = st.max ∧
      bucket (FArith.exact Real.log) st (transform (FArith.exact Real.log) st (DCELL.fin 0))
        = none) := by
  refine ⟨⟨by decide!, by decide!, by decide!, by decide!, by decide!⟩, ?_⟩
  have hlog : 0 < Real.log 5 := Real.log_pos (by norm_num)
  have hlog' : ¬ Real.log 5 < 0 := not_lt.2 hlog.le
  have hpos : 0 < |Real.log 5| + 1 := by positivity
  obtain ⟨st, hst⟩ := fp_setup_ok_of_not_error (FArith.exact Real.log) FP_stats.blank
    (DCELL.fin (0 : ℝ)) (DCELL.fin 5) 1 1 (by simp [DCELL.lt, DCELL.mul, FArith.exact])
  obtain ⟨_, hflip, hb⟩ := fp_setup_ok_fields _ _ _ _ _ _ _ hst
  obtain ⟨hg, hga, hcount, _, _⟩ := fp_setup_ok _ _ _ _ _ _ _ hst
  simp [setup_geometric, setup_geom_abs, DCELL.lt, DCELL.neg, DCELL.log, DCELL.fabs,
    DCELL.add, DCELL.mul, DCELL.signedInf, FArith.exact, hlog, hlog', hpos] at hb hflip
  refine ⟨st, hst, hb.1, hb.2, ?_, ?_⟩
  · simp [transform, hflip, hg, hga, hb.2, DCELL.log, DCELL.fabs, DCELL.add]
  · simp [transform, bucket, bucket_pos, hflip, hg, hga, hb.1, hb.2, hcount, DCELL.log,
      DCELL.fabs, DCELL.add, DCELL.sub, DCELL.neg, DCELL.mul, DCELL.div, DCELL.signedInf,
      DCELL.floor, DCELL.toInt]

/-! ## Bounds under `geom_abs` on a range across zero (C5) -/

/-- Claim C5. In exact arithmetic, with `geom_abs` set, `geometric` not set and
`min * max < 0`, the setup succeeds and stores `statf->min = 0` and
`statf->max` = the larger of `ln(|min| + 1)` and `ln(|max| + 1)`. -/
theorem geom_abs_bounds_across_zero {α : Type} [LinearOrderedField α] (ln : α → α)
    (statf : FP_stats α) (min max : α) (geom_abs : Int) (hga : geom_abs ≠ 0)
    (hz : min * max < 0) :
    ∃ st, fp_setup (FArith.exact ln) statf (DCELL.fin min) (DCELL.fin max) 0 geom_abs
        = Except.ok st ∧
      st.min = DCELL.fin 0 ∧
      st.max = DCELL.fin (Max.max (ln (|min| + 1)) (ln (|max| + 1))) := by
  obtain ⟨st, hst⟩ := fp_setup_ok_of_not_error (FArith.exact ln) statf (DCELL.fin min)
    (DCELL.fin max) 0 geom_abs (by simp)
  obtain ⟨_, _, hb⟩ := fp_setup_ok_fields _ _ _ _ _ _ _ hst
  have h1 : 0 < |min| + 1 := by positivity
  have h2 : 0 < |max| + 1 := by positivity
  simp only [ne_eq, not_true_eq_false, if_false, hga, not_false_eq_true, if_true,
    setup_geom_abs, DCELL.fabs, DCELL.add, DCELL.log, DCELL.mul, DCELL.lt, FArith.exact, id,
    h1, h2, hz, decide_True, Prod.mk.injEq] at hb
  refine ⟨st, hst, hb.1, ?_⟩
  rw [hb.2]
  by_cases hlt : ln (|max| + 1) < ln (|min| + 1)
  · simp [hlt, max_eq_left hlt.le]
  · simp [hlt, max_eq_right (not_lt.1 hlt)]

/-- C5 on `min = -3`, `max = 5`: the stored bounds are 0 and `ln 6`. -/
theorem geom_abs_bounds_across_zero_witness :
    ∃ st : FP_stats ℝ,
      fp_setup (FArith.exact Real.log) FP_stats.blank (DCELL.fin (-3)) (DCELL.fin 5) 0 1
        = Except.ok st ∧
      st.min = DCELL.fin 0 ∧ st.max = DCELL.fin (Real.log 6) := by
  obtain ⟨st, hst, hmin, hmax⟩ := geom_abs_bounds_across_zero Real.log FP_stats.blank
    (-3 : ℝ) 5 1 (by decide) (by norm_num)
  refine ⟨st, hst, hmin, ?_⟩
  have h4 : |(-3 : ℝ)| + 1 = 4 := by norm_num [abs_of_neg]
  have h6 : |(5 : ℝ)| + 1 = 6 := by norm_num [abs_of_pos]
  have hle : Real.log 4 ≤ Real.log 6 :=
    (Real.log_le_log_iff (by norm_num) (by norm_num)).2 (by norm_num)
  rw [hmax, h4, h6, max_eq_right hle]

/-! ## The sign flip (C6) -/

/-- Claim C6. In exact arithmetic, with `geometric` set, `geom_abs` not set and
`min * max >= 0`, the setup succeeds, `statf->flip` is 1 exactly when
`min < 0` (and 0 otherwise); when `min < 0` the stored bounds are `log(-min)`
and `log(-max)`, both negated and not swapped, and when `min >= 0` they are
`log(min)` and `log(max)`; `log` is the natural logarithm `ln` on positive
values.  With `geometric` not set the setup succeeds with `statf->flip = 0`. -/
theorem geometric_flip_bounds {α : Type} [LinearOrderedField α] (ln : α → α)
    (statf : FP_stats α) (min max : α) (geometric geom_abs : Int) :
    (geometric ≠ 0 → 0 ≤ min * max →
      ∃ st, fp_setup (FArith.exact ln) statf (DCELL.fin min) (DCELL.fin max) geometric 0
          = Except.ok st ∧
        (st.flip = 1 ↔ min < 0) ∧ (st.flip = 0 ↔ 0 ≤ min) ∧
        (min < 0 →
          st.min = DCELL.fin (ln (-min)) ∧
          st.max = DCELL.log (FArith.exact ln) (DCELL.fin (-max)) ∧
          (max < 0 → st.max = DCELL.fin (ln (-max)))) ∧
        (0 ≤ min →
          st.min = DCELL.log (FArith.exact ln) (DCELL.fin min) ∧
          st.max = DCELL.log (FArith.exact ln) (DCELL.fin max) ∧
          (0 < min → st.min = DCELL.fin (ln min)) ∧
          (0 < max → st.max = DCELL.fin (ln max)))) ∧
    (∃ st, fp_setup (FArith.exact ln) statf (DCELL.fin min) (DCELL.fin max) 0 geom_abs
        = Except.ok st ∧ st.flip = 0) := by
  constructor
  · intro hg hz
    obtain ⟨st, hst⟩ := fp_setup_ok_of_not_error (FArith.exact ln) statf (DCELL.fin min)
      (DCELL.fin max) geometric 0
      (by simp [DCELL.lt, DCELL.mul, FArith.exact, not_lt.2 hz])
    obtain ⟨_, hflip, hb⟩ := fp_setup_ok_fields _ _ _ _ _ _ _ hst
    simp only [ne_eq, hg, not_false_eq_true, if_true, not_true_eq_false, if_false,
      Prod.mk.injEq] at hflip hb
    refine ⟨st, hst, ?_⟩
    by_cases hneg : min < 0
    · have hpos : 0 < -min := by linarith
      simp only [setup_geometric, DCELL.lt, hneg, decide_True, if_true, DCELL.neg] at hflip hb
      refine ⟨by simp [hflip, hneg], by simp [hflip, hneg], fun _ => ⟨?_, hb.2, ?_⟩,
        fun h => absurd hneg (not_lt.2 h)⟩
      · rw [hb.1]
        simp [DCELL.log, FArith.exact, hpos]
      · intro hmax
        have hpos' : 0 < -max := by linarith
        rw [hb.2]
        simp [DCELL.log, FArith.exact, hpos']
    · have hnn : 0 ≤ min := not_lt.1 hneg
      simp only [setup_geometric, DCELL.lt, hneg, decide_False, Bool.false_eq_true,
        if_false] at hflip hb
      refine ⟨by simp [hflip, hneg], by simp [hflip, hnn], fun h => absurd h hneg,
        fun _ => ⟨hb.1, hb.2, ?_, ?_⟩⟩
      · intro hpos
        rw [hb.1]
        simp [DCELL.log, FArith.exact, hpos]
      · intro hpos
        rw [hb.2]
        simp [DCELL.log, FArith.exact, hpos]
  · obtain ⟨st, hst⟩ := fp_setup_ok_of_not_error (FArith.exact ln) statf (DCELL.fin min)
      (DCELL.fin max) 0 geom_abs (by simp)
    obtain ⟨_, hflip, _⟩ := fp_setup_ok_fields _ _ _ _ _ _ _ hst
    exact ⟨st, hst, by simpa using hflip⟩

/-- C6 on `min = -100`, `max = -1`: `flip = 1`, `statf->min = ln 100` and
`statf->max = ln 1 = 0`. -/
theorem geometric_flip_bounds_witness :
    ∃ st : FP_stats ℝ,
      fp_setup (FArith.exact Real.log) FP_stats.blank (DCELL.fin (-100)) (DCELL.fin (-1)) 1 0
        = Except.ok st ∧
      st.flip = 1 ∧ st.min = DCELL.fin (Real.log 100) ∧ st.max = DCELL.fin (Real.log 1) ∧
      Real.log 1 = 0 := by
  obtain ⟨st, hst, hflip, _, hneg, _⟩ :=
    (geometric_flip_bounds Real.log FP_stats.blank (-100 : ℝ) (-1) 1 0).1 (by decide)
      (by norm_num)
  obtain ⟨hmin, _, hmax⟩ := hneg (by norm_num)
  refine ⟨st, hst, hflip.2 (by norm_num), ?_, ?_, Real.log_one⟩
  · rw [hmin]
    norm_num
  · rw [hmax (by norm_num)]
    norm_num

/-! ## Cells that the logarithm does not accept (C7) -/

theorem sub_nonfinite {α : Type} [LinearOrderedField α] (A : FArith α) (x m : DCELL α)
    (hx : ¬ x.finite) : ¬ (DCELL.sub A x m).finite := by
  cases x <;> cases m <;> simp_all [DCELL.sub, DCELL.neg, DCELL.add, DCELL.finite]

theorem mul_nonfinite {α : Type} [LinearOrderedField α] (A : FArith α) (c : α) (y : DCELL α)
    (hc : 0 < c) (hy : ¬ y.finite) : ¬ (DCELL.mul A (DCELL.fin c) y).finite := by
  have hc' : ¬ c < 0 := not_lt.2 hc.le
  cases y with
  | fin v => exact absurd trivial hy
  | pinf => simp [DCELL.mul, DCELL.signedInf, DCELL.finite, hc]
  | ninf => simp [DCELL.mul, DCELL.signedInf, DCELL.finite, hc, hc']
  | nan => simp [DCELL.mul, DCELL.finite]

theorem div_nonfinite {α : Type} [LinearOrderedField α] (A : FArith α) (y d : DCELL α)
    (hy : ¬ y.finite) : ¬ (DCELL.div A y d).finite := by
  cases y with
  | fin v => exact absurd trivial hy
  | pinf =>
    cases d with
    | fin u => by_cases h : 0 ≤ u <;> simp [DCELL.div, DCELL.finite, h]
    | pinf => simp [DCELL.div, DCELL.finite]
    | ninf => simp [DCELL.div, DCELL.finite]
    | nan => simp [DCELL.div, DCELL.finite]
  | ninf =>
    cases d with
    | fin u => by_cases h : 0 ≤ u <;> simp [DCELL.div, DCELL.finite, h]
    | pinf => simp [DCELL.div, DCELL.finite]
    | ninf => simp [DCELL.div, DCELL.finite]
    | nan => simp [DCELL.div, DCELL.finite]
  | nan => cases d <;> simp [DCELL.div, DCELL.finite]

theorem toInt_floor_nonfinite {α : Type} [LinearOrderedField α] [FloorRing α] (y : DCELL α)
    (hy : ¬ y.finite) : DCELL.toInt (DCELL.floor y) = none := by
  cases y <;> simp_all [DCELL.floor, DCELL.toInt, DCELL.finite]

/-- A value that is not finite has no bucket index, in any arithmetic: the
position computed from it is an infinity or `NaN`, which `(int)` does not
convert. -/
theorem bucket_nonfinite {α : Type} [LinearOrderedField α] [FloorRing α] (A : FArith α)
    (statf : FP_stats α) (x : DCELL α) (hx : ¬ x.finite) (hcount : 0 < statf.count) :
    bucket A statf x = none :=
  toInt_floor_nonfinite _ (div_nonfinite A _ _ (mul_nonfinite A _ _ (Int.cast_pos.2 hcount)
    (sub_nonfinite A x statf.min hx)))

/-- Under `geometric`, a cell whose value is not positive where the logarithm
is taken (after the sign flip) is transformed to `-inf`, `+inf` or `NaN`. -/
theorem transform_nonpositive {α : Type} [LinearOrderedField α] (A : FArith α)
    (statf : FP_stats α) (v : α) (hg : statf.geometric ≠ 0)
    (hv : (if statf.flip ≠ 0 then -v else v) ≤ 0) :
    ¬ (transform A statf (DCELL.fin v)).finite := by
  have hlog : ∀ u : α, u ≤ 0 → ¬ (DCELL.log A (DCELL.fin u)).finite := by
    intro u hu
    have h1 : ¬ 0 < u := not_lt.2 hu
    by_cases h0 : u = 0 <;> simp [DCELL.log, h1, h0, DCELL.finite]
  have habs : ∀ d : DCELL α, ¬ d.finite →
      ¬ (DCELL.log A (DCELL.add A (DCELL.fabs d) (DCELL.fin 1))).finite := by
    intro d hd
    cases d <;> simp_all [DCELL.fabs, DCELL.add, DCELL.log, DCELL.finite]
  unfold transform
  simp only [hg, ne_eq, not_false_eq_true, if_true]
  by_cases hf : statf.flip = 0
  · simp only [hf, ne_eq, not_true_eq_false, if_false] at hv ⊢
    by_cases hga : statf.geom_abs = 0
    · simpa [hga] using hlog v hv
    · simpa [hga] using habs _ (hlog v hv)
  · simp only [hf, ne_eq, not_false_eq_true, if_true, DCELL.neg] at hv ⊢
    by_cases hga : statf.geom_abs = 0
    · simpa [hga] using hlog (-v) hv
    · simpa [hga] using habs _ (hlog (-v) hv)

/-- Under `geometric`, in any arithmetic, the column loop is undefined on a
non-null cell whose value is not positive where the logarithm is taken: the
cell is not skipped, and its bucket index does not exist. -/
theorem cell_body_nonpositive {α : Type} [LinearOrderedField α] [FloorRing α] (A : FArith α)
    (statf : FP_stats α) (v : α) (hg : statf.geometric ≠ 0) (hcount : 0 < statf.count)
    (hv : (if statf.flip ≠ 0 then -v else v) ≤ 0) :
    cell_body A statf (some v) = none := by
  unfold cell_body
  simp only [bucket_nonfinite A statf _ (transform_nonpositive A statf v hg hv) hcount]

/-- Every cell of a run that returns was processed by a defined step of the
column loop, taken from a state with the configuration of the setup. -/
theorem get_fp_stats_cell_defined {α : Type} [LinearOrderedField α] [FloorRing α]
    (A : FArith α) (map : Raster α) (statf st : FP_stats α) (min max : DCELL α)
    (geometric geom_abs : Int) (w : Run (FP_stats α))
    (hst : fp_setup A statf min max geometric geom_abs = Except.ok st)
    (h : get_fp_stats A map statf min max geometric geom_abs = Outcome.returned w)
    (r c : Nat) (hr : r < map.nrows) (hc : c < map.ncols) :
    ∃ t t', same_config st t ∧ cell_body A t (map.cell r c) = some t' := by
  unfold get_fp_stats at h
  rw [hst] at h
  simp only at h
  split at h
  · cases h
  · rename_i w' hw
    have hrow : ∀ k (t t' : Run (FP_stats α)), k < map.nrows → same_config st t.statf →
        row_body A map t k = some t' → same_config st t'.statf := by
      intro k t t' _ ht hb
      unfold row_body at hb
      simp only [Option.map_eq_some'] at hb
      obtain ⟨u, hu, rfl⟩ := hb
      exact forLoop_invariant _ (fun _ u => same_config st u) map.ncols t.statf u ht
        (fun j u u' _ hu hb' => cell_body_same_config A st u u' _ hu hb') hu
    obtain ⟨t, t', ht, hb⟩ := forLoop_step_defined (row_body A map)
      (fun _ t => same_config st t.statf) map.nrows ⟨st, []⟩ w' (same_config_refl st)
      hrow hw r hr
    unfold row_body at hb
    simp only [Option.map_eq_some'] at hb
    obtain ⟨u, hu, _⟩ := hb
    obtain ⟨x, x', hx, hxb⟩ := forLoop_step_defined
      (fun u col => cell_body A u (map.cell r col)) (fun _ u => same_config st u)
      map.ncols t.statf u ht
      (fun j u u' _ hu hb' => cell_body_same_config A st u u' _ hu hb') hu c hc
    exact ⟨x, x', hx, hxb⟩

/-! ## Null cells (C8) -/

/-- On a row whose first `n` cells are null the column loop is the identity. -/
theorem col_loop_all_null {α : Type} [LinearOrderedField α] [FloorRing α] (A : FArith α)
    (row : Nat → Option α) (n : Nat) (s : FP_stats α) (hnull : ∀ c, c < n → row c = none) :
    forLoop (fun st col => cell_body A st (row col)) n s = some s := by
  obtain ⟨s', hs', hP⟩ := forLoop_defined (fun st col => cell_body A st (row col))
    (fun _ t => t = s) n s rfl
    (fun k t hk ht => ⟨s, by
      subst ht
      show cell_body A t (row k) = some t
      rw [hnull k hk, cell_body_null], rfl⟩)
  rw [hs', hP]

/-- On a raster whose cells are all null the row loop only fetches the rows. -/
theorem row_loop_all_null {α : Type} [LinearOrderedField α] [FloorRing α] (A : FArith α)
    (map : Raster α) (st : FP_stats α)
    (hnull : ∀ r c, r < map.nrows → c < map.ncols → map.cell r c = none) :
    forLoop (row_body A map) map.nrows ⟨st, []⟩ = some ⟨st, List.range map.nrows⟩ := by
  obtain ⟨w, hw, hP⟩ := forLoop_defined (row_body A map)
    (fun k t => t = ⟨st, List.range k⟩) map.nrows ⟨st, []⟩ (by simp)
    (fun k t hk ht => ⟨⟨st, List.range (k + 1)⟩, by
      subst ht
      show Option.map _ (forLoop (fun st col => cell_body A st (map.cell k col)) map.ncols st)
        = _
      rw [col_loop_all_null A (map.cell k) map.ncols st (fun c hc => hnull k c hk hc)]
      simp [List.range_succ], rfl⟩)
  rw [hw, hP]

/-! ## Binning without transform (C9) -/

/-- The conversion `(int) floor(y)` of a finite `y` is `⌊y⌋` when that is an
`int`. -/
theorem toInt_floor_fin {α : Type} [LinearOrderedField α] [FloorRing α] (y : α) :
    DCELL.toInt (DCELL.floor (DCELL.fin y)) =
      if -2 ^ 31 ≤ ⌊y⌋ ∧ ⌊y⌋ < 2 ^ 31 then some ⌊y⌋ else none := by
  simp only [DCELL.floor, DCELL.toInt, Int.floor_intCast, Int.ceil_intCast, ite_self]

/-! ## `get_stats` (C10) -/

theorem tally_sum (v : Int) (s : Cell_stats) :
    ((tally v s).map Prod.snd).sum = (s.map Prod.snd).sum + 1 := by
  induction s with
  | nil => simp [tally]
  | cons p s ih =>
    obtain ⟨k, c⟩ := p
    unfold tally
    split
    · simp only [List.map_cons, List.sum_cons]
      omega
    · simp only [List.map_cons, List.sum_cons, ih]
      omega

theorem tally_mem (v : Int) (s : Cell_stats) (p : Int × Nat) (hp : p ∈ tally v s) :
    (p.1 = v ∧ 0 < p.2) ∨ p ∈ s := by
  induction s with
  | nil =>
    simp only [tally, List.mem_singleton] at hp
    subst hp
    exact Or.inl ⟨rfl, Nat.one_pos⟩
  | cons q s ih =>
    obtain ⟨k, c⟩ := q
    unfold tally at hp
    split at hp
    · rename_i hk
      rcases List.mem_cons.1 hp with h | h
      · subst h
        exact Or.inl ⟨hk, Nat.succ_pos c⟩
      · exact Or.inr (List.mem_cons_of_mem _ h)
    · rcases List.mem_cons.1 hp with h | h
      · exact Or.inr (h ▸ List.mem_cons_self _ _)
      · rcases ih h with h' | h'
        · exact Or.inl h'
        · exact Or.inr (List.mem_cons_of_mem _ h')

theorem tally_keys (v : Int) (s : Cell_stats) :
    (tally v s).map Prod.fst =
      if v ∈ s.map Prod.fst then s.map Prod.fst else s.map Prod.fst ++ [v] := by
  induction s with
  | nil => simp [tally]
  | cons q s ih =>
    obtain ⟨k, c⟩ := q
    unfold tally
    by_cases hk : k = v
    · simp [hk]
    · have hk' : ¬ v = k := fun h => hk h.symm
      simp only [hk, if_false, List.map_cons, ih, List.mem_cons, hk', false_or]
      split <;> simp

theorem tally_nodup (v : Int) (s : Cell_stats) (h : (s.map Prod.fst).Nodup) :
    ((tally v s).map Prod.fst).Nodup := by
  rw [tally_keys]
  split
  · exact h
  · rename_i hv
    exact List.Nodup.append h (List.nodup_singleton v) (by
      intro a ha hb
      rw [List.mem_singleton] at hb
      exact hv (hb ▸ ha))

/-- What `Rast_update_cell_stats` does to the tally on the first `n` cells of
a buffer: the counts grow by the number of non-null cells, every new entry
has a positive count and the value of one of those cells, and no value gets
two entries. -/
theorem Rast_update_cell_stats_spec (cell : Nat → Option Int) (n : Nat) (s : Cell_stats)
    (hs : (s.map Prod.fst).Nodup) :
    (((Rast_update_cell_stats cell n s).map Prod.snd).sum
      = (s.map Prod.snd).sum + row_count cell n) ∧
    (∀ p ∈ Rast_update_cell_stats cell n s,
      p ∈ s ∨ (0 < p.2 ∧ ∃ c, c < n ∧ cell c = some p.1)) ∧
    ((Rast_update_cell_stats cell n s).map Prod.fst).Nodup := by
  unfold Rast_update_cell_stats
  refine forEach_invariant _ (fun k st =>
    ((st.map Prod.snd).sum = (s.map Prod.snd).sum + row_count cell k) ∧
    (∀ p ∈ st, p ∈ s ∨ (0 < p.2 ∧ ∃ c, c < k ∧ cell c = some p.1)) ∧
    (st.map Prod.fst).Nodup) n s ⟨by simp [row_count_zero], fun p hp => Or.inl hp, hs⟩ ?_
  intro k st _ ⟨h1, h2, h3⟩
  have hmono : ∀ p : Int × Nat, (p ∈ s ∨ (0 < p.2 ∧ ∃ c, c < k ∧ cell c = some p.1)) →
      (p ∈ s ∨ (0 < p.2 ∧ ∃ c, c < k + 1 ∧ cell c = some p.1)) := by
    rintro p (h | ⟨h, c, hc, hcell⟩)
    · exact Or.inl h
    · exact Or.inr ⟨h, c, Nat.lt_succ_of_lt hc, hcell⟩
  cases hcell : cell k with
  | none =>
    simp only [row_count_succ, hcell, Option.isSome_none, Bool.false_eq_true, if_false,
      Nat.add_zero]
    exact ⟨h1, fun p hp => hmono p (h2 p hp), h3⟩
  | some v =>
    simp only [row_count_succ, hcell, Option.isSome_some, if_true]
    refine ⟨by rw [tally_sum, h1]; omega, fun p hp => ?_, tally_nodup v st h3⟩
    rcases tally_mem v st p hp with ⟨hv, hpos⟩ | hmem
    · exact Or.inr ⟨hpos, k, Nat.lt_succ_self k, by rw [hv]; exact hcell⟩
    · exact hmono p (h2 p hmem)

/-- Claim C10. `get_stats` returns 1; it starts from the empty tally and feeds
the rows `0 .. nrows - 1`, each fetched once and in order, with all `ncols`
cells, to `Rast_update_cell_stats`.  The counts of the resulting statistics
sum to the number of non-null cells of the raster, every entry has a positive
count, its value is the value of some non-null cell, and no value has two
entries.  The rows `[1, 1]`, `[2, null]` yield `1: 2, 2: 1`. -/
theorem get_stats_tally (map : Raster Int) (statf : Cell_stats) :
    (get_stats map statf).1 = 1 ∧
    Rast_init_cell_stats statf = [] ∧
    (get_stats map statf).2.rows_read = List.range map.nrows ∧
    (get_stats map statf).2.statf =
      forEach (fun st row => Rast_update_cell_stats (map.cell row) map.ncols st) map.nrows
        (Rast_init_cell_stats statf) ∧
    (((get_stats map statf).2.statf.map Prod.snd).sum = cell_count map) ∧
    (∀ k n, (k, n) ∈ (get_stats map statf).2.statf →
      0 < n ∧ ∃ r c, r < map.nrows ∧ c < map.ncols ∧ map.cell r c = some k) ∧
    ((get_stats map statf).2.statf.map Prod.fst).Nodup ∧
    get_stats raster_cats statf = (1, ⟨[(1, 2), (2, 1)], [0, 1]⟩) := by
  have key := forEach_invariant
    (fun (w : Run Cell_stats) row =>
      (⟨Rast_update_cell_stats (map.cell row) map.ncols w.statf, w.rows_read ++ [row]⟩ :
        Run Cell_stats))
    (fun r w =>
      w.rows_read = List.range r ∧
      w.statf = forEach (fun st row => Rast_update_cell_stats (map.cell row) map.ncols st) r
        (Rast_init_cell_stats statf) ∧
      ((w.statf.map Prod.snd).sum
        = ((List.range r).map (fun r => row_count (map.cell r) map.ncols)).sum) ∧
      (∀ p ∈ w.statf, 0 < p.2 ∧ ∃ r' c, r' < r ∧ c < map.ncols ∧ map.cell r' c = some p.1) ∧
      (w.statf.map Prod.fst).Nodup)
    map.nrows ⟨Rast_init_cell_stats statf, []⟩
    ⟨rfl, rfl, by simp [Rast_init_cell_stats], by simp [Rast_init_cell_stats],
      by simp [Rast_init_cell_stats]⟩
    (by
      intro r w _ ⟨h1, h2, h3, h4, h5⟩
      obtain ⟨u1, u2, u3⟩ := Rast_update_cell_stats_spec (map.cell r) map.ncols w.statf h5
      refine ⟨by simp [h1, List.range_succ], by simp only [forEach, h2], ?_, ?_, u3⟩
      · rw [u1, h3, rows_count_succ]
      · intro p hp
        rcases u2 p hp with h | ⟨hpos, c, hc, hcell⟩
        · obtain ⟨hpos, r', c, hr', hc, hcell⟩ := h4 p h
          exact ⟨hpos, r', c, Nat.lt_succ_of_lt hr', hc, hcell⟩
        · exact ⟨hpos, r, c, Nat.lt_succ_self r, hc, hcell⟩)
  obtain ⟨k1, k2, k3, k4, k5⟩ := key
  exact ⟨rfl, rfl, k1, k2, k3, fun k n h => k4 (k, n) h, k5, rfl⟩

/-! ## The log-abs step after the logarithm (C11) -/

/-- Claim C11. In exact real arithmetic, with `geometric` and `geom_abs` both
set and `0 < min < 1 < max`, the caller's range does not include zero
(`min * max > 0`, the setup succeeds and there is no flip), yet the test
`min * max < 0` of the log-abs step, made on the bounds `ln min < 0 < ln max`
that the logarithm left, succeeds: the stored `statf->min` is 0 and the stored
`statf->max` is the larger of `ln(|ln min| + 1)` and `ln(|ln max| + 1)`. -/
theorem log_abs_after_log_bounds (statf : FP_stats ℝ) (min max : ℝ)
    (geometric geom_abs : Int) (hg : geometric ≠ 0) (hga : geom_abs ≠ 0)
    (h0 : 0 < min) (h1 : min < 1) (h2 : 1 < max) :
    0 < min * max ∧ Real.log min * Real.log max < 0 ∧
    ∃ st, fp_setup (FArith.exact Real.log) statf (DCELL.fin min) (DCELL.fin max)
        geometric geom_abs = Except.ok st ∧
      st.flip = 0 ∧ st.min = DCELL.fin 0 ∧
      st.max = DCELL.fin
        (Max.max (Real.log (|Real.log min| + 1)) (Real.log (|Real.log max| + 1))) := by
  have hmax : 0 < max := by linarith
  have hprod : 0 < min * max := mul_pos h0 hmax
  have hlmin : Real.log min < 0 := Real.log_neg h0 h1
  have hlmax : 0 < Real.log max := Real.log_pos h2
  have hlog : Real.log min * Real.log max < 0 := mul_neg_of_neg_of_pos hlmin hlmax
  refine ⟨hprod, hlog, ?_⟩
  obtain ⟨st, hst⟩ := fp_setup_ok_of_not_error (FArith.exact Real.log) statf (DCELL.fin min)
    (DCELL.fin max) geometric geom_abs
    (by simp [DCELL.lt, DCELL.mul, FArith.exact, not_lt.2 hprod.le])
  obtain ⟨_, hflip, hb⟩ := fp_setup_ok_fields _ _ _ _ _ _ _ hst
  have hnmin : ¬ min < 0 := not_lt.2 h0.le
  have ha : 0 < |Real.log min| + 1 := by positivity
  have hb' : 0 < |Real.log max| + 1 := by positivity
  simp only [ne_eq, hg, not_false_eq_true, if_true, hga, setup_geometric, DCELL.lt, hnmin,
    decide_False, Bool.false_eq_true, if_false, DCELL.log, FArith.exact, h0, hmax,
    setup_geom_abs, DCELL.fabs, DCELL.add, id, ha, hb', DCELL.mul, hlog, decide_True,
    Prod.mk.injEq] at hflip hb
  refine ⟨st, hst, hflip, hb.1, ?_⟩
  rw [hb.2]
  by_cases hlt : Real.log (|Real.log max| + 1) < Real.log (|Real.log min| + 1)
  · simp [hlt, max_eq_left hlt.le]
  · simp [hlt, max_eq_right (not_lt.1 hlt)]

/-- C11 on `min = 0.5`, `max = 2`: the stored bounds are 0 and
`ln(ln 2 + 1)`. -/
theorem log_abs_after_log_bounds_witness :
    ∃ st : FP_stats ℝ,
      fp_setup (FArith.exact Real.log) FP_stats.blank (DCELL.fin (1 / 2)) (DCELL.fin 2) 1 1
        = Except.ok st ∧
      st.min = DCELL.fin 0 ∧ st.max = DCELL.fin (Real.log (Real.log 2 + 1)) := by
  obtain ⟨_, _, st, hst, _, hmin, hmax⟩ := log_abs_after_log_bounds FP_stats.blank
    (1 / 2 : ℝ) 2 1 1 (by decide) (by decide) (by norm_num) (by norm_num) (by norm_num)
  refine ⟨st, hst, hmin, ?_⟩
  have hl2 : 0 < Real.log 2 := Real.log_pos (by norm_num)
  have hhalf : Real.log (1 / 2) = -Real.log 2 := by
    rw [one_div, Real.log_inv]
  rw [hmax, hhalf, abs_neg, abs_of_pos hl2, max_self]

/-! ## The bucket index in exact arithmetic -/

/-- In exact arithmetic, with finite bounds that differ, the position of a
finite value `t` is `count * (t - min) / (max - min)`. -/
theorem bucket_pos_exact {α : Type} [LinearOrderedField α] (ln : α → α)
    (st : FP_stats α) (lo hi t : α) (hmin : st.min = DCELL.fin lo)
    (hmax : st.max = DCELL.fin hi) (hne : lo ≠ hi) :
    bucket_pos (FArith.exact ln) st (DCELL.fin t)
      = DCELL.fin ((st.count : α) * (t - lo) / (hi - lo)) := by
  have hd : hi + -lo ≠ 0 := by
    rw [← sub_eq_add_neg]
    exact sub_ne_zero.2 (Ne.symm hne)
  simp only [bucket_pos, hmin, hmax, DCELL.sub, DCELL.neg, DCELL.add, DCELL.mul, DCELL.div,
    FArith.exact, id, hd, if_false, sub_eq_add_neg]

/-- A value between two bounds that differ, in whichever order they are, has
its position `1000 * (t - lo) / (hi - lo)` between 0 and 1000. -/
theorem position_between {α : Type} [LinearOrderedField α] (lo hi t : α) (hne : lo ≠ hi)
    (hb : (lo ≤ t ∧ t ≤ hi) ∨ (hi ≤ t ∧ t ≤ lo)) :
    0 ≤ 1000 * (t - lo) / (hi - lo) ∧ 1000 * (t - lo) / (hi - lo) ≤ 1000 := by
  rcases hb with ⟨h1, h2⟩ | ⟨h1, h2⟩
  · have hd : 0 < hi - lo := sub_pos.2 (lt_of_le_of_ne (h1.trans h2) hne)
    constructor
    · exact div_nonneg (mul_nonneg (by norm_num) (sub_nonneg.2 h1)) hd.le
    · rw [div_le_iff₀ hd]
      nlinarith
  · have hd : hi - lo < 0 := sub_neg.2 (lt_of_le_of_ne (h1.trans h2) (Ne.symm hne))
    constructor
    · exact div_nonneg_of_nonpos (mul_nonpos_of_nonneg_of_nonpos (by norm_num)
        (sub_nonpos.2 h2)) hd.le
    · rw [div_le_iff_of_neg hd]
      nlinarith

/-- Along the direction of the bounds the position does not decrease: from
`t1` to `t2` when `lo < hi` and `t1 ≤ t2`, and when `hi < lo` and `t2 ≤ t1`. -/
theorem position_mono {α : Type} [LinearOrderedField α] (lo hi t1 t2 : α)
    (hdir : (lo < hi ∧ t1 ≤ t2) ∨ (hi < lo ∧ t2 ≤ t1)) :
    1000 * (t1 - lo) / (hi - lo) ≤ 1000 * (t2 - lo) / (hi - lo) := by
  rcases hdir with ⟨h1, h2⟩ | ⟨h1, h2⟩
  · have hd : 0 < hi - lo := sub_pos.2 h1
    exact div_le_div_of_nonneg_right (by nlinarith) hd.le
  · have hd : hi - lo < 0 := sub_neg.2 h1
    exact div_le_div_of_nonpos_of_le hd.le (by nlinarith)

/-- In exact arithmetic, on a record with `count = 1000` and finite bounds that
differ, a finite value between the bounds has the bucket index
`⌊1000 * (t - min) / (max - min)⌋`, which lies in `0..1000`. -/
theorem bucket_exact_between {α : Type} [LinearOrderedField α] [FloorRing α] (ln : α → α)
    (st : FP_stats α) (lo hi t : α) (hcount : st.count = 1000)
    (hmin : st.min = DCELL.fin lo) (hmax : st.max = DCELL.fin hi) (hne : lo ≠ hi)
    (hb : (lo ≤ t ∧ t ≤ hi) ∨ (hi ≤ t ∧ t ≤ lo)) :
    bucket (FArith.exact ln) st (DCELL.fin t) = some ⌊1000 * (t - lo) / (hi - lo)⌋ ∧
      0 ≤ ⌊1000 * (t - lo) / (hi - lo)⌋ ∧ ⌊1000 * (t - lo) / (hi - lo)⌋ ≤ 1000 := by
  obtain ⟨h0, h1⟩ := position_between lo hi t hne hb
  have hf0 : 0 ≤ ⌊1000 * (t - lo) / (hi - lo)⌋ := Int.floor_nonneg.2 h0
  have hf1 : ⌊1000 * (t - lo) / (hi - lo)⌋ ≤ 1000 := by
    have := Int.floor_mono h1
    have h1000 : ⌊(1000 : α)⌋ = 1000 := by
      have h := @Int.floor_intCast α _ _ 1000
      simp only [Int.cast_ofNat] at h
      exact h
    rwa [h1000] at this
  refine ⟨?_, hf0, hf1⟩
  unfold bucket
  rw [bucket_pos_exact ln st lo hi t hmin hmax hne, hcount, toInt_floor_fin]
  have hc : ((1000 : ℤ) : α) = 1000 := by norm_num
  rw [hc, if_pos ⟨by omega, by omega⟩]

/-! ## The two steps of the setup on the reals -/

/-- The logarithm of the absolute value plus one is ordered like the absolute
value. -/
theorem log_abs_le_iff (x y : ℝ) :
    Real.log (|x| + 1) ≤ Real.log (|y| + 1) ↔ |x| ≤ |y| := by
  rw [Real.log_le_log_iff (by positivity) (by positivity)]
  constructor <;> intro h <;> linarith

theorem log_abs_lt_iff (x y : ℝ) :
    Real.log (|x| + 1) < Real.log (|y| + 1) ↔ |x| < |y| := by
  rw [Real.log_lt_log_iff (by positivity) (by positivity)]
  constructor <;> intro h <;> linarith

/-- A value between two reals of the same sign has its absolute value between
theirs. -/
theorem abs_between_of_same_sign (m M u : ℝ) (hs : ¬ m * M < 0)
    (hb : (m ≤ u ∧ u ≤ M) ∨ (M ≤ u ∧ u ≤ m)) :
    (|m| ≤ |u| ∧ |u| ≤ |M|) ∨ (|M| ≤ |u| ∧ |u| ≤ |m|) := by
  have hs' : 0 ≤ m * M := not_lt.1 hs
  rcases hb with ⟨h1, h2⟩ | ⟨h1, h2⟩
  · rcases le_total 0 m with hm | hm
    · left
      rw [abs_of_nonneg hm, abs_of_nonneg (hm.trans h1), abs_of_nonneg (hm.trans (h1.trans h2))]
      exact ⟨h1, h2⟩
    · rcases le_total M 0 with hM | hM
      · right
        rw [abs_of_nonpos hm, abs_of_nonpos (h2.trans hM), abs_of_nonpos hM]
        exact ⟨by linarith, by linarith⟩
      · -- `m ≤ 0 ≤ M` with `0 ≤ m * M`: one of them is zero
        have hprod : m * M ≤ 0 := mul_nonpos_of_nonpos_of_nonneg hm hM
        have hzero : m * M = 0 := le_antisymm hprod hs'
        rcases mul_eq_zero.1 hzero with h0 | h0
        · subst h0
          left
          rw [abs_zero, abs_of_nonneg h1, abs_of_nonneg hM]
          exact ⟨h1, h2⟩
        · subst h0
          right
          rw [abs_zero, abs_of_nonpos h2, abs_of_nonpos hm]
          exact ⟨by linarith, by linarith⟩
  · rcases le_total 0 M with hM | hM
    · right
      rw [abs_of_nonneg hM, abs_of_nonneg (hM.trans h1), abs_of_nonneg (hM.trans (h1.trans h2))]
      exact ⟨h1, h2⟩
    · rcases le_total m 0 with hm | hm
      · left
        rw [abs_of_nonpos hM, abs_of_nonpos (h2.trans hm), abs_of_nonpos hm]
        exact ⟨by linarith, by linarith⟩
      · have hprod : m * M ≤ 0 := mul_nonpos_of_nonneg_of_nonpos hm hM
        have hzero : m * M = 0 := le_antisymm hprod hs'
        rcases mul_eq_zero.1 hzero with h0 | h0
        · subst h0
          left
          rw [abs_zero, abs_of_nonpos h2, abs_of_nonpos hM]
          exact ⟨by linarith, by linarith⟩
        · subst h0
          right
          rw [abs_zero, abs_of_nonneg h1, abs_of_nonneg hm]
          exact ⟨h1, h2⟩

/-- A value between two reals is in absolute value at most one of them. -/
theorem abs_le_of_between (m M u : ℝ) (hb : (m ≤ u ∧ u ≤ M) ∨ (M ≤ u ∧ u ≤ m)) :
    |u| ≤ |m| ∨ |u| ≤ |M| := by
  rcases hb with ⟨h1, h2⟩ | ⟨h1, h2⟩
  · have := abs_le_max_abs_abs h1 h2
    rcases le_max_iff.1 this with h | h
    · exact Or.inl h
    · exact Or.inr h
  · have := abs_le_max_abs_abs h1 h2
    rcases le_max_iff.1 this with h | h
    · exact Or.inr h
    · exact Or.inl h

/-- The log-abs step of the setup on two finite bounds that differ, in exact
real arithmetic: the bounds it stores are finite, non-negative and strictly
ordered, and every value between the bounds it was given is transformed by
the log-abs step of the scan to a value between the stored bounds. -/
theorem stage_geom_abs (m M : ℝ) (hne : m ≠ M) :
    ∃ lo hi : ℝ,
      setup_geom_abs (FArith.exact Real.log) (DCELL.fin m) (DCELL.fin M)
        = (DCELL.fin lo, DCELL.fin hi) ∧
      0 ≤ lo ∧ lo < hi ∧
      ∀ u, ((m ≤ u ∧ u ≤ M) ∨ (M ≤ u ∧ u ≤ m)) →
        DCELL.log (FArith.exact Real.log)
            (DCELL.add (FArith.exact Real.log) (DCELL.fabs (DCELL.fin u)) (DCELL.fin 1))
          = DCELL.fin (Real.log (|u| + 1)) ∧
        lo ≤ Real.log (|u| + 1) ∧ Real.log (|u| + 1) ≤ hi := by
  have hpos : ∀ x : ℝ, 0 < |x| + 1 := fun x => by positivity
  have hnn : ∀ x : ℝ, 0 ≤ Real.log (|x| + 1) := fun x =>
    Real.log_nonneg (by linarith [abs_nonneg x])
  have hcell : ∀ u : ℝ, DCELL.log (FArith.exact Real.log)
      (DCELL.add (FArith.exact Real.log) (DCELL.fabs (DCELL.fin u)) (DCELL.fin 1))
        = DCELL.fin (Real.log (|u| + 1)) := fun u => by
    simp only [DCELL.fabs, DCELL.add, DCELL.log, FArith.exact, id, hpos u, if_true]
  have hsetup : setup_geom_abs (FArith.exact Real.log) (DCELL.fin m) (DCELL.fin M) =
      (if m * M < 0 then DCELL.fin 0
        else if Real.log (|m| + 1) < Real.log (|M| + 1) then DCELL.fin (Real.log (|m| + 1))
        else DCELL.fin (Real.log (|M| + 1)),
       if Real.log (|M| + 1) < Real.log (|m| + 1) then DCELL.fin (Real.log (|m| + 1))
        else DCELL.fin (Real.log (|M| + 1))) := by
    simp only [setup_geom_abs, hcell]
    simp only [DCELL.mul, DCELL.lt, FArith.exact, id, decide_eq_true_eq]
  rw [hsetup]
  by_cases hz : m * M < 0
  · -- the range given to the step includes zero: the lower bound is forced to 0
    have hm0 : m ≠ 0 := fun h => by rw [h, zero_mul] at hz; exact lt_irrefl 0 hz
    have ha : 0 < Real.log (|m| + 1) :=
      Real.log_pos (by linarith [abs_pos.2 hm0])
    by_cases hba : Real.log (|M| + 1) < Real.log (|m| + 1)
    · refine ⟨0, Real.log (|m| + 1), by simp only [hz, hba, if_true], le_rfl, ha, ?_⟩
      intro u hu
      refine ⟨hcell u, hnn u, ?_⟩
      rcases abs_le_of_between m M u hu with h | h
      · exact (log_abs_le_iff u m).2 h
      · exact ((log_abs_le_iff u M).2 h).trans hba.le
    · refine ⟨0, Real.log (|M| + 1), by simp only [hz, hba, if_true, if_false], le_rfl,
        lt_of_lt_of_le ha (not_lt.1 hba), ?_⟩
      intro u hu
      refine ⟨hcell u, hnn u, ?_⟩
      rcases abs_le_of_between m M u hu with h | h
      · exact ((log_abs_le_iff u m).2 h).trans (not_lt.1 hba)
      · exact (log_abs_le_iff u M).2 h
  · -- both bounds on the same side of zero: their absolute values differ
    have habs : |m| ≠ |M| := by
      intro h
      rcases abs_eq_abs.1 h with h' | h'
      · exact hne h'
      · have h0 : 0 ≤ m * M := not_lt.1 hz
        rw [h'] at h0
        have hM : M = 0 := by nlinarith [mul_self_nonneg M]
        rw [hM, neg_zero] at h'
        exact hne (h'.trans hM.symm)
    rcases lt_or_gt_of_ne habs with hlt | hgt
    · have hab : Real.log (|m| + 1) < Real.log (|M| + 1) := (log_abs_lt_iff m M).2 hlt
      refine ⟨Real.log (|m| + 1), Real.log (|M| + 1),
        by simp only [hz, hab, not_lt.2 hab.le, if_true, if_false], hnn m, hab, ?_⟩
      intro u hu
      refine ⟨hcell u, ?_⟩
      rcases abs_between_of_same_sign m M u hz hu with ⟨h1, h2⟩ | ⟨h1, h2⟩
      · exact ⟨(log_abs_le_iff m u).2 h1, (log_abs_le_iff u M).2 h2⟩
      · exact absurd (h1.trans h2) (not_le.2 hlt)
    · have hba : Real.log (|M| + 1) < Real.log (|m| + 1) := (log_abs_lt_iff M m).2 hgt
      refine ⟨Real.log (|M| + 1), Real.log (|m| + 1),
        by simp only [hz, hba, not_lt.2 hba.le, if_true, if_false], hnn M, hba, ?_⟩
      intro u hu
      refine ⟨hcell u, ?_⟩
      rcases abs_between_of_same_sign m M u hz hu with ⟨h1, h2⟩ | ⟨h1, h2⟩
      · exact absurd (h1.trans h2) (not_le.2 hgt)
      · exact ⟨(log_abs_le_iff M u).2 h1, (log_abs_le_iff u m).2 h2⟩

/-- The sign flip and the logarithm on a range `min < max` that, under
`geometric`, lies on one side of zero, in exact real arithmetic: the range
test does not fire, the bounds the step leaves are finite and differ, and
there is a function `u` giving the value of every cell of `[min, max]` after
the flip and the logarithm of the scan, with `u min` and `u max` the two
bounds; `u` is non-decreasing when there is no flip and non-increasing under
the flip, which happens exactly in the case `max < 0` of `geometric`. -/
theorem stage_geometric (min max : ℝ) (geometric : Int) (hlt : min < max)
    (hz : geometric ≠ 0 → 0 < min ∨ max < 0) :
    ∃ (f : Int) (m M : ℝ) (u : ℝ → ℝ),
      (if geometric ≠ 0 then
          setup_geometric (FArith.exact Real.log) (DCELL.fin min) (DCELL.fin max)
        else (0, DCELL.fin min, DCELL.fin max)) = (f, DCELL.fin m, DCELL.fin M) ∧
      ¬ (geometric ≠ 0 ∧ min * max < 0) ∧
      u min = m ∧ u max = M ∧
      (∀ v, min ≤ v → v ≤ max →
        (if geometric ≠ 0 then
            DCELL.log (FArith.exact Real.log)
              (if f ≠ 0 then DCELL.neg (DCELL.fin v) else DCELL.fin v)
          else (if f ≠ 0 then DCELL.neg (DCELL.fin v) else DCELL.fin v))
          = DCELL.fin (u v)) ∧
      ((f = 0 ∧ m < M ∧ ∀ v1 v2, min ≤ v1 → v1 ≤ v2 → v2 ≤ max → u v1 ≤ u v2) ∨
       (f = 1 ∧ geometric ≠ 0 ∧ max < 0 ∧ M < m ∧
          ∀ v1 v2, min ≤ v1 → v1 ≤ v2 → v2 ≤ max → u v2 ≤ u v1)) := by
  by_cases hg : geometric = 0
  · refine ⟨0, min, max, fun v => v, by simp [hg], by simp [hg], rfl, rfl, ?_, ?_⟩
    · intro v _ _
      simp [hg]
    · exact Or.inl ⟨rfl, hlt, fun v1 v2 _ h _ => h⟩
  · rcases hz hg with hpos | hneg
    · -- `0 < min < max`: no flip
      have hmax : 0 < max := hpos.trans hlt
      have hnlt : ¬ min < 0 := not_lt.2 hpos.le
      refine ⟨0, Real.log min, Real.log max, Real.log, ?_, ?_, rfl, rfl, ?_, ?_⟩
      · simp only [ne_eq, hg, not_false_eq_true, if_true, setup_geometric, DCELL.lt, hnlt,
          decide_False, Bool.false_eq_true, if_false, DCELL.log, FArith.exact, hpos, hmax]
      · exact fun h => absurd h.2 (not_lt.2 (mul_pos hpos hmax).le)
      · intro v hv _
        have hvpos : 0 < v := lt_of_lt_of_le hpos hv
        simp only [ne_eq, hg, not_false_eq_true, if_true, not_true_eq_false, if_false,
          DCELL.log, FArith.exact, hvpos]
      · refine Or.inl ⟨rfl, Real.log_lt_log hpos hlt, fun v1 v2 h1 h12 _ => ?_⟩
        have hv1 : 0 < v1 := lt_of_lt_of_le hpos h1
        exact (Real.log_le_log_iff hv1 (lt_of_lt_of_le hv1 h12)).2 h12
    · -- `min < max < 0`: both bounds and every cell are negated
      have hmin : min < 0 := hlt.trans hneg
      have hnmin : 0 < -min := by linarith
      have hnmax : 0 < -max := by linarith
      refine ⟨1, Real.log (-min), Real.log (-max), fun v => Real.log (-v), ?_, ?_, rfl, rfl,
        ?_, ?_⟩
      · simp only [ne_eq, hg, not_false_eq_true, if_true, setup_geometric, DCELL.lt, hmin,
          decide_True, DCELL.neg, DCELL.log, FArith.exact, hnmin, hnmax]
      · exact fun h => absurd h.2 (not_lt.2 (mul_pos_of_neg_of_neg hmin hneg).le)
      · intro v _ hv
        have hvpos : 0 < -v := by linarith
        simp only [ne_eq, hg, not_false_eq_true, if_true, one_ne_zero, DCELL.neg, DCELL.log,
          FArith.exact, hvpos]
      · refine Or.inr ⟨rfl, hg, hneg, Real.log_lt_log hnmax (by linarith),
          fun v1 v2 _ h12 h2 => ?_⟩
        have hv2 : 0 < -v2 := by linarith
        exact (Real.log_le_log_iff hv2 (by linarith)).2 (by linarith)

/-! ## Cells of the range stay inside the buckets (C12) -/

/-- The setup and the per-cell transform on a range `min < max` that, under
`geometric`, lies on one side of zero, in exact real arithmetic, for every
combination of the two flags: the setup succeeds with finite stored bounds
that differ, and there is a function `t` giving the transformed value of
every cell of `[min, max]`, which lies between the stored bounds.  With
`geom_abs` off, `t min` and `t max` are the stored bounds and `t` is
non-decreasing without flip, non-increasing under the flip. -/
theorem setup_and_transform (statf : FP_stats ℝ) (min max : ℝ) (geometric geom_abs : Int)
    (hlt : min < max) (hz : geometric ≠ 0 → 0 < min ∨ max < 0) :
    ∃ (st : FP_stats ℝ) (lo hi : ℝ) (t : ℝ → ℝ),
      fp_setup (FArith.exact Real.log) statf (DCELL.fin min) (DCELL.fin max)
        geometric geom_abs = Except.ok st ∧
      st.min = DCELL.fin lo ∧ st.max = DCELL.fin hi ∧ lo ≠ hi ∧
      (∀ v, min ≤ v → v ≤ max →
        transform (FArith.exact Real.log) st (DCELL.fin v) = DCELL.fin (t v) ∧
        ((lo ≤ t v ∧ t v ≤ hi) ∨ (hi ≤ t v ∧ t v ≤ lo))) ∧
      (geom_abs = 0 → t min = lo ∧ t max = hi ∧
        ((st.flip = 0 ∧ lo < hi ∧ ∀ v1 v2, min ≤ v1 → v1 ≤ v2 → v2 ≤ max → t v1 ≤ t v2) ∨
         (st.flip = 1 ∧ geometric ≠ 0 ∧ max < 0 ∧ hi < lo ∧
            ∀ v1 v2, min ≤ v1 → v1 ≤ v2 → v2 ≤ max → t v2 ≤ t v1))) := by
  obtain ⟨f, m, M, u, hgeo, hnofail, humin, humax, hcell, hdir⟩ :=
    stage_geometric min max geometric hlt hz
  obtain ⟨st, hst⟩ := fp_setup_ok_of_not_error (FArith.exact Real.log) statf (DCELL.fin min)
    (DCELL.fin max) geometric geom_abs
    (by simpa [DCELL.lt, DCELL.mul, FArith.exact] using hnofail)
  obtain ⟨_, hflip, hb⟩ := fp_setup_ok_fields _ _ _ _ _ _ _ hst
  obtain ⟨hg, hga, _, _, _⟩ := fp_setup_ok _ _ _ _ _ _ _ hst
  rw [hgeo] at hflip hb
  simp only at hflip hb
  -- the value of a cell after flip and logarithm lies between `m` and `M`
  have hne : m ≠ M := by
    rcases hdir with ⟨_, h, _⟩ | ⟨_, _, _, h, _⟩
    · exact h.ne
    · exact h.ne'
  have hbetween : ∀ v, min ≤ v → v ≤ max → ((m ≤ u v ∧ u v ≤ M) ∨ (M ≤ u v ∧ u v ≤ m)) := by
    intro v h1 h2
    rcases hdir with ⟨_, _, hmono⟩ | ⟨_, _, _, _, hanti⟩
    · left
      rw [← humin, ← humax]
      exact ⟨hmono min v le_rfl h1 h2, hmono v max h1 h2 le_rfl⟩
    · right
      rw [← humin, ← humax]
      exact ⟨hanti v max h1 h2 le_rfl, hanti min v le_rfl h1 h2⟩
  have htrans : ∀ v, transform (FArith.exact Real.log) st (DCELL.fin v) =
      if geom_abs ≠ 0 then
        DCELL.log (FArith.exact Real.log) (DCELL.add (FArith.exact Real.log)
          (DCELL.fabs
            (if geometric ≠ 0 then
              DCELL.log (FArith.exact Real.log)
                (if f ≠ 0 then DCELL.neg (DCELL.fin v) else DCELL.fin v)
            else (if f ≠ 0 then DCELL.neg (DCELL.fin v) else DCELL.fin v)))
          (DCELL.fin 1))
      else
        (if geometric ≠ 0 then
          DCELL.log (FArith.exact Real.log)
            (if f ≠ 0 then DCELL.neg (DCELL.fin v) else DCELL.fin v)
        else (if f ≠ 0 then DCELL.neg (DCELL.fin v) else DCELL.fin v)) := by
    intro v
    simp only [transform, hflip, hg, hga]
  by_cases hgz : geom_abs = 0
  · simp only [hgz, ne_eq, not_true_eq_false, if_false, Prod.mk.injEq] at hb htrans
    refine ⟨st, m, M, u, hst, hb.1, hb.2, hne, ?_, fun _ => ⟨humin, humax, ?_⟩⟩
    · intro v h1 h2
      rw [htrans v, hcell v h1 h2]
      exact ⟨rfl, hbetween v h1 h2⟩
    · rw [hflip]
      exact hdir
  · obtain ⟨lo, hi, hsetup, _, hlohi, hstage⟩ := stage_geom_abs m M hne
    simp only [hgz, ne_eq, not_false_eq_true, if_true, hsetup, Prod.mk.injEq] at hb htrans
    refine ⟨st, lo, hi, fun v => Real.log (|u v| + 1), hst, hb.1, hb.2, hlohi.ne, ?_,
      fun h => absurd h hgz⟩
    intro v h1 h2
    obtain ⟨e1, e2, e3⟩ := hstage (u v) (hbetween v h1 h2)
    rw [htrans v, hcell v h1 h2, e1]
    exact ⟨rfl, Or.inl ⟨e2, e3⟩⟩

/-- Claim C12. In exact real arithmetic, for `min < max` with, under
`geometric`, `0 < min` or `max < 0`, and for every combination of `geometric`
and `geom_abs`: the setup succeeds, the stored bounds are finite and differ,
every cell value `v` with `min <= v <= max` has a bucket index `i` with
`0 <= i <= 1000`, inside the block of 1001 buckets, and the run on any raster
whose non-null cells all lie in `[min, max]` returns. -/
theorem bucket_index_in_bounds (statf : FP_stats ℝ) (min max : ℝ) (geometric geom_abs : Int)
    (hlt : min < max) (hz : geometric ≠ 0 → 0 < min ∨ max < 0) :
    ∃ (st : FP_stats ℝ) (lo hi : ℝ),
      fp_setup (FArith.exact Real.log) statf (DCELL.fin min) (DCELL.fin max)
        geometric geom_abs = Except.ok st ∧
      st.min = DCELL.fin lo ∧ st.max = DCELL.fin hi ∧ lo ≠ hi ∧
      st.stats.length = 1001 ∧
      (∀ v, min ≤ v → v ≤ max →
        ∃ i, bucket (FArith.exact Real.log) st
            (transform (FArith.exact Real.log) st (DCELL.fin v)) = some i ∧
          0 ≤ i ∧ i ≤ 1000 ∧ i.toNat < st.stats.length) ∧
      (∀ map : Raster ℝ,
        (∀ r c v, r < map.nrows → c < map.ncols → map.cell r c = some v →
          min ≤ v ∧ v ≤ max) →
        ∃ w, get_fp_stats (FArith.exact Real.log) map statf (DCELL.fin min) (DCELL.fin max)
          geometric geom_abs = Outcome.returned w) := by
  obtain ⟨st, lo, hi, t, hst, hmin, hmax, hne, htr, _⟩ :=
    setup_and_transform statf min max geometric geom_abs hlt hz
  obtain ⟨_, _, hcount, hstats, _⟩ := fp_setup_ok _ _ _ _ _ _ _ hst
  have hlen : st.stats.length = 1001 := by rw [hstats, List.length_replicate]
  have hidx : ∀ v, min ≤ v → v ≤ max →
      ∃ i, bucket (FArith.exact Real.log) st
          (transform (FArith.exact Real.log) st (DCELL.fin v)) = some i ∧
        0 ≤ i ∧ i ≤ 1000 := by
    intro v h1 h2
    obtain ⟨e, hb⟩ := htr v h1 h2
    obtain ⟨b1, b2, b3⟩ := bucket_exact_between Real.log st lo hi (t v) hcount hmin hmax hne hb
    exact ⟨_, by rw [e, b1], b2, b3⟩
  refine ⟨st, lo, hi, hst, hmin, hmax, hne, hlen, ?_, ?_⟩
  · intro v h1 h2
    obtain ⟨i, hi1, hi2, hi3⟩ := hidx v h1 h2
    exact ⟨i, hi1, hi2, hi3, by rw [hlen]; omega⟩
  · intro map hcells
    exact get_fp_stats_returns (FArith.exact Real.log) map statf st (DCELL.fin min)
      (DCELL.fin max) geometric geom_abs hst
      (fun r c v hr hc hv => hidx v (hcells r c v hr hc hv).1 (hcells r c v hr hc hv).2)

/-- C12 on `min = 0.5`, `max = 2` with `geometric` and `geom_abs` both set:
the stored bounds differ and the cell 1 of the range has a bucket index in
`0..1000`. -/
theorem bucket_index_in_bounds_witness :
    ∃ (st : FP_stats ℝ) (i : Int),
      fp_setup (FArith.exact Real.log) FP_stats.blank (DCELL.fin (1 / 2)) (DCELL.fin 2) 1 1
        = Except.ok st ∧
      st.min ≠ st.max ∧
      bucket (FArith.exact Real.log) st
        (transform (FArith.exact Real.log) st (DCELL.fin 1)) = some i ∧
      0 ≤ i ∧ i ≤ 1000 := by
  obtain ⟨st, lo, hi, hst, hmin, hmax, hne, _, hidx, _⟩ :=
    bucket_index_in_bounds FP_stats.blank (1 / 2 : ℝ) 2 1 1 (by norm_num)
      (fun _ => Or.inl (by norm_num))
  obtain ⟨i, h1, h2, h3, _⟩ := hidx 1 (by norm_num) (by norm_num)
  refine ⟨st, i, hst, ?_, h1, h2, h3⟩
  rw [hmin, hmax]
  exact fun h => hne (DCELL.fin.inj h)

/-! ## Non-negative bounds under `geom_abs` (C14) -/

/-- In exact real arithmetic, on a range that passes the range test, the sign
flip and the logarithm leave bounds that are not `NaN`, except for `min = 0`
with `max < 0`, where `log(max)` is `NaN`. -/
theorem setup_geometric_ordered (min max : ℝ) (hz : ¬ min * max < 0)
    (hex : ¬ (min = 0 ∧ max < 0)) :
    (setup_geometric (FArith.exact Real.log) (DCELL.fin min) (DCELL.fin max)).2.1.ordered ∧
    (setup_geometric (FArith.exact Real.log) (DCELL.fin min) (DCELL.fin max)).2.2.ordered := by
  have hlog : ∀ x : ℝ, 0 ≤ x → (DCELL.log (FArith.exact Real.log) (DCELL.fin x)).ordered := by
    intro x hx
    rcases hx.lt_or_eq with h | h
    · simp [DCELL.log, h, DCELL.ordered]
    · subst h
      simp [DCELL.log, DCELL.ordered]
  rcases lt_trichotomy min 0 with hneg | hzero | hpos
  · have hmax : max ≤ 0 := by
      by_contra hc
      exact hz (mul_neg_of_neg_of_pos hneg (not_le.1 hc))
    simp only [setup_geometric, DCELL.lt, hneg, decide_True, if_true, DCELL.neg]
    exact ⟨hlog (-min) (by linarith), hlog (-max) (by linarith)⟩
  · have hmax : 0 ≤ max := by
      by_contra hc
      exact hex ⟨hzero, not_le.1 hc⟩
    have hnlt : ¬ min < 0 := by rw [hzero]; exact lt_irrefl 0
    simp only [setup_geometric, DCELL.lt, hnlt, decide_False, Bool.false_eq_true, if_false]
    exact ⟨hlog min hzero.ge, hlog max hmax⟩
  · have hmax : 0 ≤ max := by
      by_contra hc
      exact hz (mul_neg_of_pos_of_neg hpos (not_le.1 hc))
    have hnlt : ¬ min < 0 := not_lt.2 hpos.le
    simp only [setup_geometric, DCELL.lt, hnlt, decide_False, Bool.false_eq_true, if_false]
    exact ⟨hlog min hpos.le, hlog max hmax⟩

/-- Claim C14, as the code has it. Whenever `geom_abs` is set and the setup
does not fail, for every `min` and `max`, in either order and of any signs,
with or without `geometric` and sign flip, the stored bounds satisfy
`0 <= statf->min <= statf->max` (where `statf->max` may be `+inf`), and the
transformed value of a non-null cell is `>= 0` (it may be `+inf`) unless,
under `geometric`, the cell is negative where the logarithm is taken.  In
exact real arithmetic the bounds are so except for `min = 0` with `max < 0`
under `geometric`; in binary64 arithmetic, with a library logarithm that is
monotone and not negative at 1, they are so except, under `geometric`, for
`min = 0` with `max < 0` and for `min * max < 0` (a product on which binary64
raises no error, having underflowed to zero). -/
theorem geom_abs_bounds_nonneg (statf st : FP_stats ℝ) (min max : ℝ)
    (geometric geom_abs : Int) (ln : ℚ → ℚ) (statq stq : FP_stats ℚ) (minq maxq : ℚ)
    (hga : geom_abs ≠ 0)
    (hex : ¬ (geometric ≠ 0 ∧ min = 0 ∧ max < 0))
    (h : fp_setup (FArith.exact Real.log) statf (DCELL.fin min) (DCELL.fin max)
      geometric geom_abs = Except.ok st)
    (hln : (binary64_log ln).log_monotone) (hl1 : 0 ≤ ln 1)
    (hexq : ¬ (geometric ≠ 0 ∧ ((minq = 0 ∧ maxq < 0) ∨ minq * maxq < 0)))
    (hq : fp_setup (binary64_log ln) statq (DCELL.fin minq) (DCELL.fin maxq)
      geometric geom_abs = Except.ok stq) :
    (DCELL.le (DCELL.fin 0) st.min = true ∧ DCELL.le st.min st.max = true ∧
      ∀ v : ℝ, (geometric = 0 ∨ 0 ≤ (if st.flip ≠ 0 then -v else v)) →
        DCELL.le (DCELL.fin 0) (transform (FArith.exact Real.log) st (DCELL.fin v)) = true) ∧
    (DCELL.le (DCELL.fin 0) stq.min = true ∧ DCELL.le stq.min stq.max = true ∧
      ∀ v : ℚ, (geometric = 0 ∨ 0 ≤ (if stq.flip ≠ 0 then -v else v)) →
        DCELL.le (DCELL.fin 0) (transform (binary64_log ln) stq (DCELL.fin v)) = true) := by
  constructor
  · obtain ⟨hne, hflip, hb⟩ := fp_setup_ok_fields _ statf st _ _ geometric geom_abs h
    obtain ⟨hg, hgabs, _, _, _⟩ := fp_setup_ok _ _ _ _ _ _ _ h
    have hlt : (DCELL.lt (DCELL.mul (FArith.exact Real.log) (DCELL.fin min) (DCELL.fin max))
        (DCELL.fin 0) = true) ↔ min * max < 0 := by
      simp [DCELL.lt, DCELL.mul, FArith.exact]
    rw [hlt] at hne
    have hmin : st.min = (st.min, st.max).1 := rfl
    have hmax : st.max = (st.min, st.max).2 := rfl
    refine ⟨?_, ?_, ?_⟩
    · rw [hmin, hb]
      by_cases hg0 : geometric = 0
      · simpa [hg0, hga] using
          (setup_geom_abs_ordered (DCELL.fin min) (DCELL.fin max) trivial trivial).2
      · obtain ⟨o1, o2⟩ := setup_geometric_ordered min max (fun hc => hne ⟨hg0, hc⟩)
          (fun hc => hex ⟨hg0, hc⟩)
        simpa [hg0, hga] using (setup_geom_abs_ordered _ _ o1 o2).2
    · rw [hmin, hmax, hb]
      by_cases hg0 : geometric = 0
      · simpa [hg0, hga] using
          (setup_geom_abs_ordered (DCELL.fin min) (DCELL.fin max) trivial trivial).1
      · obtain ⟨o1, o2⟩ := setup_geometric_ordered min max (fun hc => hne ⟨hg0, hc⟩)
          (fun hc => hex ⟨hg0, hc⟩)
        simpa [hg0, hga] using (setup_geom_abs_ordered _ _ o1 o2).1
    · intro v hv
      -- the value entering the log-abs step is not `NaN`
      have hord : (if st.geometric ≠ 0 then
          DCELL.log (FArith.exact Real.log)
            (if st.flip ≠ 0 then DCELL.neg (DCELL.fin v) else DCELL.fin v)
          else (if st.flip ≠ 0 then DCELL.neg (DCELL.fin v) else DCELL.fin v)).ordered := by
        have hval : (if st.flip ≠ 0 then DCELL.neg (DCELL.fin v) else DCELL.fin v)
            = DCELL.fin (if st.flip ≠ 0 then -v else v) := by
          by_cases hf : st.flip = 0 <;> simp [hf, DCELL.neg]
        rw [hval, hg]
        by_cases hg0 : geometric = 0
        · simp [hg0, DCELL.ordered]
        · have hnn : 0 ≤ (if st.flip ≠ 0 then -v else v) := by
            rcases hv with h0 | h0
            · exact absurd h0 hg0
            · exact h0
          simp only [ne_eq, hg0, not_false_eq_true, if_true]
          generalize (if ¬ st.flip = 0 then -v else v) = x at hnn
          rcases hnn.lt_or_eq with hpos | hzero
          · simp [DCELL.log, hpos, DCELL.ordered]
          · rw [← hzero]
            simp [DCELL.log, DCELL.ordered]
      have htr : transform (FArith.exact Real.log) st (DCELL.fin v) =
          DCELL.log (FArith.exact Real.log) (DCELL.add (FArith.exact Real.log)
            (DCELL.fabs (if st.geometric ≠ 0 then
              DCELL.log (FArith.exact Real.log)
                (if st.flip ≠ 0 then DCELL.neg (DCELL.fin v) else DCELL.fin v)
              else (if st.flip ≠ 0 then DCELL.neg (DCELL.fin v) else DCELL.fin v)))
            (DCELL.fin 1)) := by
        simp only [transform, hgabs, ne_eq, hga, not_false_eq_true, if_true]
      rw [htr]
      exact le_zero_of_nonneg _ (log_fabs_add_one_nonneg _ hord)
  · refine geom_abs_bounds_nonneg_gen (binary64_log ln) (binary64_well_behaved ln hln hl1)
      statq stq minq maxq geometric geom_abs hga ?_ hq
    rintro ⟨hg, ⟨h1, h2⟩ | ⟨h1, h2⟩⟩
    · rcases h1.lt_or_eq with h3 | h3
      · exact hexq ⟨hg, Or.inr (mul_neg_of_pos_of_neg h3 h2)⟩
      · exact hexq ⟨hg, Or.inl ⟨h3.symm, h2⟩⟩
    · exact hexq ⟨hg, Or.inr (mul_neg_of_neg_of_pos h1 h2)⟩

/-- C14 as the code has it, on `min = 5`, `max = -3` (in reverse order, of
opposite signs) with `geom_abs` set alone: the setup succeeds and the stored
bounds satisfy `0 <= statf->min <= statf->max`, in exact real arithmetic. -/
theorem geom_abs_bounds_nonneg_witness :
    ∃ st : FP_stats ℝ,
      fp_setup (FArith.exact Real.log) FP_stats.blank (DCELL.fin 5) (DCELL.fin (-3)) 0 1
        = Except.ok st ∧
      DCELL.le (DCELL.fin 0) st.min = true ∧ DCELL.le st.min st.max = true := by
  obtain ⟨st, hst⟩ := fp_setup_ok_of_not_error (FArith.exact Real.log) FP_stats.blank
    (DCELL.fin (5 : ℝ)) (DCELL.fin (-3)) 0 1 (by simp)
  obtain ⟨stq, hstq⟩ := fp_setup_ok_of_not_error (binary64_log no_log) FP_stats.blank
    (DCELL.fin (5 : ℚ)) (DCELL.fin (-3)) 0 1 (by simp)
  obtain ⟨⟨h1, h2, _⟩, _⟩ := geom_abs_bounds_nonneg FP_stats.blank st 5 (-3) 0 1 no_log
    FP_stats.blank stq 5 (-3) (by decide) (by simp) hst (fun _ _ _ _ => le_rfl) le_rfl
    (by simp) hstq
  exact ⟨st, hst, h1, h2⟩

/-- The log-abs step on a second bound that is `NaN` stores `NaN` in both
bounds, in any arithmetic. -/
theorem setup_geom_abs_nan {α : Type} [LinearOrderedField α] (A : FArith α) (m : DCELL α) :
    setup_geom_abs A m DCELL.nan = (DCELL.nan, DCELL.nan) := by
  have h1 : ∀ a : DCELL α, DCELL.lt a DCELL.nan = false := by
    intro a
    cases a <;> rfl
  have h2 : ∀ a : DCELL α, DCELL.lt DCELL.nan a = false := by
    intro a
    cases a <;> rfl
  have h3 : DCELL.mul A m DCELL.nan = DCELL.nan := by
    cases m <;> rfl
  simp only [setup_geom_abs, DCELL.fabs, DCELL.add, DCELL.log, h1, h2, h3, Bool.false_eq_true,
    if_false]

/-- Claim C14, counterexample. With `geometric` and `geom_abs` both set.  In
exact real arithmetic, on `min = 0`, `max = -5` the range test does not fire
(`0 * -5 = 0`) and there is no flip; `log(0) = -inf` and `log(-5) = NaN`, and
the log-abs step stores `NaN` in both bounds: neither `0 <= statf->min` nor
`statf->min <= statf->max` holds.  On `min = 1`, `max = 10` the cell -1 has
the logarithm `NaN` and the transformed value `NaN`, which is not `>= 0`.  In
binary64 arithmetic, on `min = -2 ^ (-600)`, `max = 2 ^ (-600)` the product
`min * max` underflows to zero, no error is raised, the flip makes `max`
negative, `log(max) = NaN`, and the log-abs step stores `NaN` in both bounds
(by `fp_setup_underflow` and `setup_geom_abs_nan`, whatever the library
logarithm). -/
theorem geom_abs_bounds_nan :
    (∃ st : FP_stats ℝ,
      fp_setup (FArith.exact Real.log) FP_stats.blank (DCELL.fin 0) (DCELL.fin (-5)) 1 1
        = Except.ok st ∧
      st.min = DCELL.nan ∧ st.max = DCELL.nan ∧
      DCELL.le (DCELL.fin 0) st.min = false ∧ DCELL.le st.min st.max = false) ∧
    (∃ st : FP_stats ℝ,
      fp_setup (FArith.exact Real.log) FP_stats.blank (DCELL.fin 1) (DCELL.fin 10) 1 1
        = Except.ok st ∧
      transform (FArith.exact Real.log) st (DCELL.fin (-1)) = DCELL.nan ∧
      DCELL.le (DCELL.fin 0) (transform (FArith.exact Real.log) st (DCELL.fin (-1)))
        = false) ∧
    (∃ st : FP_stats ℚ,
      fp_setup (binary64_log no_log) FP_stats.blank (DCELL.fin (-dbl_tiny))
        (DCELL.fin dbl_tiny) 1 1 = Except.ok st ∧
      -dbl_tiny * dbl_tiny < 0 ∧ st.min = DCELL.nan ∧ st.max = DCELL.nan ∧
      DCELL.le (DCELL.fin 0) st.min = false ∧ DCELL.le st.min st.max = false) := by
  refine ⟨?_, ?_, ?_⟩
  · obtain ⟨st, hst⟩ := fp_setup_ok_of_not_error (FArith.exact Real.log) FP_stats.blank
      (DCELL.fin (0 : ℝ)) (DCELL.fin (-5)) 1 1 (by simp [DCELL.lt, DCELL.mul, FArith.exact])
    obtain ⟨_, _, hb⟩ := fp_setup_ok_fields _ _ _ _ _ _ _ hst
    have h5 : ¬ (0 : ℝ) < -5 := by norm_num
    have h5' : ¬ (-5 : ℝ) = 0 := by norm_num
    simp [setup_geometric, setup_geom_abs, DCELL.lt, DCELL.log, DCELL.fabs, DCELL.add,
      DCELL.mul, DCELL.signedInf, FArith.exact, h5, h5'] at hb
    exact ⟨st, hst, hb.1, hb.2, by simp [hb.1, DCELL.le], by simp [hb.1, hb.2, DCELL.le]⟩
  · obtain ⟨st, hst⟩ := fp_setup_ok_of_not_error (FArith.exact Real.log) FP_stats.blank
      (DCELL.fin (1 : ℝ)) (DCELL.fin 10) 1 1 (by simp [DCELL.lt, DCELL.mul, FArith.exact])
    obtain ⟨_, hflip, _⟩ := fp_setup_ok_fields _ _ _ _ _ _ _ hst
    obtain ⟨hg, hga, _, _, _⟩ := fp_setup_ok _ _ _ _ _ _ _ hst
    have h10 : ¬ (1 : ℝ) < 0 := by norm_num
    simp [setup_geometric, DCELL.lt, h10] at hflip
    have h1 : ¬ (0 : ℝ) < -1 := by norm_num
    have h1' : ¬ (-1 : ℝ) = 0 := by norm_num
    have htr : transform (FArith.exact Real.log) st (DCELL.fin (-1)) = DCELL.nan := by
      simp [transform, hflip, hg, hga, DCELL.log, DCELL.fabs, DCELL.add, h1, h1']
    exact ⟨st, hst, htr, by rw [htr]; rfl⟩
  · obtain ⟨_, st, hst, _, hb⟩ := fp_setup_underflow no_log 1
    simp only [ne_eq, one_ne_zero, not_false_eq_true, if_true, setup_geom_abs_nan,
      Prod.mk.injEq] at hb
    exact ⟨st, hst, by decide!, hb.1, hb.2, by rw [hb.1]; rfl, by rw [hb.1, hb.2]; rfl⟩

/-! ## The bucket index in a rounding arithmetic -/

/-- The body of the column loop on a non-null cell whose bucket index lies in
`0..1000`, at any point of the scan: exactly that bucket and the total are
incremented. -/
theorem cell_body_of_bucket {α : Type} [LinearOrderedField α] [FloorRing α] (A : FArith α)
    (st statf : FP_stats α) (x : α) (i : Int) (hcfg : same_config st statf)
    (hlen : st.stats.length = 1001)
    (hb : bucket A st (transform A st (DCELL.fin x)) = some i) (h0 : 0 ≤ i) (h1 : i ≤ 1000) :
    cell_body A statf (some x) = some { statf with
      stats := statf.stats.set i.toNat ((statf.stats.getD i.toNat 0 + 1) % ULONG_RANGE)
      total := (statf.total + 1) % ULONG_RANGE } := by
  obtain ⟨htr, _⟩ := bucket_transform_congr A st statf hcfg (DCELL.fin x)
  obtain ⟨_, hbk⟩ := bucket_transform_congr A st statf hcfg (transform A st (DCELL.fin x))
  have hlen' : i.toNat < statf.stats.length := by
    rw [hcfg.2.2.2.2.2.2, hlen]
    omega
  unfold cell_body
  simp only [htr, hbk, hb, stats_incr, h0, hlen', and_self, if_true]

/-- The body of the column loop is undefined on a non-null cell that has no
bucket index in `0..1000`, at any point of the scan. -/
theorem cell_body_without_bucket {α : Type} [LinearOrderedField α] [FloorRing α]
    (A : FArith α) (st statf : FP_stats α) (x : α) (hcfg : same_config st statf)
    (hlen : st.stats.length = 1001)
    (hb : ¬ ∃ i, bucket A st (transform A st (DCELL.fin x)) = some i ∧ 0 ≤ i ∧ i ≤ 1000) :
    cell_body A statf (some x) = none := by
  obtain ⟨htr, _⟩ := bucket_transform_congr A st statf hcfg (DCELL.fin x)
  obtain ⟨_, hbk⟩ := bucket_transform_congr A st statf hcfg (transform A st (DCELL.fin x))
  unfold cell_body
  simp only [htr, hbk]
  cases hi : bucket A st (transform A st (DCELL.fin x)) with
  | none => rfl
  | some i =>
    have hlen' : ¬ (0 ≤ i ∧ i.toNat < statf.stats.length) := by
      rw [hcfg.2.2.2.2.2.2, hlen]
      intro h
      exact hb ⟨i, hi, h.1, by omega⟩
    simp only [stats_incr, hlen', if_false]

/-- How a bucket index comes about, with finite stored bounds: the rounded
difference `x - min` and its rounded product with 1000 are finite, and either
the rounded `max - min` is finite and not zero, the rounded quotient is
finite and the index is its floor, or the rounded `max - min` is an infinity
and the index is 0. -/
theorem bucket_some_cases {α : Type} [LinearOrderedField α] [FloorRing α] (A : FArith α)
    (st : FP_stats α) (lo hi t : α) (i : Int) (hcount : st.count = 1000)
    (hmin : st.min = DCELL.fin lo) (hmax : st.max = DCELL.fin hi)
    (h : bucket A st (DCELL.fin t) = some i) :
    ∃ x m, A.rnd (t - lo) = DCELL.fin x ∧ A.rnd (1000 * x) = DCELL.fin m ∧
      ((∃ d p, A.rnd (hi - lo) = DCELL.fin d ∧ d ≠ 0 ∧ A.rnd (m / d) = DCELL.fin p ∧
          i = ⌊p⌋) ∨
        ((A.rnd (hi - lo) = DCELL.pinf ∨ A.rnd (hi - lo) = DCELL.ninf) ∧ i = 0)) := by
  have hc : ((1000 : ℤ) : α) = 1000 := by norm_num
  unfold bucket bucket_pos at h
  rw [hmin, hmax, hcount, hc] at h
  simp only [DCELL.sub, DCELL.neg, DCELL.add, ← sub_eq_add_neg] at h
  cases ha : A.rnd (t - lo) with
  | fin x =>
    rw [ha] at h
    simp only [DCELL.mul] at h
    cases hm : A.rnd (1000 * x) with
    | fin m =>
      rw [hm] at h
      refine ⟨x, m, rfl, hm, ?_⟩
      cases hd : A.rnd (hi - lo) with
      | fin d =>
        rw [hd] at h
        by_cases hd0 : d = 0
        · exfalso
          simp only [DCELL.div, hd0, if_true, DCELL.signedInf] at h
          split at h
          · simp [DCELL.floor, DCELL.toInt] at h
          · split at h <;> simp [DCELL.floor, DCELL.toInt] at h
        · simp only [DCELL.div, hd0, if_false] at h
          cases hp : A.rnd (m / d) with
          | fin p =>
            rw [hp, toInt_floor_fin] at h
            split at h
            · exact Or.inl ⟨d, p, rfl, hd0, hp, (Option.some.inj h).symm⟩
            · cases h
          | pinf => rw [hp] at h; simp [DCELL.floor, DCELL.toInt] at h
          | ninf => rw [hp] at h; simp [DCELL.floor, DCELL.toInt] at h
          | nan => rw [hp] at h; simp [DCELL.floor, DCELL.toInt] at h
      | pinf =>
        rw [hd] at h
        simp [DCELL.div, DCELL.floor, DCELL.toInt] at h
        exact Or.inr ⟨Or.inl rfl, h.symm⟩
      | ninf =>
        rw [hd] at h
        simp [DCELL.div, DCELL.floor, DCELL.toInt] at h
        exact Or.inr ⟨Or.inr rfl, h.symm⟩
      | nan =>
        rw [hd] at h
        simp [DCELL.div, DCELL.floor, DCELL.toInt] at h
    | pinf =>
      rw [hm] at h
      exact absurd h (by
        rw [toInt_floor_nonfinite _ (div_nonfinite A _ _ (by simp [DCELL.finite]))]
        simp)
    | ninf =>
      rw [hm] at h
      exact absurd h (by
        rw [toInt_floor_nonfinite _ (div_nonfinite A _ _ (by simp [DCELL.finite]))]
        simp)
    | nan =>
      rw [hm] at h
      exact absurd h (by
        rw [toInt_floor_nonfinite _ (div_nonfinite A _ _ (by simp [DCELL.finite]))]
        simp)
  | pinf =>
    rw [ha] at h
    exact absurd h (by
      rw [toInt_floor_nonfinite _ (div_nonfinite A _ _
        (mul_nonfinite A 1000 _ (by norm_num) (by simp [DCELL.finite])))]
      simp)
  | ninf =>
    rw [ha] at h
    exact absurd h (by
      rw [toInt_floor_nonfinite _ (div_nonfinite A _ _
        (mul_nonfinite A 1000 _ (by norm_num) (by simp [DCELL.finite])))]
      simp)
  | nan =>
    rw [ha] at h
    exact absurd h (by
      rw [toInt_floor_nonfinite _ (div_nonfinite A _ _
        (mul_nonfinite A 1000 _ (by norm_num) (by simp [DCELL.finite])))]
      simp)

/-- In an arithmetic whose rounding is monotone, with finite stored bounds, the
bucket index follows the order of the transformed values when
`statf->min <= statf->max` and the reverse order when
`statf->max <= statf->min`, wherever the index is defined. -/
theorem bucket_monotone {α : Type} [LinearOrderedField α] [FloorRing α] (A : FArith α)
    (hA : A.rounds_monotone) (st : FP_stats α) (lo hi t1 t2 : α) (i j : Int)
    (hcount : st.count = 1000) (hmin : st.min = DCELL.fin lo) (hmax : st.max = DCELL.fin hi)
    (ht : t1 ≤ t2) (h1 : bucket A st (DCELL.fin t1) = some i)
    (h2 : bucket A st (DCELL.fin t2) = some j) :
    (lo ≤ hi → i ≤ j) ∧ (hi ≤ lo → j ≤ i) := by
  obtain ⟨hzero, hmono⟩ := hA
  obtain ⟨x1, m1, hx1, hm1, hc1⟩ := bucket_some_cases A st lo hi t1 i hcount hmin hmax h1
  obtain ⟨x2, m2, hx2, hm2, hc2⟩ := bucket_some_cases A st lo hi t2 j hcount hmin hmax h2
  have hx : x1 ≤ x2 := by
    have := hmono (t1 - lo) (t2 - lo) (by linarith)
    rw [hx1, hx2] at this
    simpa [DCELL.le] using this
  have hm : m1 ≤ m2 := by
    have := hmono (1000 * x1) (1000 * x2) (by linarith)
    rw [hm1, hm2] at this
    simpa [DCELL.le] using this
  rcases hc1 with ⟨d, p1, hd, hd0, hp1, hi⟩ | ⟨hinf, hi⟩
  · rcases hc2 with ⟨d', p2, hd', _, hp2, hj⟩ | ⟨hinf, _⟩
    · rw [hd] at hd'
      cases hd'
      subst hi hj
      constructor
      · intro hlh
        have hdn : 0 ≤ d := by
          have := hmono 0 (hi - lo) (by linarith)
          rw [hzero, hd] at this
          simpa [DCELL.le] using this
        have hdp : 0 < d := lt_of_le_of_ne hdn (Ne.symm hd0)
        have := hmono (m1 / d) (m2 / d) (div_le_div_of_nonneg_right hm hdp.le)
        rw [hp1, hp2] at this
        exact Int.floor_mono (by simpa [DCELL.le] using this)
      · intro hhl
        have hdn : d ≤ 0 := by
          have := hmono (hi - lo) 0 (by linarith)
          rw [hzero, hd] at this
          simpa [DCELL.le] using this
        have := hmono (m2 / d) (m1 / d) (div_le_div_of_nonpos_of_le hdn hm)
        rw [hp2, hp1] at this
        exact Int.floor_mono (by simpa [DCELL.le] using this)
    · rw [hd] at hinf
      rcases hinf with h | h <;> cases h
  · rcases hc2 with ⟨d', p2, hd', _, _, _⟩ | ⟨_, hj⟩
    · rw [hd'] at hinf
      rcases hinf with h | h <;> cases h
    · subst hi hj
      exact ⟨fun _ => le_rfl, fun _ => le_rfl⟩

/-- In an arithmetic that rounds zero to zero and `max - min` to a value above
zero, a value equal to the stored `min` has the bucket index 0. -/
theorem bucket_at_min {α : Type} [LinearOrderedField α] [FloorRing α] (A : FArith α)
    (st : FP_stats α) (lo hi : α) (h0 : A.rnd 0 = DCELL.fin 0) (hcount : st.count = 1000)
    (hmin : st.min = DCELL.fin lo) (hmax : st.max = DCELL.fin hi)
    (hd : DCELL.lt (DCELL.fin 0) (A.rnd (hi - lo)) = true) :
    bucket A st (DCELL.fin lo) = some 0 := by
  have hc : ((1000 : ℤ) : α) = 1000 := by norm_num
  unfold bucket bucket_pos
  rw [hmin, hmax, hcount, hc]
  simp only [DCELL.sub, DCELL.neg, DCELL.add, ← sub_eq_add_neg, sub_self, h0, DCELL.mul,
    mul_zero]
  cases hD : A.rnd (hi - lo) with
  | fin d =>
    rw [hD] at hd
    have hdp : 0 < d := by simpa [DCELL.lt] using hd
    simp [DCELL.div, hdp.ne', h0, DCELL.floor, DCELL.toInt]
  | pinf => simp [DCELL.div, DCELL.floor, DCELL.toInt]
  | ninf =>
    rw [hD] at hd
    simp [DCELL.lt] at hd
  | nan =>
    rw [hD] at hd
    simp [DCELL.lt] at hd

/-! ## Cells that the logarithm does not accept (C7) -/

/-- A run whose setup succeeds is undefined as soon as the body of the column
loop is undefined on one cell of the raster, whatever the state it is reached
in. -/
theorem get_fp_stats_undefined {α : Type} [LinearOrderedField α] [FloorRing α]
    (A : FArith α) (map : Raster α) (statf st : FP_stats α) (min max : DCELL α)
    (geometric geom_abs : Int)
    (hst : fp_setup A statf min max geometric geom_abs = Except.ok st)
    (r c : Nat) (hr : r < map.nrows) (hc : c < map.ncols)
    (hnone : ∀ t, same_config st t → cell_body A t (map.cell r c) = none) :
    get_fp_stats A map statf min max geometric geom_abs = Outcome.undefined := by
  cases hres : get_fp_stats A map statf min max geometric geom_abs with
  | returned w =>
    obtain ⟨t, t', ht, hb⟩ :=
      get_fp_stats_cell_defined A map statf st min max geometric geom_abs w hst hres r c hr hc
    rw [hnone t ht] at hb
    cases hb
  | fatal msg w =>
    have h := ((get_fp_stats_fatal_iff A map statf min max geometric geom_abs msg w).1 hres).2.2
    rw [hst] at h
    cases h
  | undefined => rfl

/-- In exact real arithmetic, on a range `min < max` that excludes zero under
`geometric`, every value of the range has a bucket index in `0..1000`. -/
theorem bucket_in_bounds_exact (statf st : FP_stats ℝ) (min max : ℝ)
    (geometric geom_abs : Int) (hlt : min < max) (hz : geometric ≠ 0 → 0 < min ∨ max < 0)
    (hst : fp_setup (FArith.exact Real.log) statf (DCELL.fin min) (DCELL.fin max)
      geometric geom_abs = Except.ok st)
    (v : ℝ) (h1 : min ≤ v) (h2 : v ≤ max) :
    ∃ i, bucket (FArith.exact Real.log) st
        (transform (FArith.exact Real.log) st (DCELL.fin v)) = some i ∧ 0 ≤ i ∧ i ≤ 1000 := by
  obtain ⟨st', lo, hi, t, hst', hmin, hmax, hne, htr, _⟩ :=
    setup_and_transform statf min max geometric geom_abs hlt hz
  rw [hst] at hst'
  cases hst'
  obtain ⟨_, _, hcount, _, _⟩ := fp_setup_ok _ _ _ _ _ _ _ hst
  obtain ⟨e, hb⟩ := htr v h1 h2
  obtain ⟨b1, b2, b3⟩ := bucket_exact_between Real.log st lo hi (t v) hcount hmin hmax hne hb
  exact ⟨_, by rw [e, b1], b2, b3⟩

/-- Claim C7, as the code has it. Under `geometric`, in any arithmetic, after a
successful setup, only null cells are skipped.  A null cell leaves the record
as it is.  A non-null cell whose value is `<= 0` where the logarithm is taken
(after the sign flip) is not skipped: the body of the column loop is
undefined on it, in whatever state it is reached, and so is the run on a
raster that holds such a cell.  And when every non-null cell has a bucket
index in `0..1000`, the run returns and `statf->total` is the number of
non-null cells of the raster and the sum of the buckets; each of these cells
is then positive where the logarithm is taken. -/
theorem geometric_scan_counts_every_cell {α : Type} [LinearOrderedField α] [FloorRing α]
    (A : FArith α) (map : Raster α) (statf st : FP_stats α) (min max : DCELL α)
    (geometric geom_abs : Int) (hg : geometric ≠ 0)
    (hst : fp_setup A statf min max geometric geom_abs = Except.ok st) :
    (∀ s : FP_stats α, cell_body A s none = some s) ∧
    (∀ r c v, r < map.nrows → c < map.ncols → map.cell r c = some v →
      (if st.flip ≠ 0 then -v else v) ≤ 0 →
      (∀ t, same_config st t → cell_body A t (some v) = none) ∧
      get_fp_stats A map statf min max geometric geom_abs = Outcome.undefined) ∧
    ((∀ r c v, r < map.nrows → c < map.ncols → map.cell r c = some v →
        ∃ i, bucket A st (transform A st (DCELL.fin v)) = some i ∧ 0 ≤ i ∧ i ≤ 1000) →
      ∃ w, get_fp_stats A map statf min max geometric geom_abs = Outcome.returned w ∧
        w.statf.total = cell_count map ∧ w.statf.stats.sum = cell_count map ∧
        ∀ r c v, r < map.nrows → c < map.ncols → map.cell r c = some v →
          0 < (if st.flip ≠ 0 then -v else v)) := by
  obtain ⟨hgeo, _, hcount, _, _⟩ := fp_setup_ok A statf st min max geometric geom_abs hst
  have hbody : ∀ v, (if st.flip ≠ 0 then -v else v) ≤ 0 →
      ∀ t, same_config st t → cell_body A t (some v) = none := by
    intro v hv t ht
    exact cell_body_nonpositive A t v (by rw [ht.1, hgeo]; exact hg)
      (by rw [ht.2.2.2.1, hcount]; norm_num) (by rw [ht.2.2.1]; exact hv)
  have hundef : ∀ r c v, r < map.nrows → c < map.ncols → map.cell r c = some v →
      (if st.flip ≠ 0 then -v else v) ≤ 0 →
      get_fp_stats A map statf min max geometric geom_abs = Outcome.undefined := by
    intro r c v hr hc hcell hv
    exact get_fp_stats_undefined A map statf st min max geometric geom_abs hst r c hr hc
      (by rw [hcell]; exact hbody v hv)
  refine ⟨fun s => rfl, fun r c v hr hc hcell hv => ⟨hbody v hv, hundef r c v hr hc hcell hv⟩,
    fun hidx => ?_⟩
  obtain ⟨w, hw, _, htotal, hsum, _, _⟩ :=
    get_fp_stats_scan A map statf st min max geometric geom_abs hst hidx
  refine ⟨w, hw, htotal, by rw [hsum, htotal], ?_⟩
  intro r c v hr hc hcell
  by_contra hneg
  have h := hundef r c v hr hc hcell (not_lt.1 hneg)
  rw [hw] at h
  cases h

/-- C7 as the code has it, on the raster `[1.0, null, 10.0]` with `min = 1`,
`max = 10` under `geometric`, in exact real arithmetic: the run returns with
`total = 2`, the number of non-null cells. -/
theorem geometric_scan_counts_every_cell_witness :
    ∃ w, get_fp_stats (FArith.exact Real.log) (raster_1x3 (1 : ℝ) 10) FP_stats.blank
        (DCELL.fin 1) (DCELL.fin 10) 1 0 = Outcome.returned w ∧
      w.statf.total = cell_count (raster_1x3 (1 : ℝ) 10) ∧
      w.statf.stats.sum = cell_count (raster_1x3 (1 : ℝ) 10) ∧
      cell_count (raster_1x3 (1 : ℝ) 10) = 2 := by
  have hz : (1 : Int) ≠ 0 → (0 : ℝ) < 1 ∨ (10 : ℝ) < 0 := fun _ => Or.inl one_pos
  obtain ⟨st, hst⟩ := fp_setup_ok_of_not_error (FArith.exact Real.log) FP_stats.blank
    (DCELL.fin (1 : ℝ)) (DCELL.fin 10) 1 0 (by simp [DCELL.lt, DCELL.mul, FArith.exact])
  obtain ⟨w, hw, h1, h2, _⟩ := (geometric_scan_counts_every_cell (FArith.exact Real.log)
    (raster_1x3 (1 : ℝ) 10) FP_stats.blank st (DCELL.fin 1) (DCELL.fin 10) 1 0 (by decide)
    hst).2.2 (by
      intro r c v hr hc hv
      have hr' : r < 1 := hr
      have hc' : c < 3 := hc
      interval_cases r
      interval_cases c
      · cases (Option.some.inj hv)
        exact bucket_in_bounds_exact _ st 1 10 1 0 (by norm_num) hz hst 1 le_rfl (by norm_num)
      · have hv' : (none : Option ℝ) = some v := hv
        cases hv'
      · cases (Option.some.inj hv)
        exact bucket_in_bounds_exact _ st 1 10 1 0 (by norm_num) hz hst 10 (by norm_num)
          le_rfl)
  exact ⟨w, hw, h1, h2, rfl⟩

/-- Claim C7, counterexample. Under `geometric` with `min = 1`, `max = 10`, in
exact real arithmetic, the cells -1 and 0 are not skipped like a null cell: a
null cell leaves the record as it is, while on -1 (logarithm `NaN`) and on 0
(logarithm `-inf`) the body of the column loop goes on to a bucket index that
does not exist; the run on the raster of the single cell -1 does not end with
`total = 0`, it is undefined. -/
theorem nonpositive_cell_not_skipped :
    ∃ st : FP_stats ℝ,
      fp_setup (FArith.exact Real.log) FP_stats.blank (DCELL.fin 1) (DCELL.fin 10) 1 0
        = Except.ok st ∧
      cell_body (FArith.exact Real.log) st none = some st ∧
      cell_body (FArith.exact Real.log) st (some (-1)) = none ∧
      cell_body (FArith.exact Real.log) st (some 0) = none ∧
      get_fp_stats (FArith.exact Real.log) (raster_1x1 (-1 : ℝ)) FP_stats.blank
        (DCELL.fin 1) (DCELL.fin 10) 1 0 = Outcome.undefined := by
  obtain ⟨st, hst⟩ := fp_setup_ok_of_not_error (FArith.exact Real.log) FP_stats.blank
    (DCELL.fin (1 : ℝ)) (DCELL.fin 10) 1 0 (by simp [DCELL.lt, DCELL.mul, FArith.exact])
  obtain ⟨_, hflip, _⟩ := fp_setup_ok_fields _ _ _ _ _ _ _ hst
  obtain ⟨hg, _, hcount, _, _⟩ := fp_setup_ok _ _ _ _ _ _ _ hst
  have h10 : ¬ (1 : ℝ) < 0 := by norm_num
  simp [setup_geometric, DCELL.lt, h10] at hflip
  have h1 : cell_body (FArith.exact Real.log) st (some (-1)) = none :=
    cell_body_nonpositive _ st (-1) (by rw [hg]; decide) (by rw [hcount]; decide)
      (by rw [hflip]; norm_num)
  have h0 : cell_body (FArith.exact Real.log) st (some 0) = none :=
    cell_body_nonpositive _ st 0 (by rw [hg]; decide) (by rw [hcount]; decide)
      (by rw [hflip]; norm_num)
  have hrun := get_fp_stats_1x1 (FArith.exact Real.log) (-1 : ℝ) FP_stats.blank st
    (DCELL.fin 1) (DCELL.fin 10) 1 0 hst
  rw [h1] at hrun
  exact ⟨st, hst, rfl, h1, h0, hrun⟩

/-! ## Null cells and counted cells (C8) -/

/-- Claim C8, as the code has it. With `geometric` not set, in any arithmetic,
the setup succeeds, and: a null cell leaves the record as it is; when every
non-null cell has a bucket index in `0..1000`, the run returns, every row
having been fetched once and in order, and `statf->total` is the number of
non-null cells of the raster and the sum of the buckets; no run that returns
ends with another total; and on a raster whose cells are all null the run
returns with all 1001 buckets and `statf->total` at 0. -/
theorem plain_scan_counts_nonnull_cells {α : Type} [LinearOrderedField α] [FloorRing α]
    (A : FArith α) (map : Raster α) (statf : FP_stats α) (min max : DCELL α)
    (geom_abs : Int) :
    ∃ st, fp_setup A statf min max 0 geom_abs = Except.ok st ∧
      (∀ s : FP_stats α, cell_body A s none = some s) ∧
      ((∀ r c v, r < map.nrows → c < map.ncols → map.cell r c = some v →
          ∃ i, bucket A st (transform A st (DCELL.fin v)) = some i ∧ 0 ≤ i ∧ i ≤ 1000) →
        ∃ w, get_fp_stats A map statf min max 0 geom_abs = Outcome.returned w ∧
          w.statf.total = cell_count map ∧ w.statf.stats.sum = cell_count map ∧
          w.statf.stats.length = 1001 ∧ w.rows_read = List.range map.nrows) ∧
      (∀ w, get_fp_stats A map statf min max 0 geom_abs = Outcome.returned w →
        w.statf.total = cell_count map) ∧
      ((∀ r c, r < map.nrows → c < map.ncols → map.cell r c = none) →
        ∃ w, get_fp_stats A map statf min max 0 geom_abs = Outcome.returned w ∧
          w.statf.stats = List.replicate 1001 0 ∧ w.statf.total = 0 ∧
          w.rows_read = List.range map.nrows) := by
  obtain ⟨st, hst⟩ := fp_setup_ok_of_not_error A statf min max 0 geom_abs (by simp)
  refine ⟨st, hst, fun s => rfl, fun hidx => ?_, fun w hw => ?_, fun hnull => ?_⟩
  · obtain ⟨w, hw, _, htotal, hsum, hlen, hrows⟩ :=
      get_fp_stats_scan A map statf st min max 0 geom_abs hst hidx
    exact ⟨w, hw, htotal, by rw [hsum, htotal], hlen, hrows⟩
  · obtain ⟨_, _, _, htotal, _, _⟩ := get_fp_stats_returned A map statf min max 0 geom_abs w hw
    exact htotal
  · obtain ⟨_, _, _, hstats, htotal0⟩ := fp_setup_ok A statf st min max 0 geom_abs hst
    refine ⟨⟨st, List.range map.nrows⟩, ?_, hstats, htotal0, rfl⟩
    unfold get_fp_stats
    rw [hst]
    simp only [row_loop_all_null A map st hnull]

/-- C8 on the raster with rows `[1.0, null]`, `[null, 4.0]`, scanned with
`min = 1`, `max = 4` and no transform in binary64 arithmetic: the two
non-null cells have the indices 0 and 1000, and the run returns with
`total = 2`, the number of non-null cells. -/
theorem plain_scan_counts_nonnull_cells_witness :
    ∃ w, get_fp_stats binary64 raster_2x2 FP_stats.blank (DCELL.fin 1) (DCELL.fin 4) 0 0
        = Outcome.returned w ∧
      w.statf.total = cell_count raster_2x2 ∧ w.statf.stats.sum = cell_count raster_2x2 ∧
      cell_count raster_2x2 = 2 := by
  obtain ⟨st, hst, _, hscan, _⟩ := plain_scan_counts_nonnull_cells binary64 raster_2x2
    FP_stats.blank (DCELL.fin 1) (DCELL.fin 4) 0
  have hst' : fp_setup binary64 FP_stats.blank (DCELL.fin 1) (DCELL.fin 4) 0 0
      = Except.ok setup_1_4 := by decide!
  rw [hst'] at hst
  cases hst
  obtain ⟨w, hw, h1, h2, _⟩ := hscan (by
    intro r c v hr hc hv
    have hr' : r < 2 := hr
    have hc' : c < 2 := hc
    interval_cases r <;> interval_cases c
    · cases (Option.some.inj hv)
      exact ⟨0, by decide!, by decide, by decide⟩
    · have hv' : (none : Option ℚ) = some v := hv
      cases hv'
    · have hv' : (none : Option ℚ) = some v := hv
      cases hv'
    · cases (Option.some.inj hv)
      exact ⟨1000, by decide!, by decide, by decide⟩)
  exact ⟨w, hw, h1, h2, by decide⟩

/-- Claim C8, counterexample. With `geometric` not set, not every raster is
scanned to the end.  With `min = max = 1` the setup succeeds, and the cell 1
has the position `1000 * 0 / 0 = NaN`, which `(int)` does not convert: the
cell has no bucket index and the run on the raster of this single non-null
cell is undefined, in binary64 and in exact arithmetic alike; it does not
end with `total = 1`.  With `min = 0`, `max = 1` the cell 2 has the index
2000, outside the block of 1001 buckets, and the run is undefined as well. -/
theorem plain_scan_without_index :
    (fp_setup binary64 FP_stats.blank (DCELL.fin 1) (DCELL.fin 1) 0 0 = Except.ok setup_1_1 ∧
      bucket_pos binary64 setup_1_1 (transform binary64 setup_1_1 (DCELL.fin 1)) = DCELL.nan ∧
      bucket binary64 setup_1_1 (transform binary64 setup_1_1 (DCELL.fin 1)) = none ∧
      cell_count (raster_1x1 (1 : ℚ)) = 1 ∧
      get_fp_stats binary64 (raster_1x1 1) FP_stats.blank (DCELL.fin 1) (DCELL.fin 1) 0 0
        = Outcome.undefined ∧
      get_fp_stats (FArith.exact no_log) (raster_1x1 1) FP_stats.blank (DCELL.fin 1)
        (DCELL.fin 1) 0 0 = Outcome.undefined) ∧
    (fp_setup binary64 FP_stats.blank (DCELL.fin 0) (DCELL.fin 1) 0 0 = Except.ok setup_0_1 ∧
      bucket binary64 setup_0_1 (transform binary64 setup_0_1 (DCELL.fin 2)) = some 2000 ∧
      stats_incr setup_0_1.stats 2000 = none ∧
      get_fp_stats binary64 (raster_1x1 2) FP_stats.blank (DCELL.fin 0) (DCELL.fin 1) 0 0
        = Outcome.undefined) :=
  ⟨⟨by decide!, by decide!, by decide!, by decide, by decide!, by decide!⟩,
    ⟨by decide!, by decide!, by decide!, by decide!⟩⟩

/-! ## Binning without transform (C9) -/

/-- In exact arithmetic, on a record without transform, with `count = 1000`, a
block of 1001 buckets and finite bounds that differ, the body of the column
loop increments the bucket whose index is `⌊1000 * (x - min) / (max - min)⌋`,
and the total, when that index is in `0..1000`, and is undefined otherwise. -/
theorem cell_body_plain_exact {α : Type} [LinearOrderedField α] [FloorRing α] (ln : α → α)
    (statf : FP_stats α) (lo hi x : α) (hg : statf.geometric = 0) (hga : statf.geom_abs = 0)
    (hflip : statf.flip = 0) (hcount : statf.count = 1000)
    (hlen : statf.stats.length = 1001) (hmin : statf.min = DCELL.fin lo)
    (hmax : statf.max = DCELL.fin hi) (hne : lo ≠ hi) :
    (bucket (FArith.exact ln) statf (DCELL.fin x) =
      if -2 ^ 31 ≤ ⌊1000 * (x - lo) / (hi - lo)⌋ ∧ ⌊1000 * (x - lo) / (hi - lo)⌋ < 2 ^ 31
      then some ⌊1000 * (x - lo) / (hi - lo)⌋ else none) ∧
    cell_body (FArith.exact ln) statf (some x) =
      if 0 ≤ ⌊1000 * (x - lo) / (hi - lo)⌋ ∧ ⌊1000 * (x - lo) / (hi - lo)⌋ ≤ 1000 then
        some { statf with
          stats := statf.stats.set ⌊1000 * (x - lo) / (hi - lo)⌋.toNat
            ((statf.stats.getD ⌊1000 * (x - lo) / (hi - lo)⌋.toNat 0 + 1) % ULONG_RANGE)
          total := (statf.total + 1) % ULONG_RANGE }
      else none := by
  have hc : ((1000 : ℤ) : α) = 1000 := by norm_num
  have htr : transform (FArith.exact ln) statf (DCELL.fin x) = DCELL.fin x := by
    simp [transform, hg, hga, hflip]
  have hpos := bucket_pos_exact ln statf lo hi x hmin hmax hne
  rw [hcount, hc] at hpos
  generalize hi_def : ⌊1000 * (x - lo) / (hi - lo)⌋ = i
  have hb : bucket (FArith.exact ln) statf (DCELL.fin x) =
      if -2 ^ 31 ≤ i ∧ i < 2 ^ 31 then some i else none := by
    unfold bucket
    rw [hpos, toInt_floor_fin, hi_def]
  refine ⟨hb, ?_⟩
  unfold cell_body
  simp only [htr, hb, stats_incr, hlen]
  by_cases hr : -2 ^ 31 ≤ i ∧ i < 2 ^ 31
  · rw [if_pos hr]
    by_cases h01 : 0 ≤ i ∧ i ≤ 1000
    · have h2 : 0 ≤ i ∧ i.toNat < 1001 := ⟨h01.1, by omega⟩
      rw [if_pos h01]
      simp only [if_pos h2]
    · have h2 : ¬ (0 ≤ i ∧ i.toNat < 1001) := by
        intro h
        exact h01 ⟨h.1, by omega⟩
      rw [if_neg h01]
      simp only [if_neg h2]
  · have h01 : ¬ (0 ≤ i ∧ i ≤ 1000) := by
      intro h
      exact hr ⟨by omega, by omega⟩
    rw [if_neg hr, if_neg h01]

/-- Claim C9, as the code has it. With no transform and `min < max`.  In any
arithmetic the setup succeeds and stores the caller's `min` and `max` with
`count = 1000`; at any point of the scan a non-null cell of value `x` is
taken as it is and increments exactly the bucket whose index line 124
computes from it, and the total, when that index is in `0..1000`; otherwise
the run is undefined.  In exact arithmetic that index is
`⌊1000 * (x - min) / (max - min)⌋`, and the index of a cell equal to `min` is
0.  In binary64 arithmetic, for finite values `min < max` of the format, the
index of a cell equal to `min` is 0 as well, and the cell is counted in
bucket 0. -/
theorem plain_scan_bucket {α : Type} [LinearOrderedField α] [FloorRing α] (A : FArith α)
    (statf0 : FP_stats α) (min max : α) (statq0 : FP_stats ℚ) (minq maxq : ℚ)
    (hlt : min < max) (hq : minq < maxq) (hrmin : representable minq)
    (hrmax : representable maxq) :
    (∃ st, fp_setup A statf0 (DCELL.fin min) (DCELL.fin max) 0 0 = Except.ok st ∧
      st.min = DCELL.fin min ∧ st.max = DCELL.fin max ∧ st.count = 1000 ∧
      (∀ (statf : FP_stats α) (x : α), same_config st statf →
        transform A statf (DCELL.fin x) = DCELL.fin x) ∧
      (∀ (statf : FP_stats α) (x : α) (i : Int), same_config st statf →
        bucket A st (DCELL.fin x) = some i → 0 ≤ i → i ≤ 1000 →
        cell_body A statf (some x) = some { statf with
          stats := statf.stats.set i.toNat ((statf.stats.getD i.toNat 0 + 1) % ULONG_RANGE)
          total := (statf.total + 1) % ULONG_RANGE }) ∧
      (∀ (statf : FP_stats α) (x : α), same_config st statf →
        (¬ ∃ i, bucket A st (DCELL.fin x) = some i ∧ 0 ≤ i ∧ i ≤ 1000) →
        cell_body A statf (some x) = none)) ∧
    (∃ st, fp_setup (FArith.exact A.ln) statf0 (DCELL.fin min) (DCELL.fin max) 0 0
        = Except.ok st ∧
      (∀ x : α, bucket (FArith.exact A.ln) st (DCELL.fin x) =
        if -2 ^ 31 ≤ ⌊1000 * (x - min) / (max - min)⌋ ∧
            ⌊1000 * (x - min) / (max - min)⌋ < 2 ^ 31
        then some ⌊1000 * (x - min) / (max - min)⌋ else none) ∧
      (∀ (statf : FP_stats α) (x : α), same_config st statf →
        cell_body (FArith.exact A.ln) statf (some x) =
          if 0 ≤ ⌊1000 * (x - min) / (max - min)⌋ ∧ ⌊1000 * (x - min) / (max - min)⌋ ≤ 1000
          then
            some { statf with
              stats := statf.stats.set ⌊1000 * (x - min) / (max - min)⌋.toNat
                ((statf.stats.getD ⌊1000 * (x - min) / (max - min)⌋.toNat 0 + 1)
                  % ULONG_RANGE)
              total := (statf.total + 1) % ULONG_RANGE }
          else none) ∧
      bucket (FArith.exact A.ln) st (DCELL.fin min) = some 0) ∧
    (∃ st, fp_setup binary64 statq0 (DCELL.fin minq) (DCELL.fin maxq) 0 0 = Except.ok st ∧
      bucket binary64 st (DCELL.fin minq) = some 0 ∧
      (∀ statf : FP_stats ℚ, same_config st statf →
        cell_body binary64 statf (some minq) = some { statf with
          stats := statf.stats.set 0 ((statf.stats.getD 0 0 + 1) % ULONG_RANGE)
          total := (statf.total + 1) % ULONG_RANGE })) := by
  have hplain : ∀ {β : Type} [LinearOrderedField β] [FloorRing β] (B : FArith β)
      (s0 : FP_stats β) (a b : β),
      ∃ st, fp_setup B s0 (DCELL.fin a) (DCELL.fin b) 0 0 = Except.ok st ∧
        st.min = DCELL.fin a ∧ st.max = DCELL.fin b ∧ st.count = 1000 ∧
        st.stats.length = 1001 ∧
        ∀ (statf : FP_stats β) (x : β), same_config st statf →
          statf.geometric = 0 ∧ statf.geom_abs = 0 ∧ statf.flip = 0 ∧
          transform B statf (DCELL.fin x) = DCELL.fin x := by
    intro β _ _ B s0 a b
    obtain ⟨st, hst⟩ := fp_setup_ok_of_not_error B s0 (DCELL.fin a) (DCELL.fin b) 0 0
      (by simp)
    obtain ⟨_, hflip, hb⟩ := fp_setup_ok_fields _ _ _ _ _ _ _ hst
    obtain ⟨hg, hga, hcount, hstats, _⟩ := fp_setup_ok _ _ _ _ _ _ _ hst
    simp only [ne_eq, not_true_eq_false, if_false, Prod.mk.injEq] at hflip hb
    refine ⟨st, hst, hb.1, hb.2, hcount, by rw [hstats, List.length_replicate], ?_⟩
    intro statf x ⟨c1, c2, c3, _, _, _, _⟩
    refine ⟨c1.trans hg, c2.trans hga, c3.trans hflip, ?_⟩
    simp [transform, c1.trans hg, c2.trans hga, c3.trans hflip]
  refine ⟨?_, ?_, ?_⟩
  · obtain ⟨st, hst, hmin, hmax, hcount, hlen, hcfg⟩ := hplain A statf0 min max
    have htr : ∀ x : α, transform A st (DCELL.fin x) = DCELL.fin x :=
      fun x => (hcfg st x (same_config_refl st)).2.2.2
    refine ⟨st, hst, hmin, hmax, hcount, fun statf x h => (hcfg statf x h).2.2.2, ?_, ?_⟩
    · intro statf x i h hb h0 h1
      exact cell_body_of_bucket A st statf x i h hlen (by rw [htr x]; exact hb) h0 h1
    · intro statf x h hb
      exact cell_body_without_bucket A st statf x h hlen (by rw [htr x]; exact hb)
  · obtain ⟨st, hst, hmin, hmax, hcount, hlen, hcfg⟩ :=
      hplain (FArith.exact A.ln) statf0 min max
    have hst0 := hcfg st min (same_config_refl st)
    refine ⟨st, hst, ?_, ?_, ?_⟩
    · intro x
      exact (cell_body_plain_exact A.ln st min max x hst0.1 hst0.2.1 hst0.2.2.1 hcount hlen
        hmin hmax hlt.ne).1
    · intro statf x h
      obtain ⟨c1, c2, c3, _⟩ := hcfg statf x h
      exact (cell_body_plain_exact A.ln statf min max x c1 c2 c3 (h.2.2.2.1.trans hcount)
        (h.2.2.2.2.2.2.trans hlen) (h.2.2.2.2.1.trans hmin) (h.2.2.2.2.2.1.trans hmax)
        hlt.ne).2
    · exact bucket_at_min (FArith.exact A.ln) st min max rfl hcount hmin hmax
        (by simp [FArith.exact, DCELL.lt, hlt])
  · obtain ⟨st, hst, hmin, hmax, hcount, hlen, hcfg⟩ := hplain binary64 statq0 minq maxq
    have h0 : binary64.rnd 0 = DCELL.fin 0 := by
      dsimp only [binary64]
      exact dbl_zero
    have hd : DCELL.lt (DCELL.fin 0) (binary64.rnd (maxq - minq)) = true := by
      dsimp only [binary64]
      exact dbl_sub_pos minq maxq hrmin hrmax hq
    have hb : bucket binary64 st (DCELL.fin minq) = some 0 :=
      bucket_at_min binary64 st minq maxq h0 hcount hmin hmax hd
    refine ⟨st, hst, hb, ?_⟩
    intro statf h
    exact cell_body_of_bucket binary64 st statf minq 0 h hlen
      (by rw [(hcfg st minq (same_config_refl st)).2.2.2]; exact hb) le_rfl (by norm_num)

/-- C9 on the 1x4 raster `[1.0, 2.0, 3.0, 4.0]` with `min = 1.0`, `max = 4.0`
in binary64 arithmetic: the setup stores the bounds 1 and 4, the cell 1.0 has
index 0, the run returns `run_1x4` (`total = 4`, one count in each of the
buckets 0, 333, 666 and 1000, every other bucket 0), as it does in exact
arithmetic, and the cells 2.0 and 3.0 have the indices
`floor(1000 * (x - 1) / 3)`, that is 333 and 666. -/
theorem plain_scan_bucket_witness :
    (∃ st, fp_setup binary64 FP_stats.blank (DCELL.fin 1) (DCELL.fin 4) 0 0
        = Except.ok st ∧ st.min = DCELL.fin 1 ∧ st.max = DCELL.fin 4 ∧ st.count = 1000) ∧
    (∃ st, fp_setup binary64 FP_stats.blank (DCELL.fin 1) (DCELL.fin 4) 0 0
        = Except.ok st ∧ bucket binary64 st (DCELL.fin 1) = some 0) ∧
    get_fp_stats binary64 raster_1x4 FP_stats.blank (DCELL.fin 1) (DCELL.fin 4) 0 0
      = Outcome.returned run_1x4 ∧
    get_fp_stats (FArith.exact no_log) raster_1x4 FP_stats.blank (DCELL.fin 1) (DCELL.fin 4)
      0 0 = Outcome.returned run_1x4 ∧
    run_1x4.statf.total = 4 ∧
    run_1x4.statf.stats = [1] ++ List.replicate 332 0 ++ [1] ++ List.replicate 332 0 ++ [1]
      ++ List.replicate 333 0 ++ [1] ∧
    ⌊(1000 * (2 - 1) / (4 - 1) : ℚ)⌋ = 333 ∧ ⌊(1000 * (3 - 1) / (4 - 1) : ℚ)⌋ = 666 := by
  obtain ⟨⟨st, hst, hmin, hmax, hcount, _⟩, _, ⟨st', hst', hb, _⟩⟩ :=
    plain_scan_bucket binary64 FP_stats.blank (1 : ℚ) 4 FP_stats.blank 1 4 (by norm_num)
      (by norm_num) (by decide!) (by decide!)
  exact ⟨⟨st, hst, hmin, hmax, hcount⟩, ⟨st', hst', hb⟩, by decide!, by decide!, rfl,
    by decide!, by decide!, by decide!⟩

/-- Claim C9, counterexample. In binary64 arithmetic the bucket of a cell is
not always `floor(1000 * (x - min) / (max - min))`.  With `min = 0.0`,
`max = 1.0` and no transform, the cell 0.3 (the `double` nearest to 3/10,
which is below 3/10) has `1000 * (x - min) / (max - min)` just below 300,
whose floor is 299; but `1000 * 0.3` is rounded to 300, the index line 124
computes is 300, and the run counts the cell in bucket 300.  With
`min = 0.0`, `max = 2 ^ 1020` the cell `2 ^ 1020` has
`floor(1000 * (x - min) / (max - min)) = 1000`, but `1000 * 2 ^ 1020`
overflows to `+inf`: the cell has no index and the run is undefined. -/
theorem plain_bucket_rounded :
    (representable dbl_0_3 ∧ dbl_0_3 < 3 / 10 ∧
      fp_setup binary64 FP_stats.blank (DCELL.fin 0) (DCELL.fin 1) 0 0 = Except.ok setup_0_1 ∧
      ⌊1000 * (dbl_0_3 - 0) / (1 - 0)⌋ = 299 ∧
      bucket (FArith.exact no_log) setup_0_1
        (transform (FArith.exact no_log) setup_0_1 (DCELL.fin dbl_0_3)) = some 299 ∧
      DCELL.mul binary64 (DCELL.fin 1000) (DCELL.fin dbl_0_3) = DCELL.fin 300 ∧
      bucket binary64 setup_0_1 (transform binary64 setup_0_1 (DCELL.fin dbl_0_3))
        = some 300 ∧
      get_fp_stats binary64 (raster_1x1 dbl_0_3) FP_stats.blank (DCELL.fin 0) (DCELL.fin 1) 0 0
        = Outcome.returned ⟨{ setup_0_1 with
            stats := (List.replicate 1001 0).set 300 1, total := 1 }, [0]⟩) ∧
    (representable dbl_huge ∧
      fp_setup binary64 FP_stats.blank (DCELL.fin 0) (DCELL.fin dbl_huge) 0 0
        = Except.ok setup_0_huge ∧
      ⌊1000 * (dbl_huge - 0) / (dbl_huge - 0)⌋ = 1000 ∧
      DCELL.mul binary64 (DCELL.fin 1000) (DCELL.fin dbl_huge) = DCELL.pinf ∧
      bucket binary64 setup_0_huge (transform binary64 setup_0_huge (DCELL.fin dbl_huge))
        = none ∧
      get_fp_stats binary64 (raster_1x1 dbl_huge) FP_stats.blank (DCELL.fin 0)
        (DCELL.fin dbl_huge) 0 0 = Outcome.undefined) :=
  ⟨⟨by decide!, by decide!, by decide!, by decide!, by decide!, by decide!, by decide!,
      by decide!⟩,
    ⟨by decide!, by decide!, by decide!, by decide!, by decide!, by decide!⟩⟩

/-! ## Bucket order and raw value order (C13) -/

/-- In an arithmetic whose rounding and logarithm are monotone, with
`geom_abs` off, on a range `min < max` that excludes zero under `geometric`:
wherever the bucket index is defined it does not decrease with the raw cell
value, in the plain mode, in the geometric mode and under the sign flip. -/
theorem bucket_monotone_raw {α : Type} [LinearOrderedField α] [FloorRing α] (A : FArith α)
    (hA : A.rounds_monotone) (hln : A.log_monotone) (statf st : FP_stats α) (min max : α)
    (geometric : Int) (hlt : min < max) (hz : geometric ≠ 0 → 0 < min ∨ max < 0)
    (hst : fp_setup A statf (DCELL.fin min) (DCELL.fin max) geometric 0 = Except.ok st)
    (u v : α) (huv : u ≤ v) (i j : Int)
    (hi : bucket A st (transform A st (DCELL.fin u)) = some i)
    (hj : bucket A st (transform A st (DCELL.fin v)) = some j) : i ≤ j := by
  obtain ⟨_, hflip, hb⟩ := fp_setup_ok_fields _ _ _ _ _ _ _ hst
  obtain ⟨hg, hga, hcount, _, _⟩ := fp_setup_ok _ _ _ _ _ _ _ hst
  simp only [ne_eq, not_true_eq_false, if_false, Prod.mk.injEq] at hb
  by_cases hg0 : geometric = 0
  · simp only [hg0, ne_eq, not_true_eq_false, if_false] at hflip hb
    have htr : ∀ x : α, transform A st (DCELL.fin x) = DCELL.fin x := by
      intro x
      simp [transform, hg, hg0, hga, hflip]
    rw [htr] at hi hj
    exact (bucket_monotone A hA st min max u v i j hcount hb.1 hb.2 huv hi hj).1 hlt.le
  · have hgst : st.geometric ≠ 0 := by rw [hg]; exact hg0
    have hcpos : 0 < st.count := by rw [hcount]; norm_num
    -- a cell with a bucket index is positive where the logarithm is taken
    have hpos : ∀ (x : α) (k : Int), bucket A st (transform A st (DCELL.fin x)) = some k →
        0 < (if st.flip ≠ 0 then -x else x) := by
      intro x k hk
      by_contra hc
      rw [bucket_nonfinite A st _ (transform_nonpositive A st x hgst (not_lt.1 hc)) hcpos] at hk
      cases hk
    simp only [ne_eq, hg0, not_false_eq_true, if_true] at hflip hb
    rcases hz hg0 with hminpos | hmaxneg
    · have hnlt : ¬ min < 0 := not_lt.2 hminpos.le
      have hmaxpos : 0 < max := hminpos.trans hlt
      simp only [setup_geometric, DCELL.lt, hnlt, decide_False, Bool.false_eq_true, if_false,
        DCELL.log, hminpos, hmaxpos, if_true] at hflip hb
      have hu := hpos u i hi
      have hv := hpos v j hj
      simp only [hflip, ne_eq, not_true_eq_false, if_false] at hu hv
      have htr : ∀ x : α, 0 < x → transform A st (DCELL.fin x) = DCELL.fin (A.ln x) := by
        intro x hx
        simp [transform, hg, hg0, hga, hflip, DCELL.log, hx]
      rw [htr u hu] at hi
      rw [htr v hv] at hj
      exact (bucket_monotone A hA st (A.ln min) (A.ln max) (A.ln u) (A.ln v) i j hcount hb.1
        hb.2 (hln u v hu huv) hi hj).1 (hln min max hminpos hlt.le)
    · have hminneg : min < 0 := hlt.trans hmaxneg
      have h1 : 0 < -min := by linarith
      have h2 : 0 < -max := by linarith
      simp only [setup_geometric, DCELL.lt, hminneg, decide_True, if_true, DCELL.neg,
        DCELL.log, h1, h2] at hflip hb
      have hu := hpos u i hi
      have hv := hpos v j hj
      simp only [hflip, ne_eq, one_ne_zero, not_false_eq_true, if_true] at hu hv
      have htr : ∀ x : α, 0 < -x → transform A st (DCELL.fin x) = DCELL.fin (A.ln (-x)) := by
        intro x hx
        simp [transform, hg, hg0, hga, hflip, DCELL.neg, DCELL.log, hx]
      rw [htr u hu] at hi
      rw [htr v hv] at hj
      exact (bucket_monotone A hA st (A.ln (-min)) (A.ln (-max)) (A.ln (-v)) (A.ln (-u)) j i
        hcount hb.1 hb.2 (hln (-v) (-u) hv (by linarith)) hj hi).2
        (hln (-max) (-min) h2 (by linarith))

/-- Claim C13, as the code has it. With `geom_abs` off, in the plain mode
(`min < max`) and in the geometric mode (`0 < min < max`, or `min < max < 0`,
where `flip = 1` and `statf->min > statf->max`).  In exact real arithmetic the
bucket index is non-decreasing in the raw cell value over `[min, max]`, a cell
equal to the caller's `min` has index 0 and a cell equal to the caller's `max`
has index 1000.  In binary64 arithmetic, with a monotone library logarithm,
the setup succeeds as well and the bucket index is non-decreasing in the raw
cell value wherever it is defined; and in the plain mode, for finite values
`min < max` of the format, a cell equal to the caller's `min` has index 0. -/
theorem bucket_order_follows_value (statf : FP_stats ℝ) (min max : ℝ) (geometric : Int)
    (ln : ℚ → ℚ) (statq : FP_stats ℚ) (minq maxq : ℚ)
    (hlt : min < max) (hz : geometric ≠ 0 → 0 < min ∨ max < 0)
    (hln : (binary64_log ln).log_monotone)
    (hq : minq < maxq) (hzq : geometric ≠ 0 → 0 < minq ∨ maxq < 0) :
    (∃ st : FP_stats ℝ,
      fp_setup (FArith.exact Real.log) statf (DCELL.fin min) (DCELL.fin max) geometric 0
        = Except.ok st ∧
      (geometric ≠ 0 → max < 0 → st.flip = 1 ∧ DCELL.lt st.max st.min = true) ∧
      (∀ v1 v2, min ≤ v1 → v1 ≤ v2 → v2 ≤ max →
        ∃ i1 i2,
          bucket (FArith.exact Real.log) st
            (transform (FArith.exact Real.log) st (DCELL.fin v1)) = some i1 ∧
          bucket (FArith.exact Real.log) st
            (transform (FArith.exact Real.log) st (DCELL.fin v2)) = some i2 ∧
          i1 ≤ i2) ∧
      bucket (FArith.exact Real.log) st
        (transform (FArith.exact Real.log) st (DCELL.fin min)) = some 0 ∧
      bucket (FArith.exact Real.log) st
        (transform (FArith.exact Real.log) st (DCELL.fin max)) = some 1000) ∧
    (∃ st : FP_stats ℚ,
      fp_setup (binary64_log ln) statq (DCELL.fin minq) (DCELL.fin maxq) geometric 0
        = Except.ok st ∧
      (∀ (u v : ℚ) (i j : Int), u ≤ v →
        bucket (binary64_log ln) st (transform (binary64_log ln) st (DCELL.fin u)) = some i →
        bucket (binary64_log ln) st (transform (binary64_log ln) st (DCELL.fin v)) = some j →
        i ≤ j) ∧
      (geometric = 0 → representable minq → representable maxq →
        bucket (binary64_log ln) st (transform (binary64_log ln) st (DCELL.fin minq))
          = some 0)) := by
  constructor
  · obtain ⟨st, lo, hi, t, hst, hmin, hmax, hne, htr, hplain⟩ :=
      setup_and_transform statf min max geometric 0 hlt hz
    obtain ⟨htmin, htmax, hdir⟩ := hplain rfl
    obtain ⟨_, _, hcount, _, _⟩ := fp_setup_ok _ _ _ _ _ _ _ hst
    have hbucket : ∀ v, min ≤ v → v ≤ max →
        bucket (FArith.exact Real.log) st (transform (FArith.exact Real.log) st (DCELL.fin v))
          = some ⌊1000 * (t v - lo) / (hi - lo)⌋ := by
      intro v h1 h2
      obtain ⟨e, hb⟩ := htr v h1 h2
      rw [e]
      exact (bucket_exact_between Real.log st lo hi (t v) hcount hmin hmax hne hb).1
    have hd : hi - lo ≠ 0 := sub_ne_zero.2 (Ne.symm hne)
    refine ⟨st, hst, ?_, ?_, ?_, ?_⟩
    · intro hg hneg
      rcases hdir with ⟨hf0, h, _⟩ | ⟨hflip, _, _, h, _⟩
      · have hmin0 : min < 0 := hlt.trans hneg
        rcases hz hg with hpos | _
        · exact absurd hpos (not_lt.2 hmin0.le)
        · -- under `geometric` with `max < 0` the setup flips
          obtain ⟨_, hflip, _⟩ := fp_setup_ok_fields _ _ _ _ _ _ _ hst
          simp only [ne_eq, hg, not_false_eq_true, if_true, setup_geometric, DCELL.lt, hmin0,
            decide_True] at hflip
          rw [hf0] at hflip
          exact absurd hflip (by decide)
      · exact ⟨hflip, by simp only [hmin, hmax, DCELL.lt, h, decide_True]⟩
    · intro v1 v2 h1 h12 h2
      refine ⟨_, _, hbucket v1 h1 (h12.trans h2), hbucket v2 (h1.trans h12) h2, ?_⟩
      apply Int.floor_mono
      apply position_mono
      rcases hdir with ⟨_, h, hmono⟩ | ⟨_, _, _, h, hanti⟩
      · exact Or.inl ⟨h, hmono v1 v2 h1 h12 h2⟩
      · exact Or.inr ⟨h, hanti v1 v2 h1 h12 h2⟩
    · rw [hbucket min le_rfl hlt.le, htmin, sub_self, mul_zero, zero_div, Int.floor_zero]
    · rw [hbucket max hlt.le le_rfl, htmax, mul_div_assoc, div_self hd, mul_one]
      have h := @Int.floor_intCast ℝ _ _ 1000
      simp only [Int.cast_ofNat] at h
      rw [h]
  · have hA := binary64_rounds_monotone ln
    have hprod : ¬ (geometric ≠ 0 ∧ DCELL.lt (DCELL.mul (binary64_log ln) (DCELL.fin minq)
        (DCELL.fin maxq)) (DCELL.fin 0) = true) := by
      rintro ⟨hg, h⟩
      have h' := (dbl_lt_zero_iff (minq * maxq)).1 h
      have hp := pow2_pos (-1075)
      rcases hzq hg with h1 | h1
      · have := mul_pos h1 (h1.trans hq)
        linarith
      · have := mul_pos_of_neg_of_neg (hq.trans h1) h1
        linarith
    obtain ⟨st, hst⟩ := fp_setup_ok_of_not_error (binary64_log ln) statq (DCELL.fin minq)
      (DCELL.fin maxq) geometric 0 hprod
    refine ⟨st, hst, ?_, ?_⟩
    · intro u v i j huv hi hj
      exact bucket_monotone_raw (binary64_log ln) hA hln statq st minq maxq geometric hq hzq
        hst u v huv i j hi hj
    · intro hg0 hrmin hrmax
      obtain ⟨_, hflip, hb⟩ := fp_setup_ok_fields _ _ _ _ _ _ _ hst
      obtain ⟨hg, hga, hcount, _, _⟩ := fp_setup_ok _ _ _ _ _ _ _ hst
      simp only [hg0, ne_eq, not_true_eq_false, if_false, Prod.mk.injEq] at hflip hb
      have htr : transform (binary64_log ln) st (DCELL.fin minq) = DCELL.fin minq := by
        simp [transform, hg, hg0, hga, hflip]
      rw [htr]
      have hd : DCELL.lt (DCELL.fin 0) ((binary64_log ln).rnd (maxq - minq)) = true := by
        dsimp only [binary64_log]
        exact dbl_sub_pos minq maxq hrmin hrmax hq
      exact bucket_at_min (binary64_log ln) st minq maxq hA.1 hcount hb.1 hb.2 hd

/-- C13 as the code has it, on `min = -100`, `max = -1` under `geometric`, in
exact real arithmetic: `flip = 1`, the stored bounds are in decreasing order,
the cell -100 has index 0 and the cell -1 has index 1000. -/
theorem bucket_order_follows_value_witness :
    ∃ st : FP_stats ℝ,
      fp_setup (FArith.exact Real.log) FP_stats.blank (DCELL.fin (-100)) (DCELL.fin (-1)) 1 0
        = Except.ok st ∧
      st.flip = 1 ∧ DCELL.lt st.max st.min = true ∧
      bucket (FArith.exact Real.log) st
        (transform (FArith.exact Real.log) st (DCELL.fin (-100))) = some 0 ∧
      bucket (FArith.exact Real.log) st
        (transform (FArith.exact Real.log) st (DCELL.fin (-1))) = some 1000 := by
  obtain ⟨st, hst, hflip, _, h0, h1000⟩ :=
    (bucket_order_follows_value FP_stats.blank (-100 : ℝ) (-1) 1 no_log FP_stats.blank
      (-100) (-1) (by norm_num) (fun _ => Or.inr (by norm_num))
      (fun _ _ _ _ => le_rfl) (by norm_num) (fun _ => Or.inr (by norm_num))).1
  obtain ⟨hf, hlt⟩ := hflip (by decide) (by norm_num)
  exact ⟨st, hst, hf, hlt, h0, h1000⟩

/-- Claim C13, counterexample. In binary64 arithmetic, in the plain mode with
`min = 0.0`, `max = 2.2`, the cell equal to the caller's `max` does not land
in bucket 1000: `1000 * (2.2 - 0.0)` is rounded to 2200 and `2200 / 2.2` to
`1000 - 2 ^ (-43)`, so its index is 999 and the run counts it in bucket 999
(the cell equal to `min` has index 0). -/
theorem max_cell_bucket_999 :
    fp_setup binary64 FP_stats.blank (DCELL.fin 0) (DCELL.fin dbl_2_2) 0 0
        = Except.ok setup_0_2_2 ∧
    (0 : ℚ) < dbl_2_2 ∧
    bucket binary64 setup_0_2_2 (transform binary64 setup_0_2_2 (DCELL.fin 0)) = some 0 ∧
    bucket binary64 setup_0_2_2 (transform binary64 setup_0_2_2 (DCELL.fin dbl_2_2))
      = some 999 ∧
    get_fp_stats binary64 (raster_1x1 dbl_2_2) FP_stats.blank (DCELL.fin 0)
        (DCELL.fin dbl_2_2) 0 0
      = Outcome.returned ⟨{ setup_0_2_2 with
          stats := (List.replicate 1001 0).set 999 1, total := 1 }, [0]⟩ :=
  ⟨by decide!, by decide!, by decide!, by decide!, by decide!⟩

end RColors
